import Mathlib

/-
  Verification development for the LiveTemplate client tree-reconciliation
  engine (the TreeRenderer class: applyUpdate / deepMergeTreeNodes /
  applyDifferentialOpsToRange / reconstructFromTree / renderValue /
  renderRangeStructure / applyDifferentialOperations / renderItemsWithStatics /
  addItemsToRange / getItemKey / findItemIndexByKey).

  The embedding is a shallow one over JSON-compatible JavaScript values:
  - machine values are modelled by the inductive type Val (JSON.parse output
    never contains undefined, functions or cyclic references, so Val needs
    no undefined constructor; property *absence* models undefined reads);
  - the renderer instance state (treeState / rangeState / rangeIdKeys) is an
    explicit record threaded through every function;
  - in-place array/object mutation in the source is modelled by value
    passing; this is faithful because every mutation site in the source
    operates on a freshly deep-cloned structure or on arrays that are never
    aliased observably afterwards (JSON.parse never aliases subobjects, and
    the code clones before mutating);
  - a JavaScript TypeError (reading a property of null) is modelled by
    Except; render recursion is fuel-bounded (the source recursion is not
    structural: rendering stored differential-op placeholders pulls items
    out of rangeState), with fuel exhaustion kept distinct from a throw;
  - JSON.stringify equality of two values built by this code is structural
    equality of Val (stringify is injective on JSON values up to object key
    order, and key order is tracked by the field lists).
-/

namespace LT

inductive Val where
  | vnull
  | vbool (b : Bool)
  | vnum  (n : Int)
  | vstr  (s : String)
  | varr  (xs : List Val)
  | vobj  (fs : List (String × Val))
deriving Repr

open Val

/-- Size bound used for structural induction over nested lists. -/
theorem sizeOf_mem_arr {v : Val} {xs : List Val} (h : v ∈ xs) :
    sizeOf v < sizeOf (varr xs) := by
  have := List.sizeOf_lt_of_mem h
  simp only [varr.sizeOf_spec]
  omega

/-- Size bound used for structural induction over nested field lists. -/
theorem sizeOf_mem_obj {kv : String × Val} {fs : List (String × Val)} (h : kv ∈ fs) :
    sizeOf kv.2 < sizeOf (vobj fs) := by
  have h1 := List.sizeOf_lt_of_mem h
  have h2 : sizeOf kv.2 < sizeOf kv := by
    obtain ⟨k, v⟩ := kv
    simp only [Prod.mk.sizeOf_spec]
    omega
  simp only [vobj.sizeOf_spec]
  omega

/-- Structural induction principle for Val that recurses through the nested
lists. -/
theorem Val.strongInduction (P : Val → Prop)
    (hnull : P vnull) (hbool : ∀ b, P (vbool b)) (hnum : ∀ n, P (vnum n))
    (hstr : ∀ s, P (vstr s))
    (harr : ∀ xs, (∀ v ∈ xs, P v) → P (varr xs))
    (hobj : ∀ fs, (∀ kv ∈ fs, P kv.2) → P (vobj fs)) : ∀ v, P v := by
  have key : ∀ n v, sizeOf v ≤ n → P v := by
    intro n
    induction n using Nat.strong_induction_on with
    | _ n ih =>
      intro v hv
      match v with
      | vnull => exact hnull
      | vbool b => exact hbool b
      | vnum k => exact hnum k
      | vstr s => exact hstr s
      | varr xs =>
        exact harr xs (fun w hw =>
          have := sizeOf_mem_arr hw
          ih (sizeOf w) (by omega) w le_rfl)
      | vobj fs =>
        exact hobj fs (fun kv hkv =>
          have := sizeOf_mem_obj hkv
          ih (sizeOf kv.2) (by omega) kv.2 le_rfl)
  exact fun v => key (sizeOf v) v le_rfl

/-- JavaScript truthiness of a JSON value (NaN cannot arise here). -/
def truthy : Val → Bool
  | vnull => false
  | vbool b => b
  | vnum n => n != 0
  | vstr s => s != ""
  | varr _ => true
  | vobj _ => true

/-- JavaScript strict equality (===) restricted to values flowing through
this code: primitives compare structurally; two object/array operands are
never the same reference here (JSON.parse and deepClone never alias), so
they compare unequal. -/
def jsStrictEq : Val → Val → Bool
  | vnull, vnull => true
  | vbool a, vbool b => a == b
  | vnum a, vnum b => a == b
  | vstr a, vstr b => a == b
  | _, _ => false

/-- Structural equality of JSON values; this is exactly agreement of
JSON.stringify on the values this code builds (field lists track key
order). Used to model the stringify-based change detection. -/
def valEq : Val → Val → Bool
  | vnull, vnull => true
  | vbool a, vbool b => a == b
  | vnum a, vnum b => a == b
  | vstr a, vstr b => a == b
  | varr a, varr b => goL a b
  | vobj a, vobj b => goF a b
  | _, _ => false
where
  goL : List Val → List Val → Bool
    | [], [] => true
    | a :: r, b :: s => valEq a b && goL r s
    | _, _ => false
  goF : List (String × Val) → List (String × Val) → Bool
    | [], [] => true
    | (k, a) :: r, (l, b) :: s => k == l && valEq a b && goF r s
    | _, _ => false

/-- First-occurrence lookup in an association list (JavaScript object
property read; built objects never carry duplicate keys). -/
def getA {α : Type} : List (String × α) → String → Option α
  | [], _ => none
  | (k', v') :: r, k => if k' = k then some v' else getA r k

/-- Property assignment on an association list: replaces the first
occurrence in place (JavaScript keeps the original insertion position) or
appends. -/
def setA {α : Type} : List (String × α) → String → α → List (String × α)
  | [], k, v => [(k, v)]
  | (k', v') :: r, k, v => if k' = k then (k, v) :: r else (k', v') :: setA r k v

/-- Field read on an object value; none models an undefined read (also for
non-object bases other than null, where JS yields undefined). -/
def getField : Val → String → Option Val
  | vobj fs, k => getA fs k
  | _, _ => none

/-- Decimal value of a digits-only string (String.toNat? does not reduce
definitionally, so the digit fold is spelled out). -/
def digitsToNat (s : String) : Nat :=
  s.toList.foldl (fun n c => n * 10 + (c.toNat - 48)) 0

/-- Prefix and suffix tests over the character lists (the library String
functions do not reduce definitionally). -/
def strStartsWith (s p : String) : Bool := p.toList.isPrefixOf s.toList

def strEndsWith (s p : String) : Bool :=
  p.toList.reverse.isPrefixOf s.toList.reverse

/-- Canonical array-index parse of a property key: JS array indexing only
hits an element for the canonical decimal form (no leading zeros). -/
def canonIndex (s : String) : Option Nat :=
  if s ≠ "" ∧ s.toList.all Char.isDigit ∧ (s = "0" ∨ s.toList.headD '0' ≠ '0') then
    some (digitsToNat s)
  else none

/-- JS string conversion of a JSON value (the coercion of the += operator
and of String(value)). Array conversion is Array.prototype.join with ","
where null elements become the empty string; objects become the generic
object marker. -/
def jsToString : Val → String
  | vnull => "null"
  | vbool b => if b then "true" else "false"
  | vnum n => toString n
  | vstr s => s
  | varr xs => joinElems xs
  | vobj _ => "[object Object]"
where
  joinElems : List Val → String
    | [] => ""
    | [vnull] => ""
    | [v] => jsToString v
    | vnull :: r => "," ++ joinElems r
    | v :: r => jsToString v ++ "," ++ joinElems r

inductive Err where
  | thrown
  | fuelOut
deriving Repr, DecidableEq

/-- JS property read item[key] on an arbitrary base value: throws a
TypeError for a null base; returns the indexed character for a string base
with a canonical numeric key; none models an undefined result. -/
def propGet : Val → String → Except Err (Option Val)
  | vnull, _ => .error .thrown
  | vobj fs, k => .ok (getA fs k)
  | varr xs, k =>
      match canonIndex k with
      | some i => .ok (xs[i]?)
      | none => .ok none
  | vstr s, k =>
      match canonIndex k with
      | some i =>
          match s.toList[i]? with
          | some c => .ok (some (vstr (String.mk [c])))
          | none => .ok none
      | none => .ok none
  | _, _ => .ok none

/-- JS coercion of a value used as a property key. -/
def valToPropKey : Val → String :=
  jsToString

/-- isRangeNode from the source: a node with both a d array and an s array
(the inline existingIsRange checks in applyUpdate/deepMergeTreeNodes test
exactly the same condition: arrays themselves never satisfy it because an
array has no d property). -/
def isRangeNode : Val → Bool
  | vobj fs =>
      (match getA fs "d" with | some (varr _) => true | _ => false) &&
      (match getA fs "s" with | some (varr _) => true | _ => false)
  | _ => false

def isRangeNodeO : Option Val → Bool
  | some v => isRangeNode v
  | none => false

/-- The structural test for a differential-operations array: a non-empty
array whose first element is an array beginning with a string. -/
def isDiffOps : Val → Bool
  | varr (varr (vstr _ :: _) :: _) => true
  | _ => false

/-- deepClone from the source (structuredClone / JSON round-trip): under
value semantics a deep copy is the value itself. -/
def deepClone (v : Val) : Val := v

/-- Per-path range index entry (RangeStateEntry in the source). statics is
kept as the raw value because a differential op can overwrite it with an
arbitrary value; staticsMap is none when the sm field was absent. -/
structure RangeEntry where
  items : List Val
  statics : Val
  staticsMap : Option Val
deriving Repr

/-- The mutable state of a TreeRenderer instance. -/
structure RState where
  treeState : List (String × Val)
  rangeState : List (String × RangeEntry)
  rangeIdKeys : List (String × Val)
deriving Repr

/-- State of a freshly constructed renderer (also the state after reset). -/
def initState : RState := ⟨[], [], []⟩

/-- getTreeState: a defensive shallow copy of the root, i.e. the root
object value. -/
def getTreeState (st : RState) : Val := vobj st.treeState

/-- getStaticStructure: this.treeState.s || null. -/
def getStaticStructure (st : RState) : Option Val :=
  match getA st.treeState "s" with
  | some v => if truthy v then some v else none
  | none => none

/-- getItemKey: null unless an idKey is registered for the path (a falsy
registration behaves as unregistered); otherwise item[keyPos] || null,
which throws on a null item and maps a falsy slot value to null. -/
def getItemKey (rik : List (String × Val)) (item : Val)
    (statePath : Option String) : Except Err (Option Val) :=
  match statePath with
  | none => .ok none
  | some p =>
      if p = "" then .ok none
      else
        match getA rik p with
        | none => .ok none
        | some kv =>
            if truthy kv then do
              let r ← propGet item (valToPropKey kv)
              match r with
              | none => pure none
              | some v => pure (if truthy v then some v else none)
            else .ok none

/-- findItemIndexByKey: items.findIndex(item => getItemKey(item,...) === key);
none models the -1 result. The comparison uses the raw getItemKey result,
so a null lookup result strictly-equals a null key. -/
def findItemIndexByKey (rik : List (String × Val)) (items : List Val)
    (key : Val) (statePath : Option String) : Except Err (Option Nat) :=
  go items 0
where
  go : List Val → Nat → Except Err (Option Nat)
    | [], _ => .ok none
    | it :: r, i => do
        let k ← getItemKey rik it statePath
        let kv := match k with | none => vnull | some v => v
        if jsStrictEq kv key then pure (some i) else go r (i + 1)

/-- Object spread {...a, ...b} (the shallow merge in the u op): own
enumerable properties of a then b, later keys overwriting in place. -/
def spreadFields : Val → List (String × Val)
  | vobj fs => fs
  | varr xs => xs.enum.map (fun p => (toString p.1, p.2))
  | vstr s => (s.toList.enum.map (fun p => (toString p.1, vstr (String.mk [p.2]))))
  | _ => []

def jsSpread2 (a b : Val) : Val :=
  vobj ((spreadFields a ++ spreadFields b).foldl (fun acc p => setA acc p.1 p.2) [])

/-- Array.isArray(x) ? x : [x]. -/
def toArrOr : Val → List Val
  | varr xs => xs
  | v => [v]

/-- Map keyed by item-key values (the Map in the o op); SameValueZero
coincides with jsStrictEq for the values that can be keys here. -/
def mapSet : List (Val × Val) → Val → Val → List (Val × Val)
  | [], k, v => [(k, v)]
  | (k', v') :: r, k, v =>
      if jsStrictEq k' k then (k', v) :: r else (k', v') :: mapSet r k v

def mapGet : List (Val × Val) → Val → Option Val
  | [], _ => none
  | (k', v') :: r, k => if jsStrictEq k' k then some v' else mapGet r k

/-- m.idKey when m is a truthy object with a string idKey (the metadata
check on a Range node). -/
def metaIdKey (fs : List (String × Val)) : Option String :=
  match getA fs "m" with
  | some (vobj ms) =>
      match getA ms "idKey" with
      | some (vstr s) => some s
      | _ => none
  | _ => none

/-- The for-of iteration of the o op over operation[1]: arrays iterate
elements, strings iterate characters, anything else throws. -/
def iterOrder : Val → Except Err (List Val)
  | varr xs => .ok xs
  | vstr s => .ok (s.toList.map (fun c => vstr (String.mk [c])))
  | _ => .error .thrown

/-- The operations list of a differential-operations array value. -/
def opsOf : Val → List Val
  | varr os => os
  | _ => []

/-- splice(i+1, 0, ...ins). -/
def insertAfter (items : List Val) (i : Nat) (ins : List Val) : List Val :=
  items.take (i + 1) ++ ins ++ items.drop (i + 1)

/-- One iteration of the operation loop in applyDifferentialOpsToRange,
acting on (current items, current rangeStructure.s, renderer state). -/
def applyDiffOpToRangeStep (statePath : String)
    (acc : List Val × Val × RState) (operation : Val) :
    Except Err (List Val × Val × RState) := do
  let (items, statics, st) := acc
  match operation with
  | varr (opT :: arg1 :: rest) =>
      match opT with
      | vstr "r" => do
          let idx ← findItemIndexByKey st.rangeIdKeys items arg1 (some statePath)
          match idx with
          | some i => pure (items.eraseIdx i, statics, st)
          | none => pure (items, statics, st)
      | vstr "u" => do
          let idx ← findItemIndexByKey st.rangeIdKeys items arg1 (some statePath)
          match idx, rest[0]? with
          | some i, some changes =>
              if truthy changes then
                pure (items.set i (jsSpread2 (items.getD i vnull) changes), statics, st)
              else pure (items, statics, st)
          | _, _ => pure (items, statics, st)
      | vstr "a" =>
          let itemsToAdd := toArrOr arg1
          let statics' := match rest[0]? with
            | some s2 => if truthy s2 then s2 else statics
            | none => statics
          let st' := match rest[1]? with
            | some m3 =>
                if truthy m3 then
                  match m3 with
                  | vobj ms =>
                      match getA ms "idKey" with
                      | some kv =>
                          if truthy kv then
                            { st with rangeIdKeys := setA st.rangeIdKeys statePath kv }
                          else st
                      | none => st
                  | _ => st
                else st
            | none => st
          pure (items ++ itemsToAdd, statics', st')
      | vstr "p" =>
          let itemsToPrepend := toArrOr arg1
          let statics' := match rest[0]? with
            | some s2 => if truthy s2 then s2 else statics
            | none => statics
          pure (itemsToPrepend ++ items, statics', st)
      | vstr "i" => do
          let idx ← findItemIndexByKey st.rangeIdKeys items arg1 (some statePath)
          match idx with
          | some i =>
              let ins := match rest[0]? with
                | some v => toArrOr v
                | none => [vnull]
              pure (insertAfter items i ins, statics, st)
          | none => pure (items, statics, st)
      | vstr "o" => do
          let itemsByKey ← items.foldlM (fun m it => do
            let k ← getItemKey st.rangeIdKeys it (some statePath)
            match k with
            | some kv => pure (mapSet m kv it)
            | none => pure m) ([] : List (Val × Val))
          let order ← iterOrder arg1
          let reordered := order.foldl (fun acc k =>
            match mapGet itemsByKey k with
            | some it => acc ++ [it]
            | none => acc) ([] : List Val)
          pure (reordered, statics, st)
      | _ => pure (items, statics, st)
  | _ => pure (items, statics, st)

/-- applyDifferentialOpsToRange: validates the range structure, seeds the
range index and idKey registry, runs the operation loop on the d array
(mutating rangeStructure.d and possibly rangeStructure.s in place, modelled
by rebuilding those two fields), and refreshes rangeState for the path. -/
def applyDiffOpsToRange (st : RState) (rangeStructure : Val)
    (operations : List Val) (statePath : String) :
    Except Err (Val × RState) :=
  match rangeStructure with
  | vobj fs =>
      match getA fs "d", getA fs "s" with
      | some (varr items0), some (varr ss0) => do
          let smOpt := getA fs "sm"
          let st1 :=
            match getA st.rangeState statePath with
            | none =>
                { st with
                  rangeState := setA st.rangeState statePath ⟨items0, varr ss0, smOpt⟩ }
            | some _ => st
          let st2 :=
            match metaIdKey fs with
            | some idk =>
                { st1 with rangeIdKeys := setA st1.rangeIdKeys statePath (vstr idk) }
            | none => st1
          let (items', statics', st3) ←
            operations.foldlM (applyDiffOpToRangeStep statePath)
              (items0, varr ss0, st2)
          let st4 :=
            { st3 with
              rangeState := setA st3.rangeState statePath ⟨items', statics', smOpt⟩ }
          pure (vobj (setA (setA fs "d" (varr items')) "s" statics'), st4)
      | _, _ => .ok (rangeStructure, st)
  | _ => .ok (rangeStructure, st)

/-- deepMergeTreeNodes. A non-object update (or a non-object existing
value) wins outright; a Range to non-Range transition replaces instead of
merging; otherwise the update's fields are folded into a copy of the
existing object, recursing where both sides are plain objects and applying
differential ops where the stored field is a Range. -/
def deepMergeTreeNodes (st : RState) (existing : Option Val) (update : Val)
    (currentPath : String) : Except Err (Val × RState) :=
  match update with
  | vobj ufs =>
      match existing with
      | some (vobj efs) =>
          if isRangeNode (vobj efs) && !isRangeNode (vobj ufs) then
            .ok (update, st)
          else do
            let (m, st') ← mergeFields st efs ufs currentPath
            pure (vobj m, st')
      | _ => .ok (update, st)
  | _ => .ok (update, st)
where
  mergeFields : RState → List (String × Val) → List (String × Val) → String →
      Except Err (List (String × Val) × RState)
    | st, merged, [], _ => .ok (merged, st)
    | st, merged, (k, v) :: rest, currentPath => do
        let fieldPath := if currentPath = "" then k else currentPath ++ "." ++ k
        let mk := getA merged k
        if isDiffOps v && isRangeNodeO mk then do
          let (m', st') ← applyDiffOpsToRange st (mk.getD vnull) (opsOf v) fieldPath
          mergeFields st' (setA merged k m') rest currentPath
        else
          match v, mk with
          | vobj _, some (vobj _) => do
              let (r, st') ← deepMergeTreeNodes st mk v fieldPath
              mergeFields st' (setA merged k r) rest currentPath
          | _, _ =>
              mergeFields st (setA merged k v) rest currentPath

/-- The body of one field step of mergeFields, factored out after the
definition so that the fold can be reasoned about stepwise. -/
def mergeOne (st : RState) (merged : List (String × Val)) (k : String)
    (v : Val) (currentPath : String) :
    Except Err (List (String × Val) × RState) := do
  let fieldPath := if currentPath = "" then k else currentPath ++ "." ++ k
  let mk := getA merged k
  if isDiffOps v && isRangeNodeO mk then do
    let (m', st') ← applyDiffOpsToRange st (mk.getD vnull) (opsOf v) fieldPath
    pure (setA merged k m', st')
  else
    match v, mk with
    | vobj _, some (vobj _) => do
        let (r, st') ← deepMergeTreeNodes st mk v fieldPath
        pure (setA merged k r, st')
    | _, _ =>
        pure (setA merged k v, st)

/-- Pattern removal semantics of String.prototype.replace with a global
regex and empty replacement: a single left-to-right pass deleting
non-overlapping occurrences; the scan resumes after each match and never
rescans spliced-together text. Fuel is the character count, enough for the
one-per-step consumption. -/
def removePassFuel (p : List Char) : Nat → List Char → List Char
  | 0, l => l
  | _ + 1, [] => []
  | fuel + 1, c :: rest =>
      if p.isPrefixOf (c :: rest) then
        removePassFuel p fuel ((c :: rest).drop p.length)
      else
        c :: removePassFuel p fuel rest

def removeAllOccs (s : String) (pat : String) : String :=
  String.mk (removePassFuel pat.toList s.toList.length s.toList)

/-- html.replace of every <root> occurrence then every close-tag
occurrence, as done at the end of reconstructFromTree. -/
def stripRootTags (s : String) : String :=
  removeAllOccs (removeAllOccs s "<root>") "</root>"

/-- The digits-only key test from the numeric-key detection regex. -/
def isNumericKeyStr (s : String) : Bool :=
  s ≠ "" && s.toList.all Char.isDigit

/-- parseInt on a digits-only key. -/
def parseIntKey (s : String) : Nat := digitsToNat s

/-- Stable ascending insertion by parseInt value, modelling the stable
Array.prototype.sort with the numeric comparator. -/
def insertByKey (x : String) : List String → List String
  | [] => [x]
  | y :: r => if parseIntKey x ≤ parseIntKey y then x :: y :: r else y :: insertByKey x r

def sortNumericKeys (ks : List String) : List String :=
  ks.foldr insertByKey []

/-- statePath ? statePath + "." + k : k (both undefined and the empty
string are falsy). -/
def extendPath (sp : Option String) (k : String) : String :=
  match sp with
  | some s => if s = "" then k else s ++ "." ++ k
  | none => k

def extendPathStr (s : String) (k : String) : String :=
  if s = "" then k else s ++ "." ++ k

/-- statePath || fieldKey || "" in the Range branch of renderValue. -/
def stateKeyOf (statePath fieldKey : Option String) : String :=
  match statePath with
  | some s => if s ≠ "" then s else
      match fieldKey with
      | some f => if f ≠ "" then f else ""
      | none => ""
  | none =>
      match fieldKey with
      | some f => if f ≠ "" then f else ""
      | none => ""

/-- The rangeState/rangeIdKeys side effect of visiting a Range node in
renderValue (learning items, statics, staticsMap and meta.idKey). -/
def recordRangeVisit (st : RState) (fs : List (String × Val)) (ds : List Val)
    (ss : List Val) (stateKey : String) : RState :=
  if stateKey ≠ "" then
    let st1 := { st with
      rangeState := setA st.rangeState stateKey ⟨ds, varr ss, getA fs "sm"⟩ }
    match metaIdKey fs with
    | some idk => { st1 with rangeIdKeys := setA st1.rangeIdKeys stateKey (vstr idk) }
    | none => st1
  else st

/-- staticsMap && typeof staticsMap === "object" (arrays included). -/
def isTruthyObject : Val → Bool
  | vobj _ => true
  | varr _ => true
  | _ => false

/-- itemStatics.length in the item-interleaving loops: arrays and strings
have a numeric length, any other value gives undefined and a loop bound of
zero. -/
def staticsAsList : Val → List Val
  | varr xs => xs
  | vstr s => s.toList.map (fun c => vstr (String.mk [c]))
  | _ => []

/-- getCurrentRangeStructure: prefer the range index entry (synthesised
back into a node), else a stored tree node with a truthy s. -/
def getCurrentRangeStructure (st : RState) (stateKey : String) : Option Val :=
  match getA st.rangeState stateKey with
  | some e =>
      some (vobj ([("d", varr e.items), ("s", e.statics)] ++
        (match e.staticsMap with | some m => [("sm", m)] | none => [])))
  | none =>
      match getA st.treeState stateKey with
      | some fv =>
          match fv with
          | vobj ffs =>
              match getA ffs "s" with
              | some sv => if truthy sv then some fv else none
              | none => none
          | _ => none
      | none => none

/-- addItemsToRange: possibly replace the entry's statics, then push or
unshift the item(s); a falsy items argument adds nothing. -/
def addItemsToRange (currentItems : List Val) (items : Option Val)
    (statics : Option Val) (entryStatics : Val) (prepend : Bool) :
    List Val × Val :=
  let entryStatics' := match statics with
    | some sv => if truthy sv then sv else entryStatics
    | none => entryStatics
  match items with
  | none => (currentItems, entryStatics')
  | some iv =>
      if truthy iv then
        let arr := toArrOr iv
        if prepend then (arr ++ currentItems, entryStatics')
        else (currentItems ++ arr, entryStatics')
      else (currentItems, entryStatics')

/-- One iteration of the operation loop in applyDifferentialOperations
(the render-time application against the range index). It differs from the
merge-time loop in the a/p cases, which go through addItemsToRange. -/
def applyDiffOpStep (statePath : String)
    (acc : List Val × Val × RState) (operation : Val) :
    Except Err (List Val × Val × RState) := do
  let (items, entryStatics, st) := acc
  match operation with
  | varr (opT :: arg1 :: rest) =>
      match opT with
      | vstr "r" => do
          let idx ← findItemIndexByKey st.rangeIdKeys items arg1 (some statePath)
          match idx with
          | some i => pure (items.eraseIdx i, entryStatics, st)
          | none => pure (items, entryStatics, st)
      | vstr "u" => do
          let idx ← findItemIndexByKey st.rangeIdKeys items arg1 (some statePath)
          match idx, rest[0]? with
          | some i, some changes =>
              if truthy changes then
                pure (items.set i (jsSpread2 (items.getD i vnull) changes),
                  entryStatics, st)
              else pure (items, entryStatics, st)
          | _, _ => pure (items, entryStatics, st)
      | vstr "a" =>
          let (items', statics') :=
            addItemsToRange items (some arg1) rest[0]? entryStatics false
          let st' := match rest[1]? with
            | some m3 =>
                if truthy m3 then
                  match m3 with
                  | vobj ms =>
                      match getA ms "idKey" with
                      | some kv =>
                          if truthy kv then
                            { st with rangeIdKeys := setA st.rangeIdKeys statePath kv }
                          else st
                      | none => st
                  | _ => st
                else st
            | none => st
          pure (items', statics', st')
      | vstr "p" =>
          let (items', statics') :=
            addItemsToRange items (some arg1) rest[0]? entryStatics true
          pure (items', statics', st)
      | vstr "i" => do
          let idx ← findItemIndexByKey st.rangeIdKeys items arg1 (some statePath)
          match idx with
          | some i =>
              let ins := match rest[0]? with
                | some v => toArrOr v
                | none => [vnull]
              pure (insertAfter items i ins, entryStatics, st)
          | none => pure (items, entryStatics, st)
      | vstr "o" => do
          let itemsByKey ← items.foldlM (fun m it => do
            let k ← getItemKey st.rangeIdKeys it (some statePath)
            match k with
            | some kv => pure (mapSet m kv it)
            | none => pure m) ([] : List (Val × Val))
          let order ← iterOrder arg1
          let reordered := order.foldl (fun acc k =>
            match mapGet itemsByKey k with
            | some it => acc ++ [it]
            | none => acc) ([] : List Val)
          pure (reordered, entryStatics, st)
      | _ => pure (items, entryStatics, st)
  | _ => pure (items, entryStatics, st)

/-- The shapes of the mutually recursive render calls (renderValue /
reconstructFromTree / renderRangeStructure / applyDifferentialOperations /
renderItemsWithStatics and their loops). The recursion of the source is
not structural, so it runs inside a single fuel-indexed step function; the
named wrappers below recover the source functions. -/
inductive RenderReq where
  | value (value : Val) (fieldKey statePath : Option String)
  | numericKeys (ks : List String) (fs : List (String × Val)) (statePath : Option String)
  | arrayItems (xs : List Val) (idx : Nat) (statePath : Option String)
  | fromTree (node : Val) (statePath : String)
  | slots (segs : List Val) (i : Nat) (fs : List (String × Val)) (statePath : String)
  | rangeStructure (rangeNode : Val) (fieldKey statePath : Option String)
  | rangeItems (items : List Val) (itemIdx : Nat) (sharedStatics : Val)
      (smOpt : Option Val) (statePath : Option String)
  | itemSlots (segs : List Val) (i : Nat) (item : Val) (itemIdx : Nat)
      (statePath : Option String)
  | rangeFallback (items : List Val) (idx : Nat) (statePath : Option String)
  | diffOps (operations : List Val) (statePath : Option String)
  | itemsWithStatics (items : List Val) (statics : Val) (smOpt : Option Val)
      (statePath : Option String)
  | plainItems (items : List Val)

/-- One fuel level of the render recursion; each case is the body of the
corresponding source function. -/
def renderStep : Nat → RenderReq → RState → Except Err (String × RState)
  | 0, _, _ => .error .fuelOut
  | f + 1, req, st =>
    match req with
    | .value value fieldKey statePath =>
      -- renderValue: null and placeholder strings render empty; objects
      -- dispatch on shape (Range / Fragment / numeric-keys-only / opaque);
      -- arrays dispatch on the differential-ops shape; scalars stringify.
      (match value with
      | vnull => .ok ("", st)
      | vstr s =>
          if strStartsWith s "\x7b\x7b" && strEndsWith s "\x7d\x7d" then .ok ("", st)
          else .ok (s, st)
      | vobj fs =>
          match getA fs "d", getA fs "s" with
          | some (varr ds), some (varr ss) =>
              let stateKey := stateKeyOf statePath fieldKey
              let st1 := recordRangeVisit st fs ds ss stateKey
              renderStep f (.rangeStructure value fieldKey statePath) st1
          | _, _ =>
              match getA fs "s" with
              | some (varr _) =>
                  renderStep f (.fromTree value (statePath.getD "")) st
              | _ =>
                  let keys := fs.map Prod.fst
                  let numericKeys := keys.filter isNumericKeyStr
                  if numericKeys ≠ [] ∧ numericKeys.length = keys.length then
                    renderStep f (.numericKeys (sortNumericKeys numericKeys) fs statePath) st
                  else
                    .ok ("", st)
      | varr xs =>
          if isDiffOps (varr xs) then
            renderStep f (.diffOps xs statePath) st
          else
            renderStep f (.arrayItems xs 0 statePath) st
      | v => .ok (jsToString v, st))
    | .numericKeys ks fs statePath =>
      -- the numeric-keys-only branch of renderValue: render each numbered
      -- value in ascending numeric key order, concatenated.
      (match ks with
      | [] => .ok ("", st)
      | k :: rest => do
          let itemStatePath := extendPath statePath k
          let (h, st1) ← renderStep f (.value ((getA fs k).getD vnull) (some k)
            (some itemStatePath)) st
          let (hr, st2) ← renderStep f (.numericKeys rest fs statePath) st1
          pure (h ++ hr, st2))
    | .arrayItems xs idx statePath =>
      -- the plain-array branch of renderValue: render each element
      -- positionally; an element that is an object with a truthy s goes
      -- through reconstructFromTree.
      (match xs with
      | [] => .ok ("", st)
      | item :: rest => do
          let itemKey := toString idx
          let itemStatePath := extendPath statePath itemKey
          let (h, st1) ←
            match item with
            | vobj ifs =>
                match getA ifs "s" with
                | some sv =>
                    if truthy sv then renderStep f (.fromTree item itemStatePath) st
                    else renderStep f (.value item (some itemKey) (some itemStatePath)) st
                | none => renderStep f (.value item (some itemKey) (some itemStatePath)) st
            | _ => renderStep f (.value item (some itemKey) (some itemStatePath)) st
          let (hr, st2) ← renderStep f (.arrayItems rest (idx + 1) statePath) st1
          pure (h ++ hr, st2))
    | .fromTree node statePath =>
      -- reconstructFromTree on a (non-root) node: interleave the statics
      -- with the rendered numbered slots and strip the synthetic root
      -- tags; a node without an s array falls back to renderValue with an
      -- empty fieldKey; reading .s of a null node throws.
      (match node with
      | vnull => .error .thrown
      | vobj fs =>
          match getA fs "s" with
          | some (varr ss) => do
              let (body, st1) ← renderStep f (.slots ss 0 fs statePath) st
              pure (stripRootTags body, st1)
          | _ => renderStep f (.value node (some "") (some statePath)) st
      | _ => renderStep f (.value node (some "") (some statePath)) st)
    | .slots segs i fs statePath =>
      -- the statics/slots interleaving loop of reconstructFromTree.
      (match segs with
      | [] => .ok ("", st)
      | seg :: rest =>
          let part := jsToString seg
          if rest.isEmpty then .ok (part, st)
          else
            let dynamicKey := toString i
            match getA fs dynamicKey with
            | some v => do
                let (h, st1) ← renderStep f (.value v (some dynamicKey)
                  (some (extendPathStr statePath dynamicKey))) st
                let (hr, st2) ← renderStep f (.slots rest (i + 1) fs statePath) st1
                pure (part ++ h ++ hr, st2)
            | none => do
                let (hr, st1) ← renderStep f (.slots rest (i + 1) fs statePath) st
                pure (part ++ hr, st1))
    | .rangeStructure rangeNode fieldKey statePath =>
      -- renderRangeStructure: empty dynamics render the else field (or
      -- nothing); otherwise each item is interleaved with its statics
      -- (per-item statics from the staticsMap when the item carries a
      -- truthy _sk selector with a truthy map entry).
      (match rangeNode with
      | vobj fs =>
          match getA fs "d" with
          | some (varr ds) =>
              match ds with
              | [] =>
                  (match getA fs "else" with
                  | some ev =>
                      if truthy ev then
                        renderStep f (.value ev (some "else")
                          (some (extendPath statePath "else"))) st
                      else .ok ("", st)
                  | none => .ok ("", st))
              | _ =>
                  let smOpt := getA fs "sm"
                  let hasStaticsMap := match smOpt with
                    | some sm => truthy sm && isTruthyObject sm
                    | none => false
                  match getA fs "s" with
                  | some sv =>
                      if truthy sv && (match sv with | varr _ => true | _ => false) then
                        renderStep f (.rangeItems ds 0 sv
                          (if hasStaticsMap then smOpt else none) statePath) st
                      else
                        renderStep f (.rangeFallback ds 0 statePath) st
                  | none => renderStep f (.rangeFallback ds 0 statePath) st
          | _ => .ok ("", st)
      | _ => .ok ("", st))
    | .rangeItems items itemIdx sharedStatics smOpt statePath =>
      -- the item loop shared by renderRangeStructure and
      -- renderItemsWithStatics (the two loops in the source are textually
      -- identical): per item, select per-item statics via _sk when
      -- available, then interleave; reading _sk of a null item throws.
      (match items with
      | [] => .ok ("", st)
      | item :: rest => do
          let itemStatics ←
            match smOpt with
            | some sm => do
                let sk ← propGet item "_sk"
                match sk with
                | some skv =>
                    if truthy skv then do
                      let entry ← propGet sm (valToPropKey skv)
                      match entry with
                      | some e => pure (if truthy e then e else sharedStatics)
                      | none => pure sharedStatics
                    else pure sharedStatics
                | none => pure sharedStatics
            | none => pure sharedStatics
          let (h, st1) ← renderStep f (.itemSlots (staticsAsList itemStatics) 0 item
            itemIdx statePath) st
          let (hr, st2) ← renderStep f (.rangeItems rest (itemIdx + 1) sharedStatics
            smOpt statePath) st1
          pure (h ++ hr, st2))
    | .itemSlots segs i item itemIdx statePath =>
      -- the inner statics/slots loop for one range item: html += statics
      -- text, and for every position but the last, render item[i] when
      -- defined (a null item makes the property read throw).
      (match segs with
      | [] => .ok ("", st)
      | seg :: rest =>
          let part := jsToString seg
          if rest.isEmpty then .ok (part, st)
          else do
            let localKey := toString i
            let slot ← propGet item localKey
            match slot with
            | some v => do
                let itemStatePath :=
                  extendPath statePath (toString itemIdx ++ "." ++ localKey)
                let (h, st1) ← renderStep f (.value v (some localKey)
                  (some itemStatePath)) st
                let (hr, st2) ← renderStep f (.itemSlots rest (i + 1) item itemIdx
                  statePath) st1
                pure (part ++ h ++ hr, st2)
            | none => do
                let (hr, st1) ← renderStep f (.itemSlots rest (i + 1) item itemIdx
                  statePath) st
                pure (part ++ hr, st1))
    | .rangeFallback items idx statePath =>
      -- the fallback loop of renderRangeStructure when statics is not an
      -- array (unreachable from renderValue, kept for fidelity).
      (match items with
      | [] => .ok ("", st)
      | item :: rest => do
          let itemKey := toString idx
          let (h, st1) ← renderStep f (.value item (some itemKey)
            (some (extendPath statePath itemKey))) st
          let (hr, st2) ← renderStep f (.rangeFallback rest (idx + 1) statePath) st1
          pure (h ++ hr, st2))
    | .diffOps operations statePath =>
      -- applyDifferentialOperations: the render-time application of
      -- stored differential operations against the range index. A missing
      -- statePath or index entry renders as empty; otherwise the
      -- operations run over a copy of the indexed items, the index and
      -- the tree (under the flat dotted path string as a root key) are
      -- refreshed, and the result is rendered with the indexed statics.
      (match statePath with
      | none => .ok ("", st)
      | some p =>
        if p = "" then .ok ("", st)
        else
          match getA st.rangeState p with
          | none => .ok ("", st)
          | some rangeData => do
              let (items', statics', st1) ←
                operations.foldlM (applyDiffOpStep p)
                  (rangeData.items, rangeData.statics, st)
              let st2 :=
                { st1 with
                  rangeState := setA st1.rangeState p ⟨items', statics', rangeData.staticsMap⟩ }
              let st3 :=
                { st2 with
                  treeState := setA st2.treeState p
                    (vobj ([("d", varr items'), ("s", statics')] ++
                      (match rangeData.staticsMap with
                       | some m => [("sm", m)] | none => []))) }
              match getCurrentRangeStructure st3 p with
              | some rs =>
                  match rs with
                  | vobj rfs =>
                      match getA rfs "s" with
                      | some sv =>
                          if truthy sv then
                            renderStep f (.itemsWithStatics items' sv (getA rfs "sm")
                              statePath) st3
                          else
                            renderStep f (.plainItems items') st3
                      | none => renderStep f (.plainItems items') st3
                  | _ => renderStep f (.plainItems items') st3
              | none => renderStep f (.plainItems items') st3)
    | .itemsWithStatics items statics smOpt statePath =>
      -- renderItemsWithStatics: identical interleaving loop to the Range
      -- item loop, with the staticsMap honoured when it is a truthy
      -- object.
      (let smEff := match smOpt with
        | some sm => if truthy sm && isTruthyObject sm then some sm else none
        | none => none
      renderStep f (.rangeItems items 0 statics smEff statePath) st)
    | .plainItems items =>
      -- the fallback of applyDifferentialOperations without usable
      -- statics: currentItems.map(item => renderValue(item)).join("")
      -- with no fieldKey and no statePath.
      (match items with
      | [] => .ok ("", st)
      | item :: rest => do
          let (h, st1) ← renderStep f (.value item none none) st
          let (hr, st2) ← renderStep f (.plainItems rest) st1
          pure (h ++ hr, st2))

/-- renderValue from the source (fieldKey and statePath are its optional
string parameters). -/
def renderValue (fuel : Nat) (st : RState) (value : Val)
    (fieldKey statePath : Option String) : Except Err (String × RState) :=
  renderStep fuel (.value value fieldKey statePath) st

/-- reconstructFromTree on a (non-root) node value. -/
def reconstructFromTree (fuel : Nat) (st : RState) (node : Val)
    (statePath : String) : Except Err (String × RState) :=
  renderStep fuel (.fromTree node statePath) st

/-- renderRangeStructure from the source. -/
def renderRangeStructure (fuel : Nat) (st : RState) (rangeNode : Val)
    (fieldKey statePath : Option String) : Except Err (String × RState) :=
  renderStep fuel (.rangeStructure rangeNode fieldKey statePath) st

/-- applyDifferentialOperations from the source (the render-time path). -/
def applyDifferentialOperations (fuel : Nat) (st : RState)
    (operations : List Val) (statePath : Option String) :
    Except Err (String × RState) :=
  renderStep fuel (.diffOps operations statePath) st

/-- renderItemsWithStatics from the source. -/
def renderItemsWithStatics (fuel : Nat) (st : RState) (items : List Val)
    (statics : Val) (smOpt : Option Val) (statePath : Option String) :
    Except Err (String × RState) :=
  renderStep fuel (.itemsWithStatics items statics smOpt statePath) st

/-- The slot loop of reconstructFromTree when called on the live root
object this.treeState: each slot is read from the current tree, because
applyDifferentialOperations can write root keys mid-render and the walk
aliases the mutated object. -/
def reconstructRootSlots (fuel : Nat) (st : RState) (segs : List Val)
    (i : Nat) : Except Err (String × RState) :=
  match fuel with
  | 0 => .error .fuelOut
  | f + 1 =>
    match segs with
    | [] => .ok ("", st)
    | seg :: rest =>
        let part := jsToString seg
        if rest.isEmpty then .ok (part, st)
        else
          let dynamicKey := toString i
          match getA st.treeState dynamicKey with
          | some v => do
              let (h, st1) ← renderValue f st v (some dynamicKey) (some dynamicKey)
              let (hr, st2) ← reconstructRootSlots f st1 rest (i + 1)
              pure (part ++ h ++ hr, st2)
          | none => do
              let (hr, st1) ← reconstructRootSlots f st rest (i + 1)
              pure (part ++ hr, st1)

/-- The numeric-keys walk of renderValue specialised to the live root
object (reached when the root has no statics and only numeric keys). -/
def renderRootNumericKeys (fuel : Nat) (st : RState) (ks : List String) :
    Except Err (String × RState) :=
  match fuel with
  | 0 => .error .fuelOut
  | f + 1 =>
    match ks with
    | [] => .ok ("", st)
    | k :: rest => do
        let (h, st1) ← renderValue f st ((getA st.treeState k).getD vnull)
          (some k) (some k)
        let (hr, st2) ← renderRootNumericKeys f st1 rest
        pure (h ++ hr, st2)

/-- reconstructFromTree(this.treeState, ""): the root call of the render.
The root walk reads slots from the live tree; a root without an s array
goes through the renderValue object branches with empty fieldKey and
statePath (the root can never take the Range branch there, because an s
array would have been caught by the fragment branch first). -/
def reconstructRoot (fuel : Nat) (st : RState) : Except Err (String × RState) :=
  match fuel with
  | 0 => .error .fuelOut
  | f + 1 =>
    match getA st.treeState "s" with
    | some (varr ss) => do
        let (body, st1) ← reconstructRootSlots f st ss 0
        pure (stripRootTags body, st1)
    | _ =>
        let keys := st.treeState.map Prod.fst
        let numericKeys := keys.filter isNumericKeyStr
        if numericKeys ≠ [] ∧ numericKeys.length = keys.length then
          renderRootNumericKeys f st (sortNumericKeys numericKeys)
        else
          .ok ("", st)

/-- One top-level entry of applyUpdate: either differential operations
(applied to an existing Range clone, or stored raw), or a merge/replace
with stringify-equality change detection. -/
def applyUpdateEntry (st : RState) (changed : Bool) (key : String)
    (value : Val) : Except Err (Bool × RState) := do
  if isDiffOps value then
    let existing := getA st.treeState key
    match existing with
    | some ex =>
        if isRangeNode ex then do
          let (e', st1) ← applyDiffOpsToRange st (deepClone ex) (opsOf value) key
          pure (true, { st1 with treeState := setA st1.treeState key e' })
        else
          pure (true, { st with treeState := setA st.treeState key value })
    | none =>
        pure (true, { st with treeState := setA st.treeState key value })
  else do
    let oldValue := getA st.treeState key
    let (newValue, st1) ←
      match value with
      | vobj _ => deepMergeTreeNodes st oldValue value key
      | _ => .ok (value, st)
    let same := match oldValue with
      | some o => valEq o newValue
      | none => false
    if same then pure (changed, st1)
    else pure (true, { st1 with treeState := setA st1.treeState key newValue })

/-- Object.entries of the update argument (a null update would throw). -/
def entriesOf : Val → Except Err (List (String × Val))
  | vobj fs => .ok fs
  | varr xs => .ok (xs.enum.map (fun p => (toString p.1, p.2)))
  | vnull => .error .thrown
  | _ => .ok []

def applyUpdateEntries (st : RState) (changed : Bool) :
    List (String × Val) → Except Err (Bool × RState)
  | [] => .ok (changed, st)
  | (k, v) :: rest => do
      let (c1, st1) ← applyUpdateEntry st changed k v
      applyUpdateEntries st1 c1 rest

/-- applyUpdate: fold the update entries into the state, then rebuild the
html from the whole current tree. -/
def applyUpdate (fuel : Nat) (st : RState) (update : Val) :
    Except Err ((String × Bool) × RState) := do
  let entries ← entriesOf update
  let (changed, st1) ← applyUpdateEntries st false entries
  let (html, st2) ← reconstructRoot fuel st1
  pure ((html, changed), st2)

/-! ### Path access and structural predicates used to state the claims -/

/-- Value stored at a dotted state path, where the path descends through
object keys only (the shape the wire protocol uses for nested updates). -/
def objGetPath : Val → List String → Option Val
  | v, [] => some v
  | vobj fs, k :: q =>
      match getA fs k with
      | some v => objGetPath v q
      | none => none
  | _, _ :: _ => none

/-- Along the given path, each traversed object stores the next key
exactly once (always true of JavaScript objects, whose keys are unique;
needed here because object values are modelled as field lists). -/
def pathKeyOnce : Val → List String → Bool
  | _, [] => true
  | vobj fs, k :: q =>
      ((fs.map Prod.fst).count k == 1) &&
      (match getA fs k with
       | some v => pathKeyOnce v q
       | none => true)
  | _, _ :: _ => true

/-- No proper prefix of the path is a Range-to-non-Range transition point
between the stored tree and the update (such a prefix would be replaced
wholesale before the path is reached). -/
def noRangeFlip : Val → Val → List String → Bool
  | _, _, [] => true
  | e, u, k :: q =>
      !(isRangeNode e && !isRangeNode u) &&
      (match e, u with
       | vobj efs, vobj ufs =>
          (match getA efs k, getA ufs k with
           | some e', some u' => noRangeFlip e' u' q
           | _, _ => true)
       | _, _ => true)

/-- No sub-value of the given value is shaped like a differential
operations array. -/
def opsFree : Val → Bool
  | varr xs => !isDiffOps (varr xs) && allOpsFree xs
  | vobj fs => allOpsFreeF fs
  | _ => true
where
  allOpsFree : List Val → Bool
    | [] => true
    | v :: r => opsFree v && allOpsFree r
  allOpsFreeF : List (String × Val) → Bool
    | [] => true
    | (_, v) :: r => opsFree v && allOpsFreeF r

/-- Every object sub-value either is a Range node already or introduces
neither a d array nor an s array, so merging it into any stored value can
never turn a non-Range into a Range. -/
def rangeNeutral : Val → Bool
  | vobj fs =>
      (isRangeNode (vobj fs) ||
        (noArrAt fs "d" && noArrAt fs "s")) && allNeutralF fs
  | varr xs => allNeutral xs
  | _ => true
where
  noArrAt (fs : List (String × Val)) (k : String) : Bool :=
    match getA fs k with
    | some (varr _) => false
    | _ => true
  allNeutral : List Val → Bool
    | [] => true
    | v :: r => rangeNeutral v && allNeutral r
  allNeutralF : List (String × Val) → Bool
    | [] => true
    | (_, v) :: r => rangeNeutral v && allNeutralF r

/-- Every object sub-value has pairwise distinct keys (always true of
values decoded from JSON). -/
def noDupKeys : Val → Bool
  | vobj fs => keysUnique (fs.map Prod.fst) && allNoDupF fs
  | varr xs => allNoDup xs
  | _ => true
where
  keysUnique : List String → Bool
    | [] => true
    | k :: r => !(r.contains k) && keysUnique r
  allNoDup : List Val → Bool
    | [] => true
    | v :: r => noDupKeys v && allNoDup r
  allNoDupF : List (String × Val) → Bool
    | [] => true
    | (_, v) :: r => noDupKeys v && allNoDupF r

/-- Substring occurrence test (used to state the root-tag stripping
claim). -/
def hasSubstrAux (p : List Char) : List Char → Bool
  | [] => p.isEmpty
  | c :: r => p.isPrefixOf (c :: r) || hasSubstrAux p r

def containsSubstr (s pat : String) : Bool :=
  hasSubstrAux pat.toList s.toList

/-! ### Concrete protocol values used by the counterexample theorems -/

/-- A one-entry update whose value is a differential-operations array. -/
def exOpsUpdate : Val := vobj [("x", varr [varr [vstr "a"]])]

/-- The tree state after applying exOpsUpdate to a fresh renderer (the raw
operations array is stored as a placeholder). -/
def exOpsState : RState := ⟨[("x", varr [varr [vstr "a"]])], [], []⟩

/-- Fragment update whose dynamic scalar splices together a new root tag
once the inner occurrence is removed. -/
def exSpliceUpdate : Val :=
  vobj [("0", vstr "<ro<root>ot>"), ("s", varr [vstr "<root>", vstr "</root>"])]

/-- Update carrying a Range whose d array contains a null item. -/
def exNullItemUpdate : Val :=
  vobj [("0", vobj [("d", varr [vnull]), ("s", varr [vstr "<li>", vstr "</li>"])]),
        ("s", varr [vstr "<r>", vstr "</r>"])]

/-- First update of the statics-loss scenario: stores a Range at key x. -/
def exRangeUpdate : Val :=
  vobj [("x", vobj [("d", varr [vobj [("0", vstr "A")]]),
                    ("s", varr [vstr "<li>", vstr "</li>"])])]

def exRangeState : RState :=
  ⟨[("x", vobj [("d", varr [vobj [("0", vstr "A")]]),
                ("s", varr [vstr "<li>", vstr "</li>"])])], [], []⟩

/-- Second update of the statics-loss scenario: a numeric-key-only partial
at the same path. -/
def exNumericPartial : Val := vobj [("x", vobj [("0", vstr "B")])]

def exReplacedState : RState := ⟨[("x", vobj [("0", vstr "B")])], [], []⟩

/-- A Range with one item, used with no registered idKey. -/
def exPlainRange : Val :=
  vobj [("d", varr [vobj [("0", vstr "x")]]), ("s", varr [vstr "a", vstr "b"])]

/-- Renderer state with an idKey registered for path p. -/
def exKeyedState : RState := ⟨[], [], [("p", vstr "_k")]⟩

/-- A Range with a single item whose idKey slot is null. -/
def exNullKeyRange : Val :=
  vobj [("d", varr [vobj [("0", vstr "x"), ("_k", vnull)]]),
        ("s", varr [vstr "a", vstr "b"])]

def exItemA : Val := vobj [("0", vstr "x"), ("_k", vstr "a")]

def exItemEmptyKey : Val := vobj [("0", vstr "y"), ("_k", vstr "")]

/-- A Range with a normally keyed item and an empty-string keyed item. -/
def exMixedKeyRange : Val :=
  vobj [("d", varr [exItemA, exItemEmptyKey]), ("s", varr [vstr "a", vstr "b"])]

/-- Nested-path scenario: a Range two levels deep, later replaced, then
targeted by raw differential operations. -/
def exNestedU1 : Val := vobj [
  ("0", vobj [
    ("0", vobj [("d", varr [vobj [("0", vstr "x")]]),
                ("s", varr [vstr "<i>", vstr "</i>"])]),
    ("s", varr [vstr "<B>", vstr "</B>"])]),
  ("s", varr [vstr "<A>", vstr "</A>"])]

def exNestedU2 : Val := vobj [("0", vobj [("0", vobj [("z", vnum 1)])])]

def exNestedU3 : Val :=
  vobj [("0", vobj [("0", varr [varr [vstr "a", vobj [("0", vstr "y")]]])])]

def exNestedRun : Except Err ((String × Bool) × RState) :=
  (applyUpdate 50 initState exNestedU1).bind (fun r =>
    (applyUpdate 50 r.2 exNestedU2).bind (fun r2 =>
      applyUpdate 50 r2.2 exNestedU3))

def c7wItemB : Val := vobj [("0", vstr "z"), ("_k", vstr "b")]

/-! ### Path lemmas for the deep-merge claims -/

def isObjVal : Val → Bool
  | vobj _ => true
  | _ => false

/-! ### C1: Range to non-Range replacement at arbitrary depth -/

def c1Existing : Val :=
  vobj [("r", vobj [("d", varr [vobj [("0", vstr "x")]]),
                    ("s", varr [vstr "a", vstr "b"])])]

def c1Update : Val := vobj [("r", vobj [("msg", vstr "empty")])]

def c2Existing : Val :=
  vobj [("x", vobj [("s", varr [vstr "<p>", vstr "</p>"]), ("0", vstr "old")])]

def c2Update : Val := vobj [("x", vobj [("0", vstr "new")])]

/-- Witness for C6: one append operation against a stored top-level
Range. -/
def c6wSt : RState :=
  ⟨[("k", vobj [("d", varr [vobj [("0", vstr "x")]]),
                ("s", varr [vstr "a", vstr "b"])])], [], []⟩

def c6wOps : Val := varr [varr [vstr "a", varr [vobj [("0", vstr "y")]]]]

def c6wOut : Val :=
  vobj [("d", varr [vobj [("0", vstr "x")], vobj [("0", vstr "y")]]),
        ("s", varr [vstr "a", vstr "b"])]

def c6wStx : RState :=
  ⟨[("k", vobj [("d", varr [vobj [("0", vstr "x")]]),
                ("s", varr [vstr "a", vstr "b"])])],
   [("k", ⟨[vobj [("0", vstr "x")], vobj [("0", vstr "y")]],
          varr [vstr "a", vstr "b"], none⟩)], []⟩

def c6wSt1 : RState :=
  ⟨[("k", c6wOut)],
   [("k", ⟨[vobj [("0", vstr "x")], vobj [("0", vstr "y")]],
          varr [vstr "a", vstr "b"], none⟩)], []⟩

/-- Witness for C10: a root body whose statics carry the synthetic root
tags; both passes strip them and the html is the inner fragment. -/
def c10wUp : Val :=
  vobj [("0", vstr "hi"), ("s", varr [vstr "<root><p>", vstr "</p></root>"])]

def c10wSt1 : RState :=
  ⟨[("0", vstr "hi"), ("s", varr [vstr "<root><p>", vstr "</p></root>"])], [], []⟩

/-- The stringify-equality change check of applyUpdateEntry (oldValue
defined and JSON-equal to the merged value). -/
def sameVal (old : Option Val) (nv : Val) : Bool :=
  match old with
  | some o => valEq o nv
  | none => false

/-- Render purity property at a given fuel and request: a successful
render leaves the tree untouched, and from any state with the same tree it
returns the same html, again leaving that tree untouched. -/
def RP (f : Nat) (req : RenderReq) : Prop :=
  ∀ (st : RState) (h : String) (st' : RState),
    renderStep f req st = .ok (h, st') →
    st'.treeState = st.treeState ∧
    ∀ G, G.treeState = st.treeState →
      ∃ G', renderStep f req G = .ok (h, G') ∧ G'.treeState = G.treeState

/-- The values embedded in a render request are free of
differential-operations arrays (the render-time mutation path). -/
def reqOpsFree : RenderReq → Bool
  | .value v _ _ => opsFree v
  | .numericKeys _ fs _ => opsFree.allOpsFreeF fs
  | .arrayItems xs _ _ => opsFree.allOpsFree xs
  | .fromTree node _ => opsFree node
  | .slots _ _ fs _ => opsFree.allOpsFreeF fs
  | .rangeStructure node _ _ => opsFree node
  | .rangeItems items _ _ _ _ => opsFree.allOpsFree items
  | .itemSlots _ _ item _ _ => opsFree item
  | .rangeFallback items _ _ => opsFree.allOpsFree items
  | .diffOps _ _ => false
  | .itemsWithStatics items _ _ _ => opsFree.allOpsFree items
  | .plainItems items => opsFree.allOpsFree items

def c3wUp : Val := vobj [("0", vstr "hi"), ("s", varr [vstr "<p>", vstr "</p>"])]

def c3wSt1 : RState :=
  ⟨[("0", vstr "hi"), ("s", varr [vstr "<p>", vstr "</p>"])], [], []⟩

/-! ### Association list lemmas -/

theorem getA_setA_eq {α : Type} (l : List (String × α)) (k : String) (v : α) :
    getA (setA l k v) k = some v := by
  induction l with
  | nil => simp [setA, getA]
  | cons kv r ih =>
      obtain ⟨k', v'⟩ := kv
      by_cases h : k' = k
      · simp [setA, getA, h]
      · simp [setA, getA, h, ih]

theorem getA_setA_ne {α : Type} (l : List (String × α)) {k k' : String} (v : α)
    (h : k' ≠ k) : getA (setA l k' v) k = getA l k := by
  induction l with
  | nil => simp [setA, getA, h]
  | cons kv r ih =>
      obtain ⟨k0, v0⟩ := kv
      by_cases h0 : k0 = k'
      · subst h0
        simp [setA, getA, h]
      · by_cases h1 : k0 = k
        · simp [setA, getA, h0, h1, Ne.symm h]
        · simp [setA, getA, h0, h1, ih]

theorem setA_self {α : Type} {l : List (String × α)} {k : String} {v : α}
    (h : getA l k = some v) : setA l k v = l := by
  induction l with
  | nil => simp [getA] at h
  | cons kv r ih =>
      obtain ⟨k0, v0⟩ := kv
      by_cases h0 : k0 = k
      · subst h0
        simp [getA] at h
        simp [setA, h]
      · simp [getA, h0] at h
        simp [setA, h0, ih h]

theorem getA_mem {α : Type} {l : List (String × α)} {k : String} {v : α}
    (h : getA l k = some v) : (k, v) ∈ l := by
  induction l with
  | nil => simp [getA] at h
  | cons kv r ih =>
      obtain ⟨k0, v0⟩ := kv
      by_cases h0 : k0 = k
      · subst h0
        simp [getA] at h
        simp [h]
      · simp [getA, h0] at h
        simp [ih h]

theorem mem_setA {α : Type} {l : List (String × α)} {k : String} {v : α}
    {kv : String × α} (h : kv ∈ setA l k v) : kv ∈ l ∨ kv = (k, v) := by
  induction l with
  | nil => simp [setA] at h; simp [h]
  | cons kv0 r ih =>
      obtain ⟨k0, v0⟩ := kv0
      by_cases h0 : k0 = k
      · simp [setA, h0] at h
        rcases h with h | h
        · right; simp [h]
        · left; simp [h]
      · simp [setA, h0] at h
        rcases h with h | h
        · left; simp [h]
        · rcases ih h with h1 | h1
          · left; simp [h1]
          · right; exact h1

/-! ### Soundness of the modelled stringify equality -/

theorem valEq_goL_eq (xs : List Val)
    (ih : ∀ v ∈ xs, ∀ b : Val, valEq v b = true → v = b) :
    ∀ ys, valEq.goL xs ys = true → xs = ys := by
  induction xs with
  | nil =>
      intro ys h
      cases ys with
      | nil => rfl
      | cons y r => simp [valEq.goL] at h
  | cons x r ihr =>
      intro ys h
      cases ys with
      | nil => simp [valEq.goL] at h
      | cons y s =>
          simp only [valEq.goL, Bool.and_eq_true] at h
          have hx := ih x (by simp) y h.1
          have hr := ihr (fun v hv => ih v (by simp [hv])) s h.2
          simp [hx, hr]

theorem valEq_goF_eq (fs : List (String × Val))
    (ih : ∀ kv ∈ fs, ∀ b : Val, valEq kv.2 b = true → kv.2 = b) :
    ∀ gs, valEq.goF fs gs = true → fs = gs := by
  induction fs with
  | nil =>
      intro gs h
      cases gs with
      | nil => rfl
      | cons g r =>
          obtain ⟨gk, gv⟩ := g
          simp [valEq.goF] at h
  | cons f r ihr =>
      intro gs h
      cases gs with
      | nil =>
          obtain ⟨fk, fv⟩ := f
          simp [valEq.goF] at h
      | cons g s =>
          obtain ⟨fk, fv⟩ := f
          obtain ⟨gk, gv⟩ := g
          simp only [valEq.goF, Bool.and_eq_true, beq_iff_eq] at h
          have hx := ih ⟨fk, fv⟩ (by simp) gv h.1.2
          have hr := ihr (fun kv hkv => ih kv (by simp [hkv])) s h.2
          simp only at hx
          simp [hx, hr, h.1.1]

theorem valEq_eq : ∀ a b : Val, valEq a b = true → a = b := by
  apply Val.strongInduction (P := fun a => ∀ b : Val, valEq a b = true → a = b)
  · intro b h
    cases b <;> simp [valEq] at h ⊢
  · intro x b h
    cases b <;> simp [valEq] at h ⊢
    exact h
  · intro x b h
    cases b <;> simp [valEq] at h ⊢
    exact h
  · intro x b h
    cases b <;> simp [valEq] at h ⊢
    exact h
  · intro xs ih b h
    cases b with
    | varr ys =>
        simp only [valEq] at h
        simp only [varr.injEq]
        exact valEq_goL_eq xs ih ys h
    | vnull => simp [valEq] at h
    | vbool _ => simp [valEq] at h
    | vnum _ => simp [valEq] at h
    | vstr _ => simp [valEq] at h
    | vobj _ => simp [valEq] at h
  · intro fs ih b h
    cases b with
    | vobj gs =>
        simp only [valEq] at h
        simp only [vobj.injEq]
        exact valEq_goF_eq fs ih gs h
    | vnull => simp [valEq] at h
    | vbool _ => simp [valEq] at h
    | vnum _ => simp [valEq] at h
    | vstr _ => simp [valEq] at h
    | varr _ => simp [valEq] at h

theorem valEq_refl : ∀ v : Val, valEq v v = true := by
  apply Val.strongInduction
  · rfl
  · intro b
    simp [valEq]
  · intro n
    simp [valEq]
  · intro s
    simp [valEq]
  · intro xs ih
    simp only [valEq]
    induction xs with
    | nil => rfl
    | cons a r ihr =>
        simp only [valEq.goL, ih a (by simp), Bool.true_and]
        exact ihr (fun v hv => ih v (by simp [hv]))
  · intro fs ih
    simp only [valEq]
    induction fs with
    | nil => rfl
    | cons a r ihr =>
        obtain ⟨k, v⟩ := a
        simp only [valEq.goF, ih ⟨k, v⟩ (by simp), Bool.true_and, beq_self_eq_true]
        exact ihr (fun kv hkv => ih kv (by simp [hkv]))

/-- C3 counterexample: the claim promises changed=false on the second
identical applyUpdate call for every update, but an update whose value is
a differential-operations array marks changed unconditionally: applying
exOpsUpdate twice from a fresh renderer returns changed=true both times
(the html strings do agree here). -/
theorem C3_counterexample :
    applyUpdate 50 initState exOpsUpdate = .ok (("", true), exOpsState) ∧
    applyUpdate 50 exOpsState exOpsUpdate = .ok (("", true), exOpsState) :=
  ⟨rfl, rfl⟩

/-- C4: the policy says malformed protocol input never throws and the
affected subtree degrades to empty output, but a Range whose d array
contains a null item makes renderRangeStructure read item["0"] on null,
which raises a TypeError that escapes applyUpdate. The result is the
modelled throw, not fuel exhaustion and not a rendered string. -/
theorem C4_null_item_throws :
    applyUpdate 50 initState exNullItemUpdate = .error .thrown := rfl

/-- C10 counterexample: the root has a statics array, yet the returned
html is exactly the string root tag: the one-pass removals splice
"<ro" and "ot>" from the dynamic scalar into a fresh occurrence that the
already-finished pass never revisits. -/
theorem C10_counterexample :
    applyUpdate 50 initState exSpliceUpdate =
      .ok (("<root>", true),
        ⟨[("0", vstr "<ro<root>ot>"),
          ("s", varr [vstr "<root>", vstr "</root>"])], [], []⟩) ∧
    containsSubstr "<root>" "<root>" = true :=
  ⟨rfl, rfl⟩

/-- C2 counterexample: key x stores a Range whose s array was delivered by
the first update; the second update carries a numeric-key-only mapping at
x, and instead of keeping the stored statics the merge replaces the whole
node (Range to non-Range transition), so the statics are dropped. -/
theorem C2_counterexample :
    applyUpdate 50 initState exRangeUpdate = .ok (("", true), exRangeState) ∧
    applyUpdate 50 exRangeState exNumericPartial = .ok (("", true), exReplacedState) ∧
    getField ((getA exRangeState.treeState "x").getD vnull) "s" =
      some (varr [vstr "<li>", vstr "</li>"]) ∧
    getField ((getA exReplacedState.treeState "x").getD vnull) "s" = none :=
  ⟨rfl, rfl, rfl, rfl⟩

/-- C5 counterexample: with no idKey registered for the path, an o
(reorder) operation is not a no-op: it finds no keys at all and therefore
clears the item list. -/
theorem C5_counterexample :
    applyDiffOpsToRange initState exPlainRange
        [varr [vstr "o", varr [vstr "k"]]] "p" =
      .ok (vobj [("d", varr []), ("s", varr [vstr "a", vstr "b"])],
        ⟨[], [("p", ⟨[], varr [vstr "a", vstr "b"], none⟩)], []⟩) := rfl

/-- C9 counterexample: an item whose idKey slot is null is claimed never
to match r/u/i operations, but getItemKey returns null for it and a remove
operation whose key is null strictly-equals that null, so the item is
removed. -/
theorem C9_counterexample :
    applyDiffOpsToRange exKeyedState exNullKeyRange
        [varr [vstr "r", vnull]] "p" =
      .ok (vobj [("d", varr []), ("s", varr [vstr "a", vstr "b"])],
        ⟨[], [("p", ⟨[], varr [vstr "a", vstr "b"], none⟩)], [("p", vstr "_k")]⟩) := rfl

/-- C7 counterexample: the ordered-key list names both stored keys "a" and
the empty string, yet the empty-string-keyed item is dropped from the
reordered list (its key is falsy, so it never enters the key lookup),
contradicting the claim that exactly the items whose keys appear in the
list survive. -/
theorem C7_counterexample :
    applyDiffOpsToRange exKeyedState exMixedKeyRange
        [varr [vstr "o", varr [vstr "a", vstr ""]]] "p" =
      .ok (vobj [("d", varr [exItemA]), ("s", varr [vstr "a", vstr "b"])],
        ⟨[], [("p", ⟨[exItemA], varr [vstr "a", vstr "b"], none⟩)],
         [("p", vstr "_k")]⟩) := rfl

/-- C6 counterexample: raw differential operations stored at the nested
path 0.0 are applied during render, but the rebuilt Range is written under
the flat top-level key "0.0"; the authoritative tree node at the nested
position ["0","0"] still holds the raw operations array, which is not a
Range node, so getTreeState does not reflect the mutation at that
position. -/
theorem C6_counterexample :
    exNestedRun.map (fun r =>
      (objGetPath (getTreeState r.2) ["0", "0"],
       (objGetPath (getTreeState r.2) ["0", "0"]).map isRangeNode,
       getA r.2.treeState "0.0")) =
    .ok (some (varr [varr [vstr "a", vobj [("0", vstr "y")]]]),
      some false,
      some (vobj [("d", varr [vobj [("0", vstr "x")], vobj [("0", vstr "y")]]),
                  ("s", varr [vstr "<i>", vstr "</i>"])])) := rfl

/-! ### Key lookup lemmas for the differential-operation claims -/

theorem jsStrictEq_eq {a b : Val} (h : jsStrictEq a b = true) : a = b := by
  cases a <;> cases b <;> simp [jsStrictEq] at h ⊢ <;> exact h

theorem jsStrictEq_vnull_iff (k : Val) : jsStrictEq vnull k = true ↔ k = vnull := by
  cases k <;> simp [jsStrictEq]

theorem jsStrictEq_of_truthy_falsy {v k : Val} (hv : truthy v = true)
    (hk : truthy k = false) : jsStrictEq v k = false := by
  cases v <;> cases k <;> simp_all [jsStrictEq, truthy] <;> omega

/-- With no (or a falsy) registration for the path, getItemKey is the
constant null. -/
theorem getItemKey_unregistered {rik : List (String × Val)} {p : String}
    (h : ∀ kv, getA rik p = some kv → truthy kv = false) (item : Val) :
    getItemKey rik item (some p) = .ok none := by
  unfold getItemKey
  by_cases hp : p = ""
  · simp [hp]
  · simp only [hp, if_false]
    match hreg : getA rik p with
    | none => simp
    | some kv => simp [h kv hreg]

/-- getItemKey only ever returns a truthy key. -/
theorem getItemKey_some_truthy {rik : List (String × Val)} {item : Val}
    {sp : Option String} {kv : Val}
    (h : getItemKey rik item sp = .ok (some kv)) : truthy kv = true := by
  unfold getItemKey at h
  match sp with
  | none => simp at h
  | some p =>
      by_cases hp : p = ""
      · simp [hp] at h
      · simp only [hp, if_false] at h
        match hreg : getA rik p with
        | none => simp [hreg] at h
        | some reg =>
            simp only [hreg] at h
            by_cases ht : truthy reg
            · simp only [ht, if_true] at h
              match hpg : propGet item (valToPropKey reg) with
              | .error e => simp [hpg, bind, Except.bind] at h
              | .ok none => simp [hpg, bind, Except.bind, pure, Except.pure] at h
              | .ok (some v) =>
                  simp only [hpg, bind, Except.bind, pure, Except.pure] at h
                  by_cases hv : truthy v
                  · simp [hv] at h
                    simp [← h, hv]
                  · simp [hv] at h
            · simp [ht] at h

/-- A locate-by-key scan finds nothing when, for every item of the list,
getItemKey returns without throwing and the result fails to
strictly-equal the key. -/
theorem findItemIndexByKey_none {rik : List (String × Val)}
    {sp : Option String} {key : Val} {items : List Val}
    (hmiss : ∀ it ∈ items, ∃ kres, getItemKey rik it sp = .ok kres ∧
      jsStrictEq (match kres with | none => vnull | some v => v) key = false) :
    findItemIndexByKey rik items key sp = .ok none := by
  have go : ∀ l, (∀ it ∈ l, ∃ kres, getItemKey rik it sp = .ok kres ∧
      jsStrictEq (match kres with | none => vnull | some v => v) key = false) →
      ∀ i, findItemIndexByKey.go rik key sp l i = .ok none := by
    intro l
    induction l with
    | nil => intro _ i; rfl
    | cons it r ih =>
        intro hl i
        obtain ⟨kres, hk, hs⟩ := hl it (by simp)
        unfold findItemIndexByKey.go
        simp [hk, bind, Except.bind, hs, ih (fun w hw => hl w (by simp [hw]))]
  exact go items hmiss 0

theorem except_bind_ok {α β : Type} {x : Except Err α} {f : α → Except Err β}
    {b : β} (h : x.bind f = .ok b) : ∃ a, x = .ok a ∧ f a = .ok b := by
  cases x with
  | ok a => exact ⟨a, rfl, h⟩
  | error e => simp [Except.bind] at h

/-- Inversion of a successful applyDifferentialOpsToRange call on a valid
range structure: it runs the operation fold from a start state whose
rangeIdKeys have been updated by the node metadata (and whose tree is
untouched), then rebuilds the d and s fields and refreshes the range
index. -/
theorem applyDiffOpsToRange_inv {st : RState} {fs : List (String × Val)}
    {items ss : List Val} {ops : List Val} {p : String} {out : Val} {st' : RState}
    (hd : getA fs "d" = some (varr items)) (hs : getA fs "s" = some (varr ss))
    (happ : applyDiffOpsToRange st (vobj fs) ops p = .ok (out, st')) :
    ∃ (st2 : RState) (acc : List Val × Val × RState),
      st2.rangeIdKeys = (match metaIdKey fs with
        | some idk => setA st.rangeIdKeys p (vstr idk)
        | none => st.rangeIdKeys) ∧
      st2.treeState = st.treeState ∧
      ops.foldlM (applyDiffOpToRangeStep p) (items, varr ss, st2) = .ok acc ∧
      out = vobj (setA (setA fs "d" (varr acc.1)) "s" acc.2.1) ∧
      st' = { acc.2.2 with
        rangeState := setA acc.2.2.rangeState p ⟨acc.1, acc.2.1, getA fs "sm"⟩ } := by
  unfold applyDiffOpsToRange at happ
  simp only [hd, hs, bind, Except.bind] at happ
  split at happ
  · exact absurd happ (by simp)
  · next v heq =>
      simp only [pure, Except.pure, Except.ok.injEq, Prod.mk.injEq] at happ
      refine ⟨_, v, ?_, ?_, heq, happ.1.symm, happ.2.symm⟩
      · cases hmk : metaIdKey fs <;> cases hsync : getA st.rangeState p <;>
          simp [hmk, hsync]
      · cases hmk : metaIdKey fs <;> cases hsync : getA st.rangeState p <;>
          simp [hmk, hsync]

theorem foldlM_single_except {α β : Type} {f : β → α → Except Err β}
    {i : β} {a : α} {r : β} :
    List.foldlM f i [a] = .ok r ↔ f i a = .ok r := by
  cases h : f i a <;> simp [List.foldlM, h, bind, Except.bind, pure, Except.pure]

theorem jsStrictEq_vnull_false {key : Val} (h : key ≠ vnull) :
    jsStrictEq vnull key = false := by
  cases hjk : jsStrictEq vnull key
  · rfl
  · exact absurd ((jsStrictEq_vnull_iff key).1 hjk) h

/-- A monadic fold whose step fixes the accumulator on every list element
returns the initial accumulator (used for the key map built by the o op
when every key lookup is null). -/
theorem foldlM_fix {α β : Type} {g : β → α → Except Err β} {l : List α}
    (h : ∀ b a, a ∈ l → g b a = .ok b) :
    ∀ init, l.foldlM g init = .ok init := by
  induction l with
  | nil => intro init; rfl
  | cons a r ih =>
      intro init
      simp only [List.foldlM, h init a (by simp), bind, Except.bind]
      exact ih (fun b w hw => h b w (by simp [hw])) init

theorem mapGet_nil (k : Val) : mapGet [] k = none := rfl

/-- The reorder loop over an empty key map keeps its accumulator. -/
theorem orderFold_empty_map (order : List Val) (acc : List Val) :
    order.foldl (fun acc k =>
      match mapGet [] k with
      | some it => acc ++ [it]
      | none => acc) acc = acc := by
  induction order generalizing acc with
  | nil => rfl
  | cons k r ih => simpa [List.foldl, mapGet_nil] using ih acc

/-- C5 (amended): with no idKey registered for the path and none supplied
by the node metadata, the locate-by-key operations r, u and i whose key is
not null leave the item list unchanged; the key filtering of an o op,
however, is not a no-op: it finds no keys and clears the item list. -/
theorem C5_missing_idKey_amended
    (st : RState) (p : String) (fs : List (String × Val))
    (items ss : List Val) (key : Val) (rest : List Val)
    (hd : getA fs "d" = some (varr items)) (hs : getA fs "s" = some (varr ss))
    (hreg : ∀ kv, getA st.rangeIdKeys p = some kv → truthy kv = false)
    (hm : metaIdKey fs = none) :
    (∀ opT, (opT = "r" ∨ opT = "u" ∨ opT = "i") → key ≠ vnull →
      ∀ out st', applyDiffOpsToRange st (vobj fs)
          [varr (vstr opT :: key :: rest)] p = .ok (out, st') →
        getField out "d" = some (varr items)) ∧
    (∀ order out st', applyDiffOpsToRange st (vobj fs)
        [varr (vstr "o" :: varr order :: rest)] p = .ok (out, st') →
      getField out "d" = some (varr [])) := by
  constructor
  · intro opT hopT hkey out st' happ
    obtain ⟨st2, acc, hrik, htree, hfold, hout, hst⟩ :=
      applyDiffOpsToRange_inv hd hs happ
    rw [hm] at hrik
    have hstep := foldlM_single_except.1 hfold
    have hfind : findItemIndexByKey st2.rangeIdKeys items key (some p) = .ok none := by
      refine findItemIndexByKey_none (fun it _ => ⟨none, ?_, ?_⟩)
      · rw [hrik]; exact getItemKey_unregistered hreg it
      · exact jsStrictEq_vnull_false hkey
    have hacc : acc = (items, varr ss, st2) := by
      rcases hopT with h | h | h <;> subst h <;>
        unfold applyDiffOpToRangeStep at hstep
      · simp only [hfind, bind, Except.bind, pure, Except.pure] at hstep
        exact (Except.ok.injEq _ _ ▸ hstep).symm
      · cases hro : rest[0]? <;>
          simp only [hfind, hro, bind, Except.bind, pure, Except.pure] at hstep <;>
          exact (Except.ok.injEq _ _ ▸ hstep).symm
      · simp only [hfind, bind, Except.bind, pure, Except.pure] at hstep
        exact (Except.ok.injEq _ _ ▸ hstep).symm
    subst hout
    rw [hacc]
    simp only [getField]
    rw [getA_setA_ne _ _ (by decide), getA_setA_eq]
  · intro order out st' happ
    obtain ⟨st2, acc, hrik, htree, hfold, hout, hst⟩ :=
      applyDiffOpsToRange_inv hd hs happ
    simp only [hm] at hrik
    have hstep := foldlM_single_except.1 hfold
    unfold applyDiffOpToRangeStep at hstep
    have hkl : ∀ it ∈ items, getItemKey st2.rangeIdKeys it (some p) = .ok none := by
      intro it _
      rw [hrik]
      exact getItemKey_unregistered hreg it
    simp only [bind, Except.bind, pure, Except.pure] at hstep
    rw [foldlM_fix (fun b it hit => by simp [hkl it hit])] at hstep
    simp only [iterOrder] at hstep
    rw [orderFold_empty_map] at hstep
    have hacc : acc = ([], varr ss, st2) := by
      exact (Except.ok.injEq _ _ ▸ hstep).symm
    subst hout
    rw [hacc]
    simp only [getField]
    rw [getA_setA_ne _ _ (by decide), getA_setA_eq]

/-- A monadic fold preserves a property of the accumulator when every step
does. -/
theorem foldlM_preserve {α β : Type} {g : β → α → Except Err β} {l : List α}
    {P : β → Prop}
    (hstep : ∀ b a, a ∈ l → P b → ∀ b', g b a = .ok b' → P b') :
    ∀ init, P init → ∀ res, l.foldlM g init = .ok res → P res := by
  induction l with
  | nil =>
      intro init hP res h
      simp only [List.foldlM, pure, Except.pure, Except.ok.injEq] at h
      exact h ▸ hP
  | cons a r ih =>
      intro init hP res h
      simp only [List.foldlM] at h
      match hg : g init a with
      | .error e => rw [hg] at h; simp [bind, Except.bind] at h
      | .ok b' =>
          rw [hg] at h
          simp only [bind, Except.bind] at h
          exact ih (fun b x hx hPb => hstep b x (by simp [hx]) hPb)
            b' (hstep init a (by simp) hP b' hg) res h

theorem mem_mapSet {m : List (Val × Val)} {k v : Val} {kv : Val × Val}
    (h : kv ∈ mapSet m k v) : kv ∈ m ∨ kv.2 = v := by
  induction m with
  | nil =>
      simp [mapSet] at h
      simp [h]
  | cons e r ih =>
      obtain ⟨k0, v0⟩ := e
      by_cases h0 : jsStrictEq k0 k
      · simp [mapSet, h0] at h
        rcases h with h | h
        · right; simp [h]
        · left; simp [h]
      · simp only [mapSet, h0, Bool.false_eq_true, if_false, List.mem_cons] at h
        rcases h with h | h
        · left; simp [h]
        · rcases ih h with h1 | h1
          · left; simp [h1]
          · right; exact h1

theorem mapGet_mem {m : List (Val × Val)} {k it : Val}
    (h : mapGet m k = some it) : ∃ k', (k', it) ∈ m := by
  induction m with
  | nil => simp [mapGet] at h
  | cons e r ih =>
      obtain ⟨k0, v0⟩ := e
      by_cases h0 : jsStrictEq k0 k
      · simp [mapGet, h0] at h
        exact ⟨k0, by simp [h]⟩
      · simp only [mapGet, h0, Bool.false_eq_true, if_false] at h
        obtain ⟨k', hk'⟩ := ih h
        exact ⟨k', by simp [hk']⟩

/-- Every member of the reorder loop's output is either carried over from
the accumulator or is a value of the key map. -/
theorem orderFold_mem {m : List (Val × Val)} :
    ∀ (order : List Val) (acc : List Val) (it : Val),
      it ∈ order.foldl (fun acc k =>
        match mapGet m k with
        | some x => acc ++ [x]
        | none => acc) acc →
      it ∈ acc ∨ ∃ k', (k', it) ∈ m := by
  intro order
  induction order with
  | nil =>
      intro acc it h
      exact Or.inl h
  | cons k r ih =>
      intro acc it h
      simp only [List.foldl] at h
      match hg : mapGet m k with
      | some x =>
          rw [hg] at h
          rcases ih (acc ++ [x]) it h with h1 | h1
          · rcases List.mem_append.1 h1 with h2 | h2
            · exact Or.inl h2
            · simp at h2
              subst h2
              exact Or.inr (mapGet_mem hg)
          · exact Or.inr h1
      | none =>
          rw [hg] at h
          exact ih acc it h

/-- C9 (amended): an item whose idKey slot holds a falsy value other than
null is indeed unmatchable: r, u and i operations whose key is that falsy
value (or any falsy non-null key) match nothing and leave the item list
unchanged; and every item surviving an o reorder has a truthy key, so
falsy-keyed items are dropped even when their value is listed. A null key
is the exception the original claim missed: getItemKey maps a null slot to
null and a null-keyed operation strictly-equals it (see the
counterexample). -/
theorem C9_falsy_keys_amended
    (st : RState) (p : String) (fs : List (String × Val))
    (items ss : List Val) (kf : Val) (rest : List Val)
    (hd : getA fs "d" = some (varr items)) (hs : getA fs "s" = some (varr ss))
    (hm : metaIdKey fs = none)
    (hsafe : ∀ it ∈ items, ∃ kres, getItemKey st.rangeIdKeys it (some p) = .ok kres)
    (hfalsy : truthy kf = false) (hknn : kf ≠ vnull) :
    (∀ opT, (opT = "r" ∨ opT = "u" ∨ opT = "i") →
      ∀ out st', applyDiffOpsToRange st (vobj fs)
          [varr (vstr opT :: kf :: rest)] p = .ok (out, st') →
        getField out "d" = some (varr items)) ∧
    (∀ order out st' dOut, applyDiffOpsToRange st (vobj fs)
        [varr (vstr "o" :: varr order :: rest)] p = .ok (out, st') →
      getField out "d" = some (varr dOut) →
      ∀ it ∈ dOut, ∃ kv, truthy kv = true ∧
        getItemKey st.rangeIdKeys it (some p) = .ok (some kv)) := by
  constructor
  · intro opT hopT out st' happ
    obtain ⟨st2, acc, hrik, htree, hfold, hout, hst⟩ :=
      applyDiffOpsToRange_inv hd hs happ
    simp only [hm] at hrik
    have hstep := foldlM_single_except.1 hfold
    have hfind : findItemIndexByKey st2.rangeIdKeys items kf (some p) = .ok none := by
      refine findItemIndexByKey_none (fun it hit => ?_)
      obtain ⟨kres, hk⟩ := hsafe it hit
      refine ⟨kres, by rw [hrik]; exact hk, ?_⟩
      match kres with
      | none => exact jsStrictEq_vnull_false hknn
      | some v =>
          exact jsStrictEq_of_truthy_falsy (getItemKey_some_truthy hk) hfalsy
    have hacc : acc = (items, varr ss, st2) := by
      rcases hopT with h | h | h <;> subst h <;>
        unfold applyDiffOpToRangeStep at hstep
      · simp only [hfind, bind, Except.bind, pure, Except.pure] at hstep
        exact (Except.ok.injEq _ _ ▸ hstep).symm
      · cases hro : rest[0]? <;>
          simp only [hfind, hro, bind, Except.bind, pure, Except.pure] at hstep <;>
          exact (Except.ok.injEq _ _ ▸ hstep).symm
      · simp only [hfind, bind, Except.bind, pure, Except.pure] at hstep
        exact (Except.ok.injEq _ _ ▸ hstep).symm
    subst hout
    rw [hacc]
    simp only [getField]
    rw [getA_setA_ne _ _ (by decide), getA_setA_eq]
  · intro order out st' dOut happ hdOut it hit
    obtain ⟨st2, acc, hrik, htree, hfold, hout, hst⟩ :=
      applyDiffOpsToRange_inv hd hs happ
    simp only [hm] at hrik
    have hstep := foldlM_single_except.1 hfold
    unfold applyDiffOpToRangeStep at hstep
    simp only [bind, Except.bind, pure, Except.pure] at hstep
    split at hstep
    · exact absurd hstep (by simp)
    · next m heq =>
        -- every value of the key map has a truthy key
        have hmP : ∀ kv ∈ m, ∃ k', truthy k' = true ∧
            getItemKey st.rangeIdKeys kv.2 (some p) = .ok (some k') := by
          refine foldlM_preserve (P := fun b => ∀ kv ∈ b, ∃ k', truthy k' = true ∧
              getItemKey st.rangeIdKeys kv.2 (some p) = .ok (some k'))
            ?_ [] (by simp) m heq
          intro b a ha hPb b' hg
          obtain ⟨kres, hk⟩ := hsafe a ha
          rw [hrik] at hg
          match kres with
          | none =>
              rw [hk] at hg
              simp only [Except.ok.injEq] at hg
              exact hg ▸ hPb
          | some v =>
              rw [hk] at hg
              simp only [Except.ok.injEq] at hg
              intro kv hkv
              rcases mem_mapSet (hg ▸ hkv) with h1 | h1
              · exact hPb kv h1
              · exact ⟨v, getItemKey_some_truthy hk, by rw [h1]; rw [← hrik]; exact hrik ▸ hk⟩
        simp only [iterOrder] at hstep
        have hacc1 : acc.1 = order.foldl (fun acc k =>
            match mapGet m k with
            | some x => acc ++ [x]
            | none => acc) [] := by
          have := (Except.ok.injEq _ _ ▸ hstep)
          rw [← this]
        have hd' : dOut = acc.1 := by
          subst hout
          simp only [getField] at hdOut
          rw [getA_setA_ne _ _ (by decide), getA_setA_eq] at hdOut
          simpa using hdOut.symm
        rw [hd', hacc1] at hit
        rcases orderFold_mem order [] it hit with h1 | h1
        · simp at h1
        · obtain ⟨k', hk'⟩ := h1
          obtain ⟨kv, hkv1, hkv2⟩ := hmP (k', it) hk'
          exact ⟨kv, hkv1, hkv2⟩

/-- C9 witness: the r branch of the amended theorem with key "" against
the two-item range whose second item carries an empty-string key. -/
theorem C9_witness :
    getField exMixedKeyRange "d" = some (varr [exItemA, exItemEmptyKey]) :=
  (C9_falsy_keys_amended exKeyedState "p"
      [("d", varr [exItemA, exItemEmptyKey]), ("s", varr [vstr "a", vstr "b"])]
      [exItemA, exItemEmptyKey] [vstr "a", vstr "b"] (vstr "") []
      rfl rfl rfl
      (by
        intro it hit
        simp only [List.mem_cons, List.not_mem_nil, or_false] at hit
        rcases hit with h | h <;> subst h
        · exact ⟨some (vstr "a"), rfl⟩
        · exact ⟨none, rfl⟩)
      rfl (fun h => Val.noConfusion h)).1
    "r" (Or.inl rfl) exMixedKeyRange
    ⟨[], [("p", ⟨[exItemA, exItemEmptyKey], varr [vstr "a", vstr "b"], none⟩)],
     [("p", vstr "_k")]⟩
    rfl

theorem mapSet_append {m : List (Val × Val)} {k v : Val}
    (h : ∀ e ∈ m, jsStrictEq e.1 k = false) : mapSet m k v = m ++ [(k, v)] := by
  induction m with
  | nil => rfl
  | cons e r ih =>
      obtain ⟨k0, v0⟩ := e
      have h0 := h (k0, v0) (by simp)
      simp only [mapSet, h0, Bool.false_eq_true, if_false, List.cons_append,
        List.cons.injEq, true_and]
      exact ih (fun e he => h e (by simp [he]))

/-- Building the key map over items that come from key/item pairs with
pairwise non-matching keys appends the pairs in order. -/
theorem foldlM_map_build {g : List (Val × Val) → Val → Except Err (List (Val × Val))} :
    ∀ (pairs init : List (Val × Val)),
      (∀ b q, q ∈ pairs → g b q.2 = .ok (mapSet b q.1 q.2)) →
      (∀ q ∈ pairs, ∀ e ∈ init, jsStrictEq e.1 q.1 = false) →
      List.Pairwise (fun a b => jsStrictEq a.1 b.1 = false) pairs →
      (pairs.map Prod.snd).foldlM g init = .ok (init ++ pairs) := by
  intro pairs
  induction pairs with
  | nil => intro init _ _ _; simp [List.foldlM, pure, Except.pure]
  | cons q r ih =>
      intro init hg hinit hpw
      simp only [List.map_cons, List.foldlM, hg init q (by simp), bind, Except.bind]
      rw [mapSet_append (hinit q (by simp))]
      have hpw' := List.pairwise_cons.1 hpw
      have := ih (init ++ [(q.1, q.2)])
        (fun b q' hq' => hg b q' (by simp [hq']))
        (fun q' hq' e he => by
          rcases List.mem_append.1 he with h1 | h1
          · exact hinit q' (by simp [hq']) e h1
          · simp at h1
            subst h1
            exact hpw'.1 q' hq')
        hpw'.2
      rw [this]
      simp

theorem mapGet_assoc_find (pairs : List (Val × Val)) (k : Val) :
    mapGet pairs k = (pairs.find? (fun q => jsStrictEq q.1 k)).map Prod.snd := by
  induction pairs with
  | nil => rfl
  | cons q r ih =>
      obtain ⟨k0, v0⟩ := q
      by_cases h0 : jsStrictEq k0 k
      · simp [mapGet, List.find?, h0]
      · simp only [mapGet, List.find?, h0, Bool.false_eq_true, if_false]
        simpa using ih

/-- The reorder loop is exactly a filterMap of the key lookup over the
ordered key list. -/
theorem orderFold_filterMap {m : List (Val × Val)} :
    ∀ (order : List Val) (acc : List Val),
      order.foldl (fun acc k =>
        match mapGet m k with
        | some x => acc ++ [x]
        | none => acc) acc = acc ++ order.filterMap (fun k => mapGet m k) := by
  intro order
  induction order with
  | nil => intro acc; simp
  | cons k r ih =>
      intro acc
      simp only [List.foldl, List.filterMap]
      match hg : mapGet m k with
      | some x => rw [ih (acc ++ [x])]; simp
      | none => rw [ih acc]

/-- C7 (amended): for a Range whose items carry keys (each item q.2
looking up to key q.1), an o op rebuilds the item list as exactly the
ordered-key list filtered through the key lookup: for each listed key, the
first matching stored item, in list order; every item is dropped whose key
does not strictly-equal a listed key. Items whose key slot is falsy never
match (they are treated as keyless and dropped; see the counterexample),
which is why the key assignment hypothesis requires a successful truthy
lookup per item. -/
theorem C7_reorder_amended
    (st : RState) (p : String) (fs : List (String × Val))
    (ss : List Val) (pairs : List (Val × Val)) (order rest : List Val)
    (hd : getA fs "d" = some (varr (pairs.map Prod.snd)))
    (hs : getA fs "s" = some (varr ss))
    (hm : metaIdKey fs = none)
    (hkey : ∀ q ∈ pairs, getItemKey st.rangeIdKeys q.2 (some p) = .ok (some q.1))
    (hdist : List.Pairwise (fun a b => jsStrictEq a.1 b.1 = false) pairs) :
    ∀ out st', applyDiffOpsToRange st (vobj fs)
        [varr (vstr "o" :: varr order :: rest)] p = .ok (out, st') →
      getField out "d" = some (varr (order.filterMap (fun k =>
        (pairs.find? (fun q => jsStrictEq q.1 k)).map Prod.snd))) := by
  intro out st' happ
  obtain ⟨st2, acc, hrik, htree, hfold, hout, hst⟩ :=
    applyDiffOpsToRange_inv hd hs happ
  simp only [hm] at hrik
  have hstep := foldlM_single_except.1 hfold
  unfold applyDiffOpToRangeStep at hstep
  simp only [bind, Except.bind, pure, Except.pure] at hstep
  rw [foldlM_map_build pairs []
      (fun b q hq => by simp [hrik, hkey q hq])
      (by simp) hdist] at hstep
  simp only [iterOrder, List.nil_append] at hstep
  rw [orderFold_filterMap] at hstep
  have hacc1 : acc.1 = order.filterMap (fun k => mapGet pairs k) := by
    have h := (Except.ok.injEq _ _ ▸ hstep)
    rw [← h]
    simp
  subst hout
  simp only [getField]
  rw [getA_setA_ne _ _ (by decide), getA_setA_eq, hacc1]
  congr 2
  exact List.filterMap_congr (fun k _ => mapGet_assoc_find pairs k)

/-- C7 witness: reordering two distinctly keyed items to [b, a]. -/
theorem C7_witness :
    getField (vobj [("d", varr [c7wItemB, exItemA]), ("s", varr [vstr "a", vstr "b"])])
        "d" =
      some (varr ([vstr "b", vstr "a"].filterMap (fun k =>
        ([(vstr "a", exItemA), (vstr "b", c7wItemB)].find?
          (fun q => jsStrictEq q.1 k)).map Prod.snd))) :=
  C7_reorder_amended exKeyedState "p"
    [("d", varr [exItemA, c7wItemB]), ("s", varr [vstr "a", vstr "b"])]
    [vstr "a", vstr "b"] [(vstr "a", exItemA), (vstr "b", c7wItemB)]
    [vstr "b", vstr "a"] []
    rfl rfl rfl
    (by
      intro q hq
      simp only [List.mem_cons, List.not_mem_nil, or_false] at hq
      rcases hq with h | h <;> subst h <;> rfl)
    (by
      constructor
      · intro b hb
        simp only [List.mem_cons, List.not_mem_nil, or_false] at hb
        subst hb
        rfl
      · simp)
    (vobj [("d", varr [c7wItemB, exItemA]), ("s", varr [vstr "a", vstr "b"])])
    ⟨[], [("p", ⟨[c7wItemB, exItemA], varr [vstr "a", vstr "b"], none⟩)],
     [("p", vstr "_k")]⟩
    rfl

/-- C8 (confirmed): an a op appends the given item or items at the end of
the item list in order; a truthy newStatics argument replaces the Range's
statics; the range index is refreshed accordingly; and rendering the
resulting node interleaves exactly the appended item list, in order, with
the statics in effect after the op (the new statics when supplied,
otherwise the statics at append time). -/
theorem C8_append_op
    (st : RState) (p : String) (fs : List (String × Val))
    (items ss : List Val) (itemsArg : Val) (rest : List Val)
    (hd : getA fs "d" = some (varr items)) (hs : getA fs "s" = some (varr ss)) :
    (∀ out st', applyDiffOpsToRange st (vobj fs)
        [varr (vstr "a" :: itemsArg :: rest)] p = .ok (out, st') →
      getField out "d" = some (varr (items ++ toArrOr itemsArg)) ∧
      getField out "s" = some (match rest[0]? with
        | some s2 => if truthy s2 then s2 else varr ss
        | none => varr ss) ∧
      getA st'.rangeState p = some ⟨items ++ toArrOr itemsArg,
        (match rest[0]? with
         | some s2 => if truthy s2 then s2 else varr ss
         | none => varr ss), getA fs "sm"⟩) ∧
    (∀ out st' f stR fk sp outFs d0 dr ssOut,
      applyDiffOpsToRange st (vobj fs)
        [varr (vstr "a" :: itemsArg :: rest)] p = .ok (out, st') →
      out = vobj outFs →
      items ++ toArrOr itemsArg = d0 :: dr →
      getA outFs "s" = some (varr ssOut) →
      getA outFs "sm" = none →
      renderValue (f + 2) stR out fk sp =
        renderStep f (.rangeItems (d0 :: dr) 0 (varr ssOut) none sp)
          (recordRangeVisit stR outFs (d0 :: dr) ssOut (stateKeyOf sp fk))) := by
  have key : ∀ out st', applyDiffOpsToRange st (vobj fs)
      [varr (vstr "a" :: itemsArg :: rest)] p = .ok (out, st') →
      out = vobj (setA (setA fs "d" (varr (items ++ toArrOr itemsArg))) "s"
        (match rest[0]? with
         | some s2 => if truthy s2 then s2 else varr ss
         | none => varr ss)) ∧
      getA st'.rangeState p = some ⟨items ++ toArrOr itemsArg,
        (match rest[0]? with
         | some s2 => if truthy s2 then s2 else varr ss
         | none => varr ss), getA fs "sm"⟩ := by
    intro out st' happ
    obtain ⟨st2, acc, hrik, htree, hfold, hout, hst⟩ :=
      applyDiffOpsToRange_inv hd hs happ
    have hstep := foldlM_single_except.1 hfold
    unfold applyDiffOpToRangeStep at hstep
    simp only [bind, Except.bind, pure, Except.pure] at hstep
    have hacc : acc.1 = items ++ toArrOr itemsArg ∧
        acc.2.1 = (match rest[0]? with
          | some s2 => if truthy s2 then s2 else varr ss
          | none => varr ss) := by
      have h := (Except.ok.injEq _ _ ▸ hstep)
      constructor
      · rw [← h]
      · rw [← h]
    constructor
    · rw [hout, hacc.1, hacc.2]
    · rw [hst, getA_setA_eq, hacc.1, hacc.2]
  constructor
  · intro out st' happ
    obtain ⟨hout, hrs⟩ := key out st' happ
    subst hout
    refine ⟨?_, ?_, hrs⟩
    · simp only [getField]
      rw [getA_setA_ne _ _ (by decide), getA_setA_eq]
    · simp only [getField]
      rw [getA_setA_eq]
  · intro out st' f stR fk sp outFs d0 dr ssOut happ houtFs hsplit hss hsm
    obtain ⟨hout, hrs⟩ := key out st' happ
    have hdOut : getA outFs "d" = some (varr (d0 :: dr)) := by
      have : getField out "d" = some (varr (items ++ toArrOr itemsArg)) := by
        rw [hout]
        simp only [getField]
        rw [getA_setA_ne _ _ (by decide), getA_setA_eq]
      rw [houtFs] at this
      simp only [getField] at this
      rw [hsplit] at this
      exact this
    subst houtFs
    show renderStep (f + 2) (.value (vobj outFs) fk sp) stR = _
    simp only [renderStep, hdOut, hss]
    simp only [renderStep, hdOut, hsm, hss]
    simp [truthy]

/-- C8 witness: appending one object item with no new statics. -/
theorem C8_witness :
    getField (vobj [("d", varr [vobj [("0", vstr "x")], vobj [("0", vstr "y")]]),
        ("s", varr [vstr "a", vstr "b"])]) "d" =
      some (varr ([vobj [("0", vstr "x")]] ++ toArrOr (vobj [("0", vstr "y")]))) :=
  ((C8_append_op initState "p"
      [("d", varr [vobj [("0", vstr "x")]]), ("s", varr [vstr "a", vstr "b"])]
      [vobj [("0", vstr "x")]] [vstr "a", vstr "b"] (vobj [("0", vstr "y")]) []
      rfl rfl).1
    (vobj [("d", varr [vobj [("0", vstr "x")], vobj [("0", vstr "y")]]),
      ("s", varr [vstr "a", vstr "b"])])
    ⟨[], [("p", ⟨[vobj [("0", vstr "x")], vobj [("0", vstr "y")]],
      varr [vstr "a", vstr "b"], none⟩)], []⟩
    rfl).1

/-- C5 witness: the r branch of the amended theorem at a concrete input
(one item, no idKey anywhere, key "k"). -/
theorem C5_witness :
    getField exPlainRange "d" = some (varr [vobj [("0", vstr "x")]]) :=
  (C5_missing_idKey_amended initState "p"
      [("d", varr [vobj [("0", vstr "x")]]), ("s", varr [vstr "a", vstr "b"])]
      [vobj [("0", vstr "x")]] [vstr "a", vstr "b"] (vstr "k") []
      rfl rfl (fun kv h => by simp [getA] at h) rfl).1
    "r" (Or.inl rfl) (fun h => Val.noConfusion h) exPlainRange
    ⟨[], [("p", ⟨[vobj [("0", vstr "x")]], varr [vstr "a", vstr "b"], none⟩)], []⟩
    rfl

theorem isRangeNode_obj {v : Val} (h : isRangeNode v = true) :
    ∃ fs, v = vobj fs := by
  cases v <;> simp [isRangeNode] at h ⊢

theorem isObjVal_obj {v : Val} (h : isObjVal v = true) : ∃ fs, v = vobj fs := by
  cases v <;> simp [isObjVal] at h ⊢

theorem objGetPath_cons {v w : Val} {k : String} {q : List String}
    (h : objGetPath v (k :: q) = some w) :
    ∃ fs v', v = vobj fs ∧ getA fs k = some v' ∧ objGetPath v' q = some w := by
  cases v <;> simp [objGetPath] at h ⊢
  match hga : getA _ k with
  | some v' => rw [hga] at h; exact ⟨v', rfl, h⟩
  | none => rw [hga] at h; cases h

/-- Splitting an association list at the unique occurrence of a key. -/
theorem getA_count_split {l : List (String × Val)} {k : String} {v : Val}
    (hget : getA l k = some v)
    (hcount : (l.map Prod.fst).count k = 1) :
    ∃ pre post, l = pre ++ (k, v) :: post ∧
      (∀ kv ∈ pre, kv.1 ≠ k) ∧ (∀ kv ∈ post, kv.1 ≠ k) := by
  induction l with
  | nil => simp [getA] at hget
  | cons e r ih =>
      obtain ⟨k0, v0⟩ := e
      by_cases h0 : k0 = k
      · subst h0
        simp [getA] at hget
        subst hget
        simp only [List.map_cons, List.count_cons, beq_self_eq_true, if_true] at hcount
        have hr : (r.map Prod.fst).count k0 = 0 := by omega
        refine ⟨[], r, by simp, by simp, ?_⟩
        intro kv hkv hk
        have : kv.1 ∈ r.map Prod.fst := List.mem_map_of_mem Prod.fst hkv
        rw [hk] at this
        rw [List.count_eq_zero] at hr
        exact hr this
      · simp only [getA, h0, if_false] at hget
        simp only [List.map_cons, List.count_cons] at hcount
        have hne : (k == k0) = false := beq_eq_false_iff_ne.mpr (Ne.symm h0)
        have hne2 : (k0 == k) = false := beq_eq_false_iff_ne.mpr h0
        simp only [hne, hne2, if_false, add_zero] at hcount
        obtain ⟨pre, post, hsplit, hpre, hpost⟩ := ih hget hcount
        exact ⟨(k0, v0) :: pre, post, by simp [hsplit], by
          intro kv hkv
          rcases List.mem_cons.1 hkv with h1 | h1
          · subst h1; exact h0
          · exact hpre kv h1, hpost⟩

/-- Unfolding equation of mergeFields on a cons cell. -/
theorem mergeFields_cons_def (st : RState) (merged : List (String × Val))
    (k : String) (v : Val) (rest : List (String × Val)) (path : String) :
    deepMergeTreeNodes.mergeFields st merged ((k, v) :: rest) path =
      (do
        let fieldPath := if path = "" then k else path ++ "." ++ k
        let mk := getA merged k
        if isDiffOps v && isRangeNodeO mk then do
          let (m', st') ← applyDiffOpsToRange st (mk.getD vnull) (opsOf v) fieldPath
          deepMergeTreeNodes.mergeFields st' (setA merged k m') rest path
        else
          match v, mk with
          | vobj _, some (vobj _) => do
              let (r, st') ← deepMergeTreeNodes st mk v fieldPath
              deepMergeTreeNodes.mergeFields st' (setA merged k r) rest path
          | _, _ =>
              deepMergeTreeNodes.mergeFields st (setA merged k v) rest path) := rfl

/-- Unfolding equation of mergeFields on the empty field list. -/
theorem mergeFields_nil_def (st : RState) (merged : List (String × Val))
    (path : String) :
    deepMergeTreeNodes.mergeFields st merged [] path = .ok (merged, st) := rfl

/-- mergeFields is the sequential composition of mergeOne steps. -/
theorem mergeFields_cons_eq (st : RState) (merged : List (String × Val))
    (k : String) (v : Val) (rest : List (String × Val)) (path : String) :
    deepMergeTreeNodes.mergeFields st merged ((k, v) :: rest) path =
      (mergeOne st merged k v path).bind (fun r =>
        deepMergeTreeNodes.mergeFields r.2 r.1 rest path) := by
  rw [mergeFields_cons_def]
  unfold mergeOne
  by_cases hdo : isDiffOps v && isRangeNodeO (getA merged k)
  · simp only [hdo, if_true, bind, Except.bind]
    cases applyDiffOpsToRange st ((getA merged k).getD vnull) (opsOf v)
        (if path = "" then k else path ++ "." ++ k) with
    | error e => simp [Except.bind]
    | ok r => simp [Except.bind, pure, Except.pure]
  · simp only [hdo, Bool.false_eq_true, if_false]
    cases v with
    | vobj vfs =>
        rcases hmk : getA merged k with _ | w
        · simp [bind, Except.bind, pure, Except.pure]
        · cases w with
          | vobj mfs =>
              simp only [bind, Except.bind]
              cases deepMergeTreeNodes st (some (vobj mfs)) (vobj vfs)
                  (if path = "" then k else path ++ "." ++ k) with
              | error e => simp [Except.bind]
              | ok r => simp [Except.bind, pure, Except.pure]
          | vnull => simp [bind, Except.bind, pure, Except.pure]
          | vbool b => simp [bind, Except.bind, pure, Except.pure]
          | vnum n => simp [bind, Except.bind, pure, Except.pure]
          | vstr s => simp [bind, Except.bind, pure, Except.pure]
          | varr xs => simp [bind, Except.bind, pure, Except.pure]
    | vnull => simp [bind, Except.bind, pure, Except.pure]
    | vbool b => simp [bind, Except.bind, pure, Except.pure]
    | vnum n => simp [bind, Except.bind, pure, Except.pure]
    | vstr s => simp [bind, Except.bind, pure, Except.pure]
    | varr xs => simp [bind, Except.bind, pure, Except.pure]

/-- Inversion of a cons step of the field fold. -/
theorem mergeFields_cons {st : RState} {merged : List (String × Val)}
    {k : String} {v : Val} {rest : List (String × Val)} {path : String}
    {res : List (String × Val)} {st' : RState}
    (h : deepMergeTreeNodes.mergeFields st merged ((k, v) :: rest) path =
      .ok (res, st')) :
    ∃ m1 st1, mergeOne st merged k v path = .ok (m1, st1) ∧
      deepMergeTreeNodes.mergeFields st1 m1 rest path = .ok (res, st') := by
  rw [mergeFields_cons_eq] at h
  obtain ⟨a, ha, hf⟩ := except_bind_ok h
  exact ⟨a.1, a.2, ha, hf⟩

/-- The field fold of deepMergeTreeNodes is compositional. -/
theorem mergeFields_append {l1 l2 : List (String × Val)} :
    ∀ {st : RState} {merged : List (String × Val)} {path : String}
      {res : List (String × Val)} {st' : RState},
      deepMergeTreeNodes.mergeFields st merged (l1 ++ l2) path = .ok (res, st') →
      ∃ m1 st1, deepMergeTreeNodes.mergeFields st merged l1 path = .ok (m1, st1) ∧
        deepMergeTreeNodes.mergeFields st1 m1 l2 path = .ok (res, st') := by
  induction l1 with
  | nil =>
      intro st merged path res st' h
      exact ⟨merged, st, rfl, h⟩
  | cons e r ih =>
      intro st merged path res st' h
      obtain ⟨k, v⟩ := e
      rw [List.cons_append] at h
      obtain ⟨m1, st1, hone, hrest⟩ := mergeFields_cons h
      obtain ⟨m2, st2, hl1, hl2⟩ := ih hrest
      refine ⟨m2, st2, ?_, hl2⟩
      rw [mergeFields_cons_eq]
      simp only [bind, Except.bind, hone]
      exact hl1

/-- mergeOne always stores its result under the processed key, leaving
other keys untouched. -/
theorem mergeOne_getA_ne {st : RState} {merged : List (String × Val)}
    {k : String} {v : Val} {path : String} {m1 : List (String × Val)}
    {st1 : RState} {k' : String}
    (h : mergeOne st merged k v path = .ok (m1, st1))
    (hne : k ≠ k') : getA m1 k' = getA merged k' := by
  unfold mergeOne at h
  by_cases hdo : isDiffOps v && isRangeNodeO (getA merged k)
  · simp only [hdo, if_true, bind, Except.bind] at h
    split at h
    · exact absurd h (by simp)
    · next r1 heq =>
        simp only [pure, Except.pure, Except.ok.injEq, Prod.mk.injEq] at h
        rw [← h.1, getA_setA_ne _ _ hne]
  · simp only [hdo, Bool.false_eq_true, if_false] at h
    split at h
    · simp only [bind, Except.bind] at h
      split at h
      · exact absurd h (by simp)
      · next r1 heq =>
          simp only [pure, Except.pure, Except.ok.injEq, Prod.mk.injEq] at h
          rw [← h.1, getA_setA_ne _ _ hne]
    · simp only [pure, Except.pure, Except.ok.injEq, Prod.mk.injEq] at h
      rw [← h.1, getA_setA_ne _ _ hne]

/-- Keys absent from the update list keep their stored value across the
field fold. -/
theorem mergeFields_getA_ne {l : List (String × Val)} :
    ∀ {st : RState} {merged : List (String × Val)} {path : String}
      {res : List (String × Val)} {st' : RState} {k' : String},
      (∀ kv ∈ l, kv.1 ≠ k') →
      deepMergeTreeNodes.mergeFields st merged l path = .ok (res, st') →
      getA res k' = getA merged k' := by
  induction l with
  | nil =>
      intro st merged path res st' k' _ h
      rw [mergeFields_nil_def] at h
      cases h
      rfl
  | cons e r ih =>
      intro st merged path res st' k' hne h
      obtain ⟨k, v⟩ := e
      obtain ⟨m1, st1, hone, hrest⟩ := mergeFields_cons h
      rw [ih (fun kv hkv => hne kv (by simp [hkv])) hrest]
      exact mergeOne_getA_ne hone (hne (k, v) (by simp))

/-- The step at a key whose stored and incoming values are both plain
objects recurses into deepMergeTreeNodes and stores the result. -/
theorem mergeOne_obj_obj {st : RState} {merged : List (String × Val)}
    {k : String} {vfs mfs : List (String × Val)} {path : String}
    {m1 : List (String × Val)} {st1 : RState}
    (hmk : getA merged k = some (vobj mfs))
    (h : mergeOne st merged k (vobj vfs) path = .ok (m1, st1)) :
    ∃ r, deepMergeTreeNodes st (some (vobj mfs)) (vobj vfs)
        (if path = "" then k else path ++ "." ++ k) = .ok (r, st1) ∧
      m1 = setA merged k r := by
  unfold mergeOne at h
  rw [hmk] at h
  have hdo : (isDiffOps (vobj vfs) && isRangeNodeO (some (vobj mfs))) = false := by
    simp [isDiffOps]
  simp only [hdo, Bool.false_eq_true, if_false, bind, Except.bind] at h
  split at h
  · exact absurd h (by simp)
  · next r1 heq =>
      simp only [pure, Except.pure, Except.ok.injEq, Prod.mk.injEq] at h
      exact ⟨r1.1, by rw [heq, ← h.2], h.1.symm⟩

/-- Unfolding deepMergeTreeNodes when both sides are objects and no
Range-to-non-Range replacement fires. -/
theorem deepMerge_obj_obj {st : RState} {efs ufs : List (String × Val)}
    {path : String} {res : Val} {st' : RState}
    (hflip : (isRangeNode (vobj efs) && !isRangeNode (vobj ufs)) = false)
    (h : deepMergeTreeNodes st (some (vobj efs)) (vobj ufs) path = .ok (res, st')) :
    ∃ mfs, deepMergeTreeNodes.mergeFields st efs ufs path = .ok (mfs, st') ∧
      res = vobj mfs := by
  unfold deepMergeTreeNodes at h
  simp only [hflip, Bool.false_eq_true, if_false, bind, Except.bind] at h
  split at h
  · exact absurd h (by simp)
  · next r1 heq =>
      simp only [pure, Except.pure, Except.ok.injEq, Prod.mk.injEq] at h
      exact ⟨r1.1, by rw [heq, ← h.2], h.1.symm⟩

/-- C1: for every path at any nesting depth, if the stored value at that
path is a Range node (an object with both a d array and an s array) and
the update holds at that path a plain object that is not a Range node,
then the merged value at that path is exactly the incoming object: the
Range-to-non-Range check of deepMergeTreeNodes replaces instead of
merging, so no d field and no prior items survive. The pathKeyOnce
hypothesis states that the update object stores each traversed key once,
which is automatic for JavaScript objects and only needed because objects
are modelled as field lists. -/
theorem C1_range_to_nonRange_replacement (p : List String) :
    ∀ (st : RState) (existing update : Val) (path : String) (res : Val)
      (st' : RState) (er ur : Val),
      deepMergeTreeNodes st (some existing) update path = .ok (res, st') →
      objGetPath existing p = some er →
      isRangeNode er = true →
      objGetPath update p = some ur →
      pathKeyOnce update p = true →
      isObjVal ur = true →
      isRangeNode ur = false →
      objGetPath res p = some ur := by
  induction p with
  | nil =>
      intro st existing update path res st' er ur hm hE hEr hU hOnce hObj hNR
      simp only [objGetPath, Option.some.injEq] at hE hU
      subst hE; subst hU
      obtain ⟨efs, hefs⟩ := isRangeNode_obj hEr
      obtain ⟨ufs, hufs⟩ := isObjVal_obj hObj
      subst hefs; subst hufs
      unfold deepMergeTreeNodes at hm
      simp only [hEr, hNR, Bool.not_false, Bool.and_true, if_true,
        Except.ok.injEq, Prod.mk.injEq] at hm
      rw [← hm.1]
      rfl
  | cons k q ih =>
      intro st existing update path res st' er ur hm hE hEr hU hOnce hObj hNR
      obtain ⟨efs, e', hEx, hEk, hEq⟩ := objGetPath_cons hE
      obtain ⟨ufs, u', hUx, hUk, hUq⟩ := objGetPath_cons hU
      subst hEx; subst hUx
      simp only [pathKeyOnce, hUk, Bool.and_eq_true, beq_iff_eq] at hOnce
      obtain ⟨hcnt, honce2⟩ := hOnce
      by_cases hflip : isRangeNode (vobj efs) && !isRangeNode (vobj ufs)
      · unfold deepMergeTreeNodes at hm
        simp only [hflip, if_true, Except.ok.injEq, Prod.mk.injEq] at hm
        rw [← hm.1]
        simp [objGetPath, hUk, hUq]
      · have hflip2 : (isRangeNode (vobj efs) && !isRangeNode (vobj ufs)) = false := by
          revert hflip
          cases isRangeNode (vobj efs) && !isRangeNode (vobj ufs) <;> simp
        obtain ⟨mfs, hMF, hres⟩ := deepMerge_obj_obj hflip2 hm
        subst hres
        obtain ⟨pre, post, hsplit, hpre, hpost⟩ := getA_count_split hUk hcnt
        subst hsplit
        obtain ⟨m1, st1, hPre, hRest⟩ := mergeFields_append hMF
        obtain ⟨m2, st2, hOne, hPost⟩ := mergeFields_cons hRest
        have hm1k : getA m1 k = some e' := by
          rw [mergeFields_getA_ne hpre hPre]
          exact hEk
        have hu2 : ∃ fs, u' = vobj fs := by
          cases q with
          | nil =>
              simp only [objGetPath, Option.some.injEq] at hUq
              subst hUq
              exact isObjVal_obj hObj
          | cons k2 q2 =>
              obtain ⟨fs, _, h1, _, _⟩ := objGetPath_cons hUq
              exact ⟨fs, h1⟩
        have he2 : ∃ fs, e' = vobj fs := by
          cases q with
          | nil =>
              simp only [objGetPath, Option.some.injEq] at hEq
              subst hEq
              exact isRangeNode_obj hEr
          | cons k2 q2 =>
              obtain ⟨fs, _, h1, _, _⟩ := objGetPath_cons hEq
              exact ⟨fs, h1⟩
        obtain ⟨u2fs, hu2⟩ := hu2
        obtain ⟨e2fs, he2⟩ := he2
        subst hu2; subst he2
        obtain ⟨r, hRec, hm2⟩ := mergeOne_obj_obj hm1k hOne
        have hr : objGetPath r q = some ur :=
          ih st1 (vobj e2fs) (vobj u2fs) _ r st2 er ur hRec hEq hEr hUq honce2 hObj hNR
        have hmfs : getA mfs k = some r := by
          rw [mergeFields_getA_ne hpost hPost, hm2]
          exact getA_setA_eq m1 k r
        simp [objGetPath, hmfs, hr]

/-- Witness for C1 at a concrete input: a stored Range under key r is
replaced wholesale by an incoming plain object. -/
theorem C1_witness :
    deepMergeTreeNodes initState (some c1Existing) c1Update "k" =
        .ok (vobj [("r", vobj [("msg", vstr "empty")])], initState) ∧
      objGetPath (vobj [("r", vobj [("msg", vstr "empty")])]) ["r"] =
        some (vobj [("msg", vstr "empty")]) :=
  ⟨rfl, C1_range_to_nonRange_replacement ["r"] initState c1Existing c1Update "k"
    (vobj [("r", vobj [("msg", vstr "empty")])]) initState
    (vobj [("d", varr [vobj [("0", vstr "x")]]), ("s", varr [vstr "a", vstr "b"])])
    (vobj [("msg", vstr "empty")]) rfl rfl rfl rfl rfl rfl rfl⟩

/-! ### C2: partial updates preserve stored statics (amended) -/

theorem getA_none_keys {α : Type} {l : List (String × α)} {k : String}
    (h : getA l k = none) : ∀ kv ∈ l, kv.1 ≠ k := by
  induction l with
  | nil => intro kv hkv; cases hkv
  | cons e r ih =>
      obtain ⟨k0, v0⟩ := e
      intro kv hkv
      by_cases h0 : k0 = k
      · simp [getA, h0] at h
      · simp only [getA, h0, if_false] at h
        rcases List.mem_cons.1 hkv with h1 | h1
        · subst h1; exact h0
        · exact ih h kv h1

/-- C2 (amended): a later update whose value at a path is a plain object
omitting s merges field by field, leaving the stored statics at that path
unchanged, PROVIDED no Range-to-non-Range replacement fires at the path or
any prefix of it (noRangeFlip and the final Bool hypothesis; the original
claim is refuted by C2_counterexample exactly because a stored Range node
merged with a numeric-key-only object is such a transition and drops the
statics). The render conjunct: rendering the merged node interleaves its
numbered dynamic slots with exactly the preserved statics via the slots
loop of reconstructFromTree. -/
theorem C2_partial_update_statics_amended (p : List String) :
    ∀ (st : RState) (existing update : Val) (path : String) (res : Val)
      (st' : RState) (enfs unfs : List (String × Val)) (sv : Val),
      deepMergeTreeNodes st (some existing) update path = .ok (res, st') →
      objGetPath existing p = some (vobj enfs) →
      getA enfs "s" = some sv →
      objGetPath update p = some (vobj unfs) →
      getA unfs "s" = none →
      pathKeyOnce update p = true →
      noRangeFlip existing update p = true →
      (isRangeNode (vobj enfs) && !isRangeNode (vobj unfs)) = false →
      ∃ rfs, objGetPath res p = some (vobj rfs) ∧ getA rfs "s" = some sv ∧
        (∀ ss f st2 fk sp, sv = varr ss → getA rfs "d" = none →
          renderValue (f + 2) st2 (vobj rfs) fk (some sp) =
            (renderStep f (.slots ss 0 rfs sp) st2).map
              (fun r => (stripRootTags r.1, r.2))) := by
  induction p with
  | nil =>
      intro st existing update path res st' enfs unfs sv hm hE hs hU hu hOnce hNF hFlipP
      simp only [objGetPath, Option.some.injEq] at hE hU
      subst hE; subst hU
      obtain ⟨mfs, hMF, hres⟩ := deepMerge_obj_obj hFlipP hm
      subst hres
      have hkeys : ∀ kv ∈ unfs, kv.1 ≠ "s" := getA_none_keys hu
      have hss : getA mfs "s" = some sv := by
        rw [mergeFields_getA_ne hkeys hMF]
        exact hs
      refine ⟨mfs, rfl, hss, ?_⟩
      intro ss f st2 fk sp hsv hd
      subst hsv
      show renderStep (f + 2) (.value (vobj mfs) fk (some sp)) st2 = _
      simp only [renderStep, hd, hss, Option.getD]
      cases renderStep f (.slots ss 0 mfs sp) st2 with
      | error e => simp [Except.map, bind, Except.bind]
      | ok r => simp [Except.map, bind, Except.bind, pure, Except.pure]
  | cons k q ih =>
      intro st existing update path res st' enfs unfs sv hm hE hs hU hu hOnce hNF hFlipP
      obtain ⟨efs, e', hEx, hEk, hEq⟩ := objGetPath_cons hE
      obtain ⟨ufs, u', hUx, hUk, hUq⟩ := objGetPath_cons hU
      subst hEx; subst hUx
      simp only [pathKeyOnce, hUk, Bool.and_eq_true, beq_iff_eq] at hOnce
      obtain ⟨hcnt, honce2⟩ := hOnce
      simp only [noRangeFlip, hEk, hUk, Bool.and_eq_true, Bool.not_eq_true'] at hNF
      obtain ⟨hflip0, hNF2⟩ := hNF
      obtain ⟨mfs, hMF, hres⟩ := deepMerge_obj_obj hflip0 hm
      subst hres
      obtain ⟨pre, post, hsplit, hpre, hpost⟩ := getA_count_split hUk hcnt
      subst hsplit
      obtain ⟨m1, st1, hPre, hRest⟩ := mergeFields_append hMF
      obtain ⟨m2, st2x, hOne, hPost⟩ := mergeFields_cons hRest
      have hm1k : getA m1 k = some e' := by
        rw [mergeFields_getA_ne hpre hPre]
        exact hEk
      have hu2 : ∃ fs, u' = vobj fs := by
        cases q with
        | nil =>
            simp only [objGetPath, Option.some.injEq] at hUq
            exact ⟨unfs, hUq⟩
        | cons k2 q2 =>
            obtain ⟨fs, _, h1, _, _⟩ := objGetPath_cons hUq
            exact ⟨fs, h1⟩
      have he2 : ∃ fs, e' = vobj fs := by
        cases q with
        | nil =>
            simp only [objGetPath, Option.some.injEq] at hEq
            exact ⟨enfs, hEq⟩
        | cons k2 q2 =>
            obtain ⟨fs, _, h1, _, _⟩ := objGetPath_cons hEq
            exact ⟨fs, h1⟩
      obtain ⟨u2fs, hu2⟩ := hu2
      obtain ⟨e2fs, he2⟩ := he2
      subst hu2; subst he2
      obtain ⟨r, hRec, hm2⟩ := mergeOne_obj_obj hm1k hOne
      obtain ⟨rfs, hrg, hrs, hrender⟩ :=
        ih st1 (vobj e2fs) (vobj u2fs) _ r st2x enfs unfs sv hRec hEq hs hUq hu
          honce2 hNF2 hFlipP
      have hmfs : getA mfs k = some r := by
        rw [mergeFields_getA_ne hpost hPost, hm2]
        exact getA_setA_eq m1 k r
      exact ⟨rfs, by simp [objGetPath, hmfs, hrg], hrs, hrender⟩

end LT

namespace LT
open Val

/-- Witness for C2 at a concrete input: statics survive a partial update
that only supplies dynamics. -/
theorem C2_witness :
    ∃ rfs, objGetPath (vobj [("x", vobj [("s", varr [vstr "<p>", vstr "</p>"]),
        ("0", vstr "new")])]) ["x"] = some (vobj rfs) ∧
      getA rfs "s" = some (varr [vstr "<p>", vstr "</p>"]) ∧
      (∀ ss f st2 fk sp, varr [vstr "<p>", vstr "</p>"] = varr ss →
        getA rfs "d" = none →
        renderValue (f + 2) st2 (vobj rfs) fk (some sp) =
          (renderStep f (.slots ss 0 rfs sp) st2).map
            (fun r => (stripRootTags r.1, r.2))) :=
  C2_partial_update_statics_amended ["x"] initState c2Existing c2Update "r"
    (vobj [("x", vobj [("s", varr [vstr "<p>", vstr "</p>"]), ("0", vstr "new")])])
    initState [("s", varr [vstr "<p>", vstr "</p>"]), ("0", vstr "old")]
    [("0", vstr "new")] (varr [vstr "<p>", vstr "</p>"])
    rfl rfl rfl rfl rfl rfl rfl rfl

/-! ### C6: differential operations and the authoritative tree (amended) -/

/-- C6 (amended to top level): when an applyUpdate entry carries a
differential-operations array for a TOP-LEVEL key whose stored node is a
Range, the entry applies the operations and overwrites the tree node at
that key with the rebuilt Range (mutated items and statics), the range
index entry agrees, and the entry reports changed; a getTreeState read
then reflects the mutation at that key. At NESTED paths the original
claim fails: C6_counterexample shows the render-time application writing
the rebuilt Range under a flat dotted top-level key while the nested tree
position keeps the raw operations array. -/
theorem C6_toplevel_amended
    (st : RState) (c : Bool) (k : String) (v : Val) (exfs : List (String × Val))
    (items0 ss0 : List Val) (e2 : Val) (stx st1 : RState) (c2 : Bool)
    (hdo : isDiffOps v = true)
    (hex : getA st.treeState k = some (vobj exfs))
    (hrange : isRangeNode (vobj exfs) = true)
    (hd : getA exfs "d" = some (varr items0))
    (hs : getA exfs "s" = some (varr ss0))
    (happ : applyDiffOpsToRange st (vobj exfs) (opsOf v) k = .ok (e2, stx))
    (hcall : applyUpdateEntry st c k v = .ok (c2, st1)) :
    c2 = true ∧
    st1.treeState = setA stx.treeState k e2 ∧
    objGetPath (getTreeState st1) [k] = some e2 ∧
    ∃ items2 statics2, getField e2 "d" = some (varr items2) ∧
      getField e2 "s" = some statics2 ∧
      getA stx.rangeState k = some ⟨items2, statics2, getA exfs "sm"⟩ := by
  unfold applyUpdateEntry at hcall
  simp only [hdo, if_true, hex, hrange, deepClone, bind, Except.bind, happ,
    pure, Except.pure, Except.ok.injEq, Prod.mk.injEq] at hcall
  obtain ⟨hc, hstw⟩ := hcall
  refine ⟨hc.symm, ?_, ?_, ?_⟩
  · rw [← hstw]
  · rw [getTreeState]
    simp only [objGetPath]
    rw [← hstw]
    simp only [getA_setA_eq]
  · obtain ⟨st2, acc, hrik, htree, hfold, hout, hst⟩ :=
      applyDiffOpsToRange_inv hd hs happ
    refine ⟨acc.1, acc.2.1, ?_, ?_, ?_⟩
    · rw [hout]
      simp only [getField]
      rw [getA_setA_ne _ _ (by decide), getA_setA_eq]
    · rw [hout]
      simp only [getField]
      rw [getA_setA_eq]
    · rw [hst]
      simp only [getA_setA_eq]

theorem C6_witness :
    true = true ∧
    c6wSt1.treeState = setA c6wStx.treeState "k" c6wOut ∧
    objGetPath (getTreeState c6wSt1) ["k"] = some c6wOut ∧
    ∃ items2 statics2, getField c6wOut "d" = some (varr items2) ∧
      getField c6wOut "s" = some statics2 ∧
      getA c6wStx.rangeState "k" = some ⟨items2, statics2,
        getA [("d", varr [vobj [("0", vstr "x")]]),
              ("s", varr [vstr "a", vstr "b"])] "sm"⟩ :=
  C6_toplevel_amended c6wSt false "k" c6wOps
    [("d", varr [vobj [("0", vstr "x")]]), ("s", varr [vstr "a", vstr "b"])]
    [vobj [("0", vstr "x")]] [vstr "a", vstr "b"] c6wOut c6wStx c6wSt1 true
    rfl rfl rfl rfl rfl rfl rfl

/-! ### C10: root tag stripping (amended) -/

/-- C10 (amended): when the root of the tree state has a statics array
after the merge, the html returned by applyUpdate is exactly the result
of one left-to-right removal pass for <root> followed by one for </root>
over the interleaved root body (stripRootTags = two removeAllOccs
passes). This is a removal of every occurrence present in the
concatenated body, NOT a guarantee of absence: a pass never rescans text
spliced together by its own removals, so the output can still contain
the substring <root>, as C10_counterexample shows with a dynamic scalar
value "<ro<root>ot>". -/
theorem C10_root_strip_amended
    (f : Nat) (st : RState) (update : Val) (entries : List (String × Val))
    (changed : Bool) (st1 : RState) (html : String) (flag : Bool)
    (stf : RState) (ss : List Val)
    (hent : entriesOf update = .ok entries)
    (hmerge : applyUpdateEntries st false entries = .ok (changed, st1))
    (hroot : getA st1.treeState "s" = some (varr ss))
    (h : applyUpdate (f + 1) st update = .ok ((html, flag), stf)) :
    flag = changed ∧
    ∃ body, reconstructRootSlots f st1 ss 0 = .ok (body, stf) ∧
      html = stripRootTags body ∧
      html = removeAllOccs (removeAllOccs body "<root>") "</root>" := by
  unfold applyUpdate at h
  simp only [hent, hmerge, bind, Except.bind] at h
  unfold reconstructRoot at h
  simp only [hroot, bind, Except.bind] at h
  cases hslots : reconstructRootSlots f st1 ss 0 with
  | error e => rw [hslots] at h; cases h
  | ok r =>
      rw [hslots] at h
      simp only [pure, Except.pure, Except.ok.injEq, Prod.mk.injEq] at h
      obtain ⟨⟨hhtml, hflag⟩, hstf⟩ := h
      exact ⟨hflag.symm, r.1, by rw [← hstf], hhtml.symm, hhtml.symm⟩

theorem C10_witness :
    true = true ∧
    ∃ body, reconstructRootSlots 49 c10wSt1
        [vstr "<root><p>", vstr "</p></root>"] 0 = .ok (body, c10wSt1) ∧
      "<p>hi</p>" = stripRootTags body ∧
      "<p>hi</p>" = removeAllOccs (removeAllOccs body "<root>") "</root>" :=
  C10_root_strip_amended 49 initState c10wUp
    [("0", vstr "hi"), ("s", varr [vstr "<root><p>", vstr "</p></root>"])]
    true c10wSt1 "<p>hi</p>" true c10wSt1
    [vstr "<root><p>", vstr "</p></root>"]
    rfl rfl rfl rfl

/-! ### C3: idempotence of repeated updates (amended) -/

/-! Predicate unfolding and closure lemmas. -/

theorem opsFree_obj (fs : List (String × Val)) :
    opsFree (vobj fs) = opsFree.allOpsFreeF fs := rfl

theorem allOpsFreeF_cons (k : String) (v : Val) (r : List (String × Val)) :
    opsFree.allOpsFreeF ((k, v) :: r) = (opsFree v && opsFree.allOpsFreeF r) := rfl

theorem allOpsFree_cons (v : Val) (r : List Val) :
    opsFree.allOpsFree (v :: r) = (opsFree v && opsFree.allOpsFree r) := rfl

theorem allOpsFreeF_mem {fs : List (String × Val)}
    (h : opsFree.allOpsFreeF fs = true) : ∀ kv ∈ fs, opsFree kv.2 = true := by
  induction fs with
  | nil => intro kv hkv; cases hkv
  | cons e r ih =>
      obtain ⟨k, v⟩ := e
      rw [allOpsFreeF_cons, Bool.and_eq_true] at h
      intro kv hkv
      rcases List.mem_cons.1 hkv with h1 | h1
      · subst h1; exact h.1
      · exact ih h.2 kv h1

theorem allOpsFree_mem {xs : List Val}
    (h : opsFree.allOpsFree xs = true) : ∀ v ∈ xs, opsFree v = true := by
  induction xs with
  | nil => intro v hv; cases hv
  | cons e r ih =>
      rw [allOpsFree_cons, Bool.and_eq_true] at h
      intro v hv
      rcases List.mem_cons.1 hv with h1 | h1
      · subst h1; exact h.1
      · exact ih h.2 v h1

theorem allOpsFreeF_getA {fs : List (String × Val)} {k : String} {v : Val}
    (h : opsFree.allOpsFreeF fs = true) (hg : getA fs k = some v) :
    opsFree v = true :=
  allOpsFreeF_mem h (k, v) (getA_mem hg)

theorem opsFree_not_diffOps {v : Val} (h : opsFree v = true) :
    isDiffOps v = false := by
  cases v with
  | varr xs =>
      rw [show opsFree (varr xs) =
        (!isDiffOps (varr xs) && opsFree.allOpsFree xs) from rfl,
        Bool.and_eq_true, Bool.not_eq_true'] at h
      exact h.1
  | vnull => rfl
  | vbool b => rfl
  | vnum n => rfl
  | vstr s => rfl
  | vobj fs => rfl

theorem noDupKeys_obj (fs : List (String × Val)) :
    noDupKeys (vobj fs) =
      (noDupKeys.keysUnique (fs.map Prod.fst) && noDupKeys.allNoDupF fs) := rfl

theorem allNoDupF_cons (k : String) (v : Val) (r : List (String × Val)) :
    noDupKeys.allNoDupF ((k, v) :: r) = (noDupKeys v && noDupKeys.allNoDupF r) := rfl

theorem allNoDupF_mem {fs : List (String × Val)}
    (h : noDupKeys.allNoDupF fs = true) : ∀ kv ∈ fs, noDupKeys kv.2 = true := by
  induction fs with
  | nil => intro kv hkv; cases hkv
  | cons e r ih =>
      obtain ⟨k, v⟩ := e
      rw [allNoDupF_cons, Bool.and_eq_true] at h
      intro kv hkv
      rcases List.mem_cons.1 hkv with h1 | h1
      · subst h1; exact h.1
      · exact ih h.2 kv h1

theorem keysUnique_cons (k : String) (r : List String) :
    noDupKeys.keysUnique (k :: r) = (!(r.contains k) && noDupKeys.keysUnique r) := rfl

theorem rangeNeutral_obj (fs : List (String × Val)) :
    rangeNeutral (vobj fs) =
      ((isRangeNode (vobj fs) ||
        (rangeNeutral.noArrAt fs "d" && rangeNeutral.noArrAt fs "s")) &&
       rangeNeutral.allNeutralF fs) := rfl

theorem allNeutralF_cons (k : String) (v : Val) (r : List (String × Val)) :
    rangeNeutral.allNeutralF ((k, v) :: r) =
      (rangeNeutral v && rangeNeutral.allNeutralF r) := rfl

theorem allNeutralF_mem {fs : List (String × Val)}
    (h : rangeNeutral.allNeutralF fs = true) :
    ∀ kv ∈ fs, rangeNeutral kv.2 = true := by
  induction fs with
  | nil => intro kv hkv; cases hkv
  | cons e r ih =>
      obtain ⟨k, v⟩ := e
      rw [allNeutralF_cons, Bool.and_eq_true] at h
      intro kv hkv
      rcases List.mem_cons.1 hkv with h1 | h1
      · subst h1; exact h.1
      · exact ih h.2 kv h1

/-- Keys contained in a unique-key list resolve getA to the field value. -/
theorem keysUnique_getA {fs : List (String × Val)}
    (h : noDupKeys.keysUnique (fs.map Prod.fst) = true) :
    ∀ kv ∈ fs, getA fs kv.1 = some kv.2 := by
  induction fs with
  | nil => intro kv hkv; cases hkv
  | cons e r ih =>
      obtain ⟨k, v⟩ := e
      rw [List.map_cons, keysUnique_cons, Bool.and_eq_true,
        Bool.not_eq_true'] at h
      intro kv hkv
      rcases List.mem_cons.1 hkv with h1 | h1
      · subst h1; simp [getA]
      · by_cases hk : k = kv.1
        · exfalso
          have hmem : kv.1 ∈ r.map Prod.fst := List.mem_map_of_mem Prod.fst h1
          rw [← hk] at hmem
          have hcon : (r.map Prod.fst).contains k = true := by
            simpa [List.contains] using List.elem_eq_true_of_mem hmem
          rw [h.1] at hcon
          cases hcon
        · simp only [getA, hk, if_false]
          exact ih h.2 kv h1

/-- The shape of a successful merge of an object update: always an object. -/
theorem deepMerge_result_obj {st : RState} {ex : Option Val}
    {ufs : List (String × Val)} {path : String} {m : Val} {st' : RState}
    (h : deepMergeTreeNodes st ex (vobj ufs) path = .ok (m, st')) :
    ∃ mfs, m = vobj mfs := by
  unfold deepMergeTreeNodes at h
  cases ex with
  | none =>
      simp only [Except.ok.injEq, Prod.mk.injEq] at h
      exact ⟨ufs, h.1.symm⟩
  | some e =>
      cases e with
      | vobj efs =>
          by_cases hflip : isRangeNode (vobj efs) && !isRangeNode (vobj ufs)
          · simp only [hflip, if_true, Except.ok.injEq, Prod.mk.injEq] at h
            exact ⟨ufs, h.1.symm⟩
          · have hflip2 : (isRangeNode (vobj efs) && !isRangeNode (vobj ufs)) = false := by
              revert hflip
              cases isRangeNode (vobj efs) && !isRangeNode (vobj ufs) <;> simp
            simp only [hflip2, Bool.false_eq_true, if_false, bind, Except.bind] at h
            split at h
            · exact absurd h (by simp)
            · next r1 heq =>
                simp only [pure, Except.pure, Except.ok.injEq, Prod.mk.injEq] at h
                exact ⟨r1.1, h.1.symm⟩
      | vnull =>
          simp only [Except.ok.injEq, Prod.mk.injEq] at h
          exact ⟨ufs, h.1.symm⟩
      | vbool b =>
          simp only [Except.ok.injEq, Prod.mk.injEq] at h
          exact ⟨ufs, h.1.symm⟩
      | vnum n =>
          simp only [Except.ok.injEq, Prod.mk.injEq] at h
          exact ⟨ufs, h.1.symm⟩
      | vstr s =>
          simp only [Except.ok.injEq, Prod.mk.injEq] at h
          exact ⟨ufs, h.1.symm⟩
      | varr xs =>
          simp only [Except.ok.injEq, Prod.mk.injEq] at h
          exact ⟨ufs, h.1.symm⟩

/-- mergeOne on a non-object update value assigns it and keeps the state. -/
theorem mergeOne_run_nonobj {vk : Val} (hdok : isDiffOps vk = false)
    (hno : ∀ fs, vk ≠ vobj fs) (st : RState) (merged : List (String × Val))
    (k : String) (path : String) :
    mergeOne st merged k vk path = .ok (setA merged k vk, st) := by
  unfold mergeOne
  simp only [hdok, Bool.false_and, Bool.false_eq_true, if_false]
  cases vk with
  | vobj fs => exact absurd rfl (hno fs)
  | vnull => rfl
  | vbool b => rfl
  | vnum n => rfl
  | vstr s => rfl
  | varr xs => rfl

/-- mergeOne on an object update with no stored object at the key assigns
it and keeps the state. -/
theorem mergeOne_run_obj_nomatch {vfs : List (String × Val)} {merged : List (String × Val)}
    {k : String}
    (hmk : getA merged k = none ∨ ∃ w, getA merged k = some w ∧ ∀ wfs, w ≠ vobj wfs)
    (st : RState) (path : String) :
    mergeOne st merged k (vobj vfs) path = .ok (setA merged k (vobj vfs), st) := by
  unfold mergeOne
  simp only [show isDiffOps (vobj vfs) = false from rfl, Bool.false_and,
    Bool.false_eq_true, if_false]
  rcases hmk with hmk | ⟨w, hmk, hw⟩
  · rw [hmk]
    rfl
  · rw [hmk]
    cases w with
    | vobj wfs => exact absurd rfl (hw wfs)
    | vnull => rfl
    | vbool b => rfl
    | vnum n => rfl
    | vstr s => rfl
    | varr xs => rfl

/-- mergeOne on an object update against a stored object at the key runs
the recursive merge and assigns its result. -/
theorem mergeOne_run_obj_obj {vfs wfs : List (String × Val)}
    {merged : List (String × Val)} {k : String} {path : String}
    {st st2 : RState} {r : Val}
    (hmk : getA merged k = some (vobj wfs))
    (hrec : deepMergeTreeNodes st (some (vobj wfs)) (vobj vfs)
      (if path = "" then k else path ++ "." ++ k) = .ok (r, st2)) :
    mergeOne st merged k (vobj vfs) path = .ok (setA merged k r, st2) := by
  unfold mergeOne
  simp only [show isDiffOps (vobj vfs) = false from rfl, Bool.false_and,
    Bool.false_eq_true, if_false, hmk, bind, Except.bind, hrec]
  rfl

theorem contains_false_ne {l : List String} {k : String}
    (h : l.contains k = false) : ∀ x ∈ l, x ≠ k := by
  intro x hx hxk
  subst hxk
  have : l.contains x = true := by
    simpa [List.contains] using List.elem_eq_true_of_mem hx
  rw [h] at this
  cases this

theorem dm_run_nonobj {u : Val} (hno : ∀ fs, u ≠ vobj fs)
    (st : RState) (ex : Option Val) (path : String) :
    deepMergeTreeNodes st ex u path = .ok (u, st) := by
  unfold deepMergeTreeNodes
  cases u with
  | vobj fs => exact absurd rfl (hno fs)
  | vnull => rfl
  | vbool b => rfl
  | vnum n => rfl
  | vstr s => rfl
  | varr xs => rfl

theorem dm_run_obj_noexobj {ufs : List (String × Val)} {ex : Option Val}
    (hex : ex = none ∨ ∃ w, ex = some w ∧ ∀ wfs, w ≠ vobj wfs)
    (st : RState) (path : String) :
    deepMergeTreeNodes st ex (vobj ufs) path = .ok (vobj ufs, st) := by
  unfold deepMergeTreeNodes
  rcases hex with hex | ⟨w, hex, hw⟩
  · rw [hex]
  · rw [hex]
    cases w with
    | vobj wfs => exact absurd rfl (hw wfs)
    | vnull => rfl
    | vbool b => rfl
    | vnum n => rfl
    | vstr s => rfl
    | varr xs => rfl

theorem dm_run_flip {efs ufs : List (String × Val)}
    (hflip : (isRangeNode (vobj efs) && !isRangeNode (vobj ufs)) = true)
    (st : RState) (path : String) :
    deepMergeTreeNodes st (some (vobj efs)) (vobj ufs) path =
      .ok (vobj ufs, st) := by
  unfold deepMergeTreeNodes
  simp only [hflip, if_true]

theorem dm_run_merge {efs ufs mfs : List (String × Val)} {st st' : RState}
    {path : String}
    (hflip : (isRangeNode (vobj efs) && !isRangeNode (vobj ufs)) = false)
    (hMF : deepMergeTreeNodes.mergeFields st efs ufs path = .ok (mfs, st')) :
    deepMergeTreeNodes st (some (vobj efs)) (vobj ufs) path =
      .ok (vobj mfs, st') := by
  unfold deepMergeTreeNodes
  simp only [hflip, Bool.false_eq_true, if_false, bind, Except.bind, hMF]
  rfl

theorem noArrAt_def (fs : List (String × Val)) (k : String) :
    rangeNeutral.noArrAt fs k =
      (match getA fs k with
       | some (varr _) => false
       | _ => true) := rfl

/-- Merging an ops-free, duplicate-free, range-neutral update is a benign
operation: it never touches the renderer state, its result does not depend
on the state it runs in, and merging the same update a second time into
the merged result reproduces it exactly. -/
theorem mergeStable : ∀ u : Val,
    opsFree u = true → noDupKeys u = true → rangeNeutral u = true →
    (∀ (G : RState) (path : String),
      deepMergeTreeNodes G (some u) u path = .ok (u, G)) ∧
    (∀ (st : RState) (ex : Option Val) (path : String) (m : Val) (st' : RState),
      deepMergeTreeNodes st ex u path = .ok (m, st') →
      st' = st ∧
      (∀ G, deepMergeTreeNodes G ex u path = .ok (m, G)) ∧
      (∀ G, deepMergeTreeNodes G (some m) u path = .ok (m, G))) := by
  have nonObjCase : ∀ u : Val, (∀ fs, u ≠ vobj fs) →
      (∀ (G : RState) (path : String),
        deepMergeTreeNodes G (some u) u path = .ok (u, G)) ∧
      (∀ (st : RState) (ex : Option Val) (path : String) (m : Val) (st' : RState),
        deepMergeTreeNodes st ex u path = .ok (m, st') →
        st' = st ∧
        (∀ G, deepMergeTreeNodes G ex u path = .ok (m, G)) ∧
        (∀ G, deepMergeTreeNodes G (some m) u path = .ok (m, G))) := by
    intro u hno
    constructor
    · intro G path
      exact dm_run_nonobj hno G (some u) path
    · intro st ex path m st' h
      rw [dm_run_nonobj hno st ex path] at h
      simp only [Except.ok.injEq, Prod.mk.injEq] at h
      obtain ⟨hm, hst⟩ := h
      subst hm; subst hst
      exact ⟨rfl, fun G => dm_run_nonobj hno G ex path,
        fun G => dm_run_nonobj hno G (some u) path⟩
  intro u
  induction u using Val.strongInduction with
  | hnull => intro _ _ _; exact nonObjCase vnull (by intro fs h; cases h)
  | hbool b => intro _ _ _; exact nonObjCase (vbool b) (by intro fs h; cases h)
  | hnum n => intro _ _ _; exact nonObjCase (vnum n) (by intro fs h; cases h)
  | hstr s => intro _ _ _; exact nonObjCase (vstr s) (by intro fs h; cases h)
  | harr xs ihx => intro _ _ _; exact nonObjCase (varr xs) (by intro fs h; cases h)
  | hobj fs ih =>
    intro hof hnd hrn
    rw [opsFree_obj] at hof
    rw [noDupKeys_obj, Bool.and_eq_true] at hnd
    obtain ⟨hku, hndF⟩ := hnd
    rw [rangeNeutral_obj, Bool.and_eq_true] at hrn
    obtain ⟨hrnTop, hrnF⟩ := hrn
    have elemFacts : ∀ kv ∈ fs, opsFree kv.2 = true ∧ noDupKeys kv.2 = true ∧
        rangeNeutral kv.2 = true := fun kv hkv =>
      ⟨allOpsFreeF_mem hof kv hkv, allNoDupF_mem hndF kv hkv,
        allNeutralF_mem hrnF kv hkv⟩
    have elemSELF : ∀ kv ∈ fs, ∀ (G : RState) (path : String),
        deepMergeTreeNodes G (some kv.2) kv.2 path = .ok (kv.2, G) :=
      fun kv hkv =>
        (ih kv hkv (elemFacts kv hkv).1 (elemFacts kv hkv).2.1
          (elemFacts kv hkv).2.2).1
    have elemMAIN : ∀ kv ∈ fs,
        ∀ (st : RState) (ex : Option Val) (path : String) (m : Val) (st' : RState),
          deepMergeTreeNodes st ex kv.2 path = .ok (m, st') →
          st' = st ∧
          (∀ G, deepMergeTreeNodes G ex kv.2 path = .ok (m, G)) ∧
          (∀ G, deepMergeTreeNodes G (some m) kv.2 path = .ok (m, G)) :=
      fun kv hkv =>
        (ih kv hkv (elemFacts kv hkv).1 (elemFacts kv hkv).2.1
          (elemFacts kv hkv).2.2).2
    have stepFacts : ∀ k vk, (k, vk) ∈ fs →
        ∀ (st0 : RState) (merged m1 : List (String × Val)) (st1 : RState)
          (path : String),
        mergeOne st0 merged k vk path = .ok (m1, st1) →
        st1 = st0 ∧
        (∀ G, mergeOne G merged k vk path = .ok (m1, G)) ∧
        ∃ w, getA m1 k = some w ∧ (w = vk ∨ ∃ wfs, w = vobj wfs) ∧
          (∀ (G2 : RState) (M : List (String × Val)), getA M k = some w →
            mergeOne G2 M k vk path = .ok (M, G2)) := by
      intro k vk hkv st0 merged m1 st1 path hone
      have hofk := (elemFacts (k, vk) hkv).1
      have hdok : isDiffOps vk = false := opsFree_not_diffOps hofk
      by_cases hobj : ∃ vfs, vk = vobj vfs
      · obtain ⟨vfs, rfl⟩ := hobj
        have hself := elemSELF (k, vobj vfs) hkv
        cases hmk : getA merged k with
        | none =>
            rw [mergeOne_run_obj_nomatch (Or.inl hmk) st0 path] at hone
            simp only [Except.ok.injEq, Prod.mk.injEq] at hone
            obtain ⟨hm1, hst1⟩ := hone
            subst hm1; subst hst1
            refine ⟨rfl, fun G => mergeOne_run_obj_nomatch (Or.inl hmk) G path,
              vobj vfs, getA_setA_eq merged k (vobj vfs),
              Or.inr ⟨vfs, rfl⟩, ?_⟩
            intro G2 M hM
            have hrun := mergeOne_run_obj_obj hM
              (hself G2 (if path = "" then k else path ++ "." ++ k))
            rw [setA_self hM] at hrun
            exact hrun
        | some w0 =>
            by_cases hw0 : ∃ wfs, w0 = vobj wfs
            · obtain ⟨wfs, rfl⟩ := hw0
              obtain ⟨r, hrec, hm1⟩ := mergeOne_obj_obj hmk hone
              obtain ⟨hst1, hparam, hidem⟩ :=
                elemMAIN (k, vobj vfs) hkv st0 (some (vobj wfs)) _ r st1 hrec
              obtain ⟨rfs, hrfs⟩ := deepMerge_result_obj hrec
              refine ⟨hst1, ?_, r, ?_, Or.inr ⟨rfs, hrfs⟩, ?_⟩
              · intro G
                rw [hm1]
                exact mergeOne_run_obj_obj hmk (hparam G)
              · rw [hm1]
                exact getA_setA_eq merged k r
              · intro G2 M hM
                subst hrfs
                have hrun := mergeOne_run_obj_obj hM (hidem G2)
                rw [setA_self hM] at hrun
                exact hrun
            · have hw0' : ∀ wfs, w0 ≠ vobj wfs := fun wfs he => hw0 ⟨wfs, he⟩
              rw [mergeOne_run_obj_nomatch (Or.inr ⟨w0, hmk, hw0'⟩) st0 path] at hone
              simp only [Except.ok.injEq, Prod.mk.injEq] at hone
              obtain ⟨hm1, hst1⟩ := hone
              subst hm1; subst hst1
              refine ⟨rfl,
                fun G => mergeOne_run_obj_nomatch (Or.inr ⟨w0, hmk, hw0'⟩) G path,
                vobj vfs, getA_setA_eq merged k (vobj vfs),
                Or.inr ⟨vfs, rfl⟩, ?_⟩
              intro G2 M hM
              have hrun := mergeOne_run_obj_obj hM
                (hself G2 (if path = "" then k else path ++ "." ++ k))
              rw [setA_self hM] at hrun
              exact hrun
      · have hno : ∀ fs', vk ≠ vobj fs' := fun fs' he => hobj ⟨fs', he⟩
        rw [mergeOne_run_nonobj hdok hno st0 merged k path] at hone
        simp only [Except.ok.injEq, Prod.mk.injEq] at hone
        obtain ⟨hm1, hst1⟩ := hone
        subst hm1; subst hst1
        refine ⟨rfl, fun G => mergeOne_run_nonobj hdok hno G merged k path,
          vk, getA_setA_eq merged k vk, Or.inl rfl, ?_⟩
        intro G2 M hM
        have hrun := mergeOne_run_nonobj hdok hno G2 M k path
        rw [setA_self hM] at hrun
        exact hrun
    have foldMain : ∀ l : List (String × Val),
        noDupKeys.keysUnique (l.map Prod.fst) = true →
        (∀ kv ∈ l, kv ∈ fs) →
        ∀ (st0 : RState) (merged mfs0 : List (String × Val)) (st0' : RState)
          (path : String),
          deepMergeTreeNodes.mergeFields st0 merged l path = .ok (mfs0, st0') →
          st0' = st0 ∧
          (∀ G, deepMergeTreeNodes.mergeFields G merged l path = .ok (mfs0, G)) ∧
          (∀ G, deepMergeTreeNodes.mergeFields G mfs0 l path = .ok (mfs0, G)) ∧
          (∀ kv ∈ l, ∃ w, getA mfs0 kv.1 = some w ∧
            (w = kv.2 ∨ ∃ wfs, w = vobj wfs)) := by
      intro l
      induction l with
      | nil =>
          intro _ _ st0 merged mfs0 st0' path hMF
          rw [mergeFields_nil_def] at hMF
          simp only [Except.ok.injEq, Prod.mk.injEq] at hMF
          obtain ⟨hm, hst⟩ := hMF
          subst hm; subst hst
          exact ⟨rfl, fun G => mergeFields_nil_def G merged path,
            fun G => mergeFields_nil_def G merged path,
            by intro kv hkv; cases hkv⟩
      | cons e rest ihl =>
          obtain ⟨k, vk⟩ := e
          intro hku0 hmem st0 merged mfs0 st0' path hMF
          rw [List.map_cons, keysUnique_cons, Bool.and_eq_true,
            Bool.not_eq_true'] at hku0
          obtain ⟨hkni, hkur⟩ := hku0
          have hknotin : ∀ kv ∈ rest, kv.1 ≠ k := by
            intro kv hkv
            exact contains_false_ne hkni kv.1 (List.mem_map_of_mem Prod.fst hkv)
          obtain ⟨m1, st1, hone, hrest⟩ := mergeFields_cons hMF
          obtain ⟨hst1, hparam1, w, hw, hwshape, hstep2⟩ :=
            stepFacts k vk (hmem (k, vk) (by simp)) st0 merged m1 st1 path hone
          rw [hst1] at hrest
          obtain ⟨hst', hparamR, hidemR, hvalR⟩ :=
            ihl hkur (fun kv hkv => hmem kv (by simp [hkv])) st0 m1 mfs0 st0'
              path hrest
          have hget0 : getA mfs0 k = some w := by
            rw [mergeFields_getA_ne hknotin hrest]
            exact hw
          refine ⟨hst', ?_, ?_, ?_⟩
          · intro G
            rw [mergeFields_cons_eq]
            simp only [bind, Except.bind, hparam1 G]
            exact hparamR G
          · intro G
            rw [mergeFields_cons_eq]
            simp only [bind, Except.bind, hstep2 G mfs0 hget0]
            exact hidemR G
          · intro kv hkv
            rcases List.mem_cons.1 hkv with h1 | h1
            · subst h1
              exact ⟨w, hget0, hwshape⟩
            · exact hvalR kv h1
    have foldSelf : ∀ l : List (String × Val), (∀ kv ∈ l, kv ∈ fs) →
        ∀ (G : RState) (path : String),
          deepMergeTreeNodes.mergeFields G fs l path = .ok (fs, G) := by
      intro l
      induction l with
      | nil => intro _ G path; exact mergeFields_nil_def G fs path
      | cons e rest ihl =>
          obtain ⟨k, vk⟩ := e
          intro hmem G path
          have hkv : (k, vk) ∈ fs := hmem (k, vk) (by simp)
          have hget : getA fs k = some vk := keysUnique_getA hku (k, vk) hkv
          rw [mergeFields_cons_eq]
          have hone : mergeOne G fs k vk path = .ok (fs, G) := by
            by_cases hobj : ∃ vfs, vk = vobj vfs
            · obtain ⟨vfs, rfl⟩ := hobj
              have hrun := mergeOne_run_obj_obj hget
                (elemSELF (k, vobj vfs) hkv G
                  (if path = "" then k else path ++ "." ++ k))
              rw [setA_self hget] at hrun
              exact hrun
            · have hno : ∀ fs', vk ≠ vobj fs' := fun fs' he => hobj ⟨fs', he⟩
              have hdok : isDiffOps vk = false :=
                opsFree_not_diffOps (elemFacts (k, vk) hkv).1
              have hrun := mergeOne_run_nonobj hdok hno G fs k path
              rw [setA_self hget] at hrun
              exact hrun
          simp only [bind, Except.bind, hone]
          exact ihl (fun kv hkv2 => hmem kv (by simp [hkv2])) G path
    have hSELF : ∀ (G : RState) (path : String),
        deepMergeTreeNodes G (some (vobj fs)) (vobj fs) path =
          .ok (vobj fs, G) := by
      intro G path
      have hflip : (isRangeNode (vobj fs) && !isRangeNode (vobj fs)) = false := by
        cases isRangeNode (vobj fs) <;> rfl
      exact dm_run_merge hflip (foldSelf fs (fun kv hkv => hkv) G path)
    refine ⟨hSELF, ?_⟩
    intro st ex path m st' h
    cases ex with
    | none =>
        rw [dm_run_obj_noexobj (Or.inl rfl) st path] at h
        simp only [Except.ok.injEq, Prod.mk.injEq] at h
        obtain ⟨hm, hst⟩ := h
        subst hm; subst hst
        exact ⟨rfl, fun G => dm_run_obj_noexobj (Or.inl rfl) G path,
          fun G => hSELF G path⟩
    | some e =>
        by_cases heobj : ∃ efs, e = vobj efs
        · obtain ⟨efs, rfl⟩ := heobj
          by_cases hflip : (isRangeNode (vobj efs) && !isRangeNode (vobj fs)) = true
          · rw [dm_run_flip hflip st path] at h
            simp only [Except.ok.injEq, Prod.mk.injEq] at h
            obtain ⟨hm, hst⟩ := h
            subst hm; subst hst
            exact ⟨rfl, fun G => dm_run_flip hflip G path,
              fun G => hSELF G path⟩
          · have hflip' : (isRangeNode (vobj efs) && !isRangeNode (vobj fs)) = false := by
              revert hflip
              cases isRangeNode (vobj efs) && !isRangeNode (vobj fs) <;> simp
            obtain ⟨mfs, hMF, hres⟩ := deepMerge_obj_obj hflip' h
            subst hres
            obtain ⟨hst', hparamF, hidemF, hvalF⟩ :=
              foldMain fs hku (fun kv hkv => hkv) st efs mfs st' path hMF
            refine ⟨hst', fun G => dm_run_merge hflip' (hparamF G), ?_⟩
            intro G
            have hflip2 : (isRangeNode (vobj mfs) && !isRangeNode (vobj fs)) = false := by
              by_cases hur : isRangeNode (vobj fs) = true
              · rw [hur]
                simp
              · have hur' : isRangeNode (vobj fs) = false := by
                  revert hur
                  cases isRangeNode (vobj fs) <;> simp
                have hrnTop2 := hrnTop
                rw [hur', Bool.false_or, Bool.and_eq_true] at hrnTop2
                obtain ⟨hnoD, hnoS⟩ := hrnTop2
                suffices hmr : isRangeNode (vobj mfs) = false by
                  rw [hmr]
                  simp
                cases hd : getA fs "d" with
                | some ud =>
                    obtain ⟨w, hwg, hwsh⟩ := hvalF ("d", ud) (getA_mem hd)
                    have hudna : ∀ xs, ud ≠ varr xs := by
                      intro xs he
                      subst he
                      rw [noArrAt_def, hd] at hnoD
                      cases hnoD
                    have hwna : ∀ xs, w ≠ varr xs := by
                      rcases hwsh with rfl | ⟨wfs, rfl⟩
                      · exact hudna
                      · intro xs he
                        cases he
                    cases w with
                    | varr xs => exact absurd rfl (hwna xs)
                    | vobj wfs => simp [isRangeNode, hwg]
                    | vnull => simp [isRangeNode, hwg]
                    | vbool b => simp [isRangeNode, hwg]
                    | vnum n => simp [isRangeNode, hwg]
                    | vstr s => simp [isRangeNode, hwg]
                | none =>
                    cases hs : getA fs "s" with
                    | some us =>
                        obtain ⟨w, hwg, hwsh⟩ := hvalF ("s", us) (getA_mem hs)
                        have husna : ∀ xs, us ≠ varr xs := by
                          intro xs he
                          subst he
                          rw [noArrAt_def, hs] at hnoS
                          cases hnoS
                        have hwna : ∀ xs, w ≠ varr xs := by
                          rcases hwsh with rfl | ⟨wfs, rfl⟩
                          · exact husna
                          · intro xs he
                            cases he
                        cases w with
                        | varr xs => exact absurd rfl (hwna xs)
                        | vobj wfs => simp [isRangeNode, hwg]
                        | vnull => simp [isRangeNode, hwg]
                        | vbool b => simp [isRangeNode, hwg]
                        | vnum n => simp [isRangeNode, hwg]
                        | vstr s2 => simp [isRangeNode, hwg]
                    | none =>
                        have hdm : getA mfs "d" = getA efs "d" :=
                          mergeFields_getA_ne (getA_none_keys hd) hMF
                        have hsm : getA mfs "s" = getA efs "s" :=
                          mergeFields_getA_ne (getA_none_keys hs) hMF
                        have heq : isRangeNode (vobj mfs) = isRangeNode (vobj efs) := by
                          simp [isRangeNode, hdm, hsm]
                        rw [hur'] at hflip'
                        simp only [Bool.not_false, Bool.and_true] at hflip'
                        rw [heq]
                        exact hflip'
            exact dm_run_merge hflip2 (hidemF G)
        · have hno : ∀ wfs, e ≠ vobj wfs := fun wfs he => heobj ⟨wfs, he⟩
          rw [dm_run_obj_noexobj (Or.inr ⟨e, rfl, hno⟩) st path] at h
          simp only [Except.ok.injEq, Prod.mk.injEq] at h
          obtain ⟨hm, hst⟩ := h
          subst hm; subst hst
          exact ⟨rfl, fun G => dm_run_obj_noexobj (Or.inr ⟨e, rfl, hno⟩) G path,
            fun G => hSELF G path⟩

/-- Inversion of a successful non-diff-ops update entry: the merge ran and
the entry either detected equality (no write) or wrote the merged value. -/
theorem entry_merge_inv {st : RState} {c : Bool} {k : String} {v : Val}
    {c1 : Bool} {st1 : RState}
    (hdo : isDiffOps v = false)
    (h : applyUpdateEntry st c k v = .ok (c1, st1)) :
    ∃ newValue stm,
      deepMergeTreeNodes st (getA st.treeState k) v k = .ok (newValue, stm) ∧
      (sameVal (getA st.treeState k) newValue = true ∧ c1 = c ∧ st1 = stm ∨
       sameVal (getA st.treeState k) newValue = false ∧ c1 = true ∧
         st1 = { stm with treeState := setA stm.treeState k newValue }) := by
  unfold applyUpdateEntry at h
  simp only [hdo, Bool.false_eq_true, if_false, bind, Except.bind] at h
  cases v with
  | vobj fs =>
      cases hmr : deepMergeTreeNodes st (getA st.treeState k) (vobj fs) k with
      | error e =>
          simp only [hmr] at h
          exact absurd h (by simp)
      | ok r =>
          obtain ⟨nv, stm⟩ := r
          simp only [hmr] at h
          refine ⟨nv, stm, rfl, ?_⟩
          cases hold : getA st.treeState k with
          | none =>
              simp only [hold, Bool.false_eq_true, if_false, pure, Except.pure,
                Except.ok.injEq, Prod.mk.injEq] at h
              exact Or.inr ⟨by simp [sameVal, hold], h.1.symm, h.2.symm⟩
          | some o =>
              cases hvq : valEq o nv with
              | true =>
                  simp only [hold, hvq, if_true, pure, Except.pure,
                    Except.ok.injEq, Prod.mk.injEq] at h
                  exact Or.inl ⟨by simp [sameVal, hold, hvq], h.1.symm, h.2.symm⟩
              | false =>
                  simp only [hold, hvq, Bool.false_eq_true, if_false, pure,
                    Except.pure, Except.ok.injEq, Prod.mk.injEq] at h
                  exact Or.inr ⟨by simp [sameVal, hold, hvq], h.1.symm, h.2.symm⟩
  | vnull =>
      refine ⟨vnull, st, dm_run_nonobj (by intro fs hh; cases hh) st _ k, ?_⟩
      cases hold : getA st.treeState k with
      | none =>
          simp only [hold, Bool.false_eq_true, if_false, pure, Except.pure,
            Except.ok.injEq, Prod.mk.injEq] at h
          exact Or.inr ⟨by simp [sameVal, hold], h.1.symm, h.2.symm⟩
      | some o =>
          cases hvq : valEq o (vnull) with
          | true =>
              simp only [hold, hvq, if_true, pure, Except.pure,
                Except.ok.injEq, Prod.mk.injEq] at h
              exact Or.inl ⟨by simp [sameVal, hold, hvq], h.1.symm, h.2.symm⟩
          | false =>
              simp only [hold, hvq, Bool.false_eq_true, if_false, pure,
                Except.pure, Except.ok.injEq, Prod.mk.injEq] at h
              exact Or.inr ⟨by simp [sameVal, hold, hvq], h.1.symm, h.2.symm⟩
  | vbool b =>
      refine ⟨vbool b, st, dm_run_nonobj (by intro fs hh; cases hh) st _ k, ?_⟩
      cases hold : getA st.treeState k with
      | none =>
          simp only [hold, Bool.false_eq_true, if_false, pure, Except.pure,
            Except.ok.injEq, Prod.mk.injEq] at h
          exact Or.inr ⟨by simp [sameVal, hold], h.1.symm, h.2.symm⟩
      | some o =>
          cases hvq : valEq o (vbool b) with
          | true =>
              simp only [hold, hvq, if_true, pure, Except.pure,
                Except.ok.injEq, Prod.mk.injEq] at h
              exact Or.inl ⟨by simp [sameVal, hold, hvq], h.1.symm, h.2.symm⟩
          | false =>
              simp only [hold, hvq, Bool.false_eq_true, if_false, pure,
                Except.pure, Except.ok.injEq, Prod.mk.injEq] at h
              exact Or.inr ⟨by simp [sameVal, hold, hvq], h.1.symm, h.2.symm⟩
  | vnum n =>
      refine ⟨vnum n, st, dm_run_nonobj (by intro fs hh; cases hh) st _ k, ?_⟩
      cases hold : getA st.treeState k with
      | none =>
          simp only [hold, Bool.false_eq_true, if_false, pure, Except.pure,
            Except.ok.injEq, Prod.mk.injEq] at h
          exact Or.inr ⟨by simp [sameVal, hold], h.1.symm, h.2.symm⟩
      | some o =>
          cases hvq : valEq o (vnum n) with
          | true =>
              simp only [hold, hvq, if_true, pure, Except.pure,
                Except.ok.injEq, Prod.mk.injEq] at h
              exact Or.inl ⟨by simp [sameVal, hold, hvq], h.1.symm, h.2.symm⟩
          | false =>
              simp only [hold, hvq, Bool.false_eq_true, if_false, pure,
                Except.pure, Except.ok.injEq, Prod.mk.injEq] at h
              exact Or.inr ⟨by simp [sameVal, hold, hvq], h.1.symm, h.2.symm⟩
  | vstr s =>
      refine ⟨vstr s, st, dm_run_nonobj (by intro fs hh; cases hh) st _ k, ?_⟩
      cases hold : getA st.treeState k with
      | none =>
          simp only [hold, Bool.false_eq_true, if_false, pure, Except.pure,
            Except.ok.injEq, Prod.mk.injEq] at h
          exact Or.inr ⟨by simp [sameVal, hold], h.1.symm, h.2.symm⟩
      | some o =>
          cases hvq : valEq o (vstr s) with
          | true =>
              simp only [hold, hvq, if_true, pure, Except.pure,
                Except.ok.injEq, Prod.mk.injEq] at h
              exact Or.inl ⟨by simp [sameVal, hold, hvq], h.1.symm, h.2.symm⟩
          | false =>
              simp only [hold, hvq, Bool.false_eq_true, if_false, pure,
                Except.pure, Except.ok.injEq, Prod.mk.injEq] at h
              exact Or.inr ⟨by simp [sameVal, hold, hvq], h.1.symm, h.2.symm⟩
  | varr xs =>
      refine ⟨varr xs, st, dm_run_nonobj (by intro fs hh; cases hh) st _ k, ?_⟩
      cases hold : getA st.treeState k with
      | none =>
          simp only [hold, Bool.false_eq_true, if_false, pure, Except.pure,
            Except.ok.injEq, Prod.mk.injEq] at h
          exact Or.inr ⟨by simp [sameVal, hold], h.1.symm, h.2.symm⟩
      | some o =>
          cases hvq : valEq o (varr xs) with
          | true =>
              simp only [hold, hvq, if_true, pure, Except.pure,
                Except.ok.injEq, Prod.mk.injEq] at h
              exact Or.inl ⟨by simp [sameVal, hold, hvq], h.1.symm, h.2.symm⟩
          | false =>
              simp only [hold, hvq, Bool.false_eq_true, if_false, pure,
                Except.pure, Except.ok.injEq, Prod.mk.injEq] at h
              exact Or.inr ⟨by simp [sameVal, hold, hvq], h.1.symm, h.2.symm⟩

/-- A non-diff-ops update entry whose merge reproduces a stored value that
stringify-equals it is a complete no-op. -/
theorem entry_run_same {G : RState} {k : String} {v : Val} {newValue : Val}
    (hdo : isDiffOps v = false)
    (hm : deepMergeTreeNodes G (getA G.treeState k) v k = .ok (newValue, G))
    (hsame : sameVal (getA G.treeState k) newValue = true)
    (c2 : Bool) : applyUpdateEntry G c2 k v = .ok (c2, G) := by
  unfold applyUpdateEntry
  simp only [hdo, Bool.false_eq_true, if_false, bind, Except.bind]
  cases hold : getA G.treeState k with
  | none =>
      rw [hold] at hsame
      simp [sameVal] at hsame
  | some o =>
      rw [hold] at hsame hm
      simp only [sameVal] at hsame
      cases v with
      | vobj fs =>
          simp only [hold, hm, hsame, if_true, pure, Except.pure]
      | vnull =>
          rw [dm_run_nonobj (by intro fs hh; cases hh) G (some o) k] at hm
          simp only [Except.ok.injEq, Prod.mk.injEq] at hm
          rw [← hm.1] at hsame
          simp only [hold, hsame, if_true, pure, Except.pure]
      | vbool b =>
          rw [dm_run_nonobj (by intro fs hh; cases hh) G (some o) k] at hm
          simp only [Except.ok.injEq, Prod.mk.injEq] at hm
          rw [← hm.1] at hsame
          simp only [hold, hsame, if_true, pure, Except.pure]
      | vnum n =>
          rw [dm_run_nonobj (by intro fs hh; cases hh) G (some o) k] at hm
          simp only [Except.ok.injEq, Prod.mk.injEq] at hm
          rw [← hm.1] at hsame
          simp only [hold, hsame, if_true, pure, Except.pure]
      | vstr s =>
          rw [dm_run_nonobj (by intro fs hh; cases hh) G (some o) k] at hm
          simp only [Except.ok.injEq, Prod.mk.injEq] at hm
          rw [← hm.1] at hsame
          simp only [hold, hsame, if_true, pure, Except.pure]
      | varr xs =>
          rw [dm_run_nonobj (by intro fs hh; cases hh) G (some o) k] at hm
          simp only [Except.ok.injEq, Prod.mk.injEq] at hm
          rw [← hm.1] at hsame
          simp only [hold, hsame, if_true, pure, Except.pure]

theorem applyUpdateEntries_cons (st : RState) (c : Bool) (k : String) (v : Val)
    (rest : List (String × Val)) :
    applyUpdateEntries st c ((k, v) :: rest) =
      (applyUpdateEntry st c k v).bind (fun r =>
        applyUpdateEntries r.2 r.1 rest) := by
  unfold applyUpdateEntries
  cases h : applyUpdateEntry st c k v with
  | error e => simp [bind, Except.bind, h]
  | ok r =>
      obtain ⟨cA, stA⟩ := r
      simp only [bind, Except.bind, h]
      cases rest <;> rfl

/-- A benign update entry: no range bookkeeping changes, no writes outside
its own key, and from any state that already stores its merged value the
entry is a complete no-op. -/
theorem entry_main {st : RState} {c : Bool} {k : String} {v : Val}
    {c1 : Bool} {st1 : RState}
    (hof : opsFree v = true) (hnd : noDupKeys v = true)
    (hrn : rangeNeutral v = true)
    (h : applyUpdateEntry st c k v = .ok (c1, st1)) :
    st1.rangeState = st.rangeState ∧ st1.rangeIdKeys = st.rangeIdKeys ∧
    (∀ k', k' ≠ k → getA st1.treeState k' = getA st.treeState k') ∧
    (∀ (G : RState) (c2 : Bool), getA G.treeState k = getA st1.treeState k →
      applyUpdateEntry G c2 k v = .ok (c2, G)) := by
  have hdo := opsFree_not_diffOps hof
  obtain ⟨nv, stm, hm, hcase⟩ := entry_merge_inv hdo h
  obtain ⟨hstm, hparam, hidem⟩ := (mergeStable v hof hnd hrn).2 st _ k nv stm hm
  subst hstm
  rcases hcase with ⟨hsame, hc1, hst1⟩ | ⟨hsame, hc1, hst1⟩
  · subst hst1
    refine ⟨rfl, rfl, fun k' _ => rfl, ?_⟩
    intro G c2 hG
    have hm2 : deepMergeTreeNodes G (getA G.treeState k) v k = .ok (nv, G) := by
      rw [hG]
      exact hparam G
    have hsame2 : sameVal (getA G.treeState k) nv = true := by
      rw [hG]
      exact hsame
    exact entry_run_same hdo hm2 hsame2 c2
  · subst hst1
    refine ⟨rfl, rfl, ?_, ?_⟩
    · intro k' hk'
      exact getA_setA_ne _ nv (Ne.symm hk')
    · intro G c2 hG
      have hGk : getA G.treeState k = some nv := by
        rw [hG]
        exact getA_setA_eq _ k nv
      have hm2 : deepMergeTreeNodes G (getA G.treeState k) v k = .ok (nv, G) := by
        rw [hGk]
        exact hidem G
      have hsame2 : sameVal (getA G.treeState k) nv = true := by
        rw [hGk]
        simp [sameVal, valEq_refl]
      exact entry_run_same hdo hm2 hsame2 c2

/-- The entry fold of applyUpdate for a benign update: range bookkeeping
untouched, only the entry keys written, and a second pass over the same
entries from any state agreeing with the result on those keys is a
complete no-op. -/
theorem entries_main : ∀ (entries : List (String × Val)) (st : RState)
    (c c1 : Bool) (st1 : RState),
    (∀ kv ∈ entries, opsFree kv.2 = true ∧ noDupKeys kv.2 = true ∧
      rangeNeutral kv.2 = true) →
    noDupKeys.keysUnique (entries.map Prod.fst) = true →
    applyUpdateEntries st c entries = .ok (c1, st1) →
    st1.rangeState = st.rangeState ∧ st1.rangeIdKeys = st.rangeIdKeys ∧
    (∀ k', (∀ kv ∈ entries, kv.1 ≠ k') →
      getA st1.treeState k' = getA st.treeState k') ∧
    (∀ (G : RState) (c2 : Bool),
      (∀ kv ∈ entries, getA G.treeState kv.1 = getA st1.treeState kv.1) →
      applyUpdateEntries G c2 entries = .ok (c2, G)) := by
  intro entries
  induction entries with
  | nil =>
      intro st c c1 st1 _ _ h
      simp only [applyUpdateEntries, Except.ok.injEq, Prod.mk.injEq] at h
      obtain ⟨hc, hst⟩ := h
      subst hc; subst hst
      exact ⟨rfl, rfl, fun _ _ => rfl, fun G c2 _ => rfl⟩
  | cons e rest ihr =>
      obtain ⟨k, v⟩ := e
      intro st c c1 st1 hfacts hku h
      rw [applyUpdateEntries_cons] at h
      obtain ⟨⟨cA, stA⟩, hA, hrest⟩ := except_bind_ok h
      rw [List.map_cons, keysUnique_cons, Bool.and_eq_true,
        Bool.not_eq_true'] at hku
      obtain ⟨hkni, hkur⟩ := hku
      have hknotin : ∀ kv ∈ rest, kv.1 ≠ k := by
        intro kv hkv
        exact contains_false_ne hkni kv.1 (List.mem_map_of_mem Prod.fst hkv)
      have hfk := hfacts (k, v) (by simp)
      obtain ⟨hrsA, hrikA, hneA, hselfA⟩ := entry_main hfk.1 hfk.2.1 hfk.2.2 hA
      obtain ⟨hrsR, hrikR, hneR, hselfR⟩ :=
        ihr stA cA c1 st1 (fun kv hkv => hfacts kv (by simp [hkv])) hkur hrest
      refine ⟨hrsR.trans hrsA, hrikR.trans hrikA, ?_, ?_⟩
      · intro k' havoid
        rw [hneR k' (fun kv hkv => havoid kv (by simp [hkv]))]
        exact hneA k' (Ne.symm (havoid (k, v) (by simp)))
      · intro G c2 hGkeys
        have hst1k : getA st1.treeState k = getA stA.treeState k :=
          hneR k hknotin
        have hGA : getA G.treeState k = getA stA.treeState k := by
          rw [hGkeys (k, v) (by simp)]
          exact hst1k
        rw [applyUpdateEntries_cons]
        simp only [bind, Except.bind, hselfA G c2 hGA]
        exact hselfR G c2 (fun kv hkv => hGkeys kv (by simp [hkv]))

theorem rp_chain {f : Nat} {r1 r2 : RenderReq}
    (hrp1 : RP f r1) (hrp2 : RP f r2) {st s1 st2 : RState} {h1 h2 : String}
    (hrun1 : renderStep f r1 st = .ok (h1, s1))
    (hrun2 : renderStep f r2 s1 = .ok (h2, st2)) :
    st2.treeState = st.treeState ∧
    ∀ G, G.treeState = st.treeState →
      ∃ G1 G2, renderStep f r1 G = .ok (h1, G1) ∧
        renderStep f r2 G1 = .ok (h2, G2) ∧ G2.treeState = G.treeState := by
  obtain ⟨ht1, hg1⟩ := hrp1 st h1 s1 hrun1
  obtain ⟨ht2, hg2⟩ := hrp2 s1 h2 st2 hrun2
  refine ⟨ht2.trans ht1, ?_⟩
  intro G hG
  obtain ⟨G1, hG1run, hG1t⟩ := hg1 G hG
  obtain ⟨G2, hG2run, hG2t⟩ := hg2 G1 (hG1t.trans (hG.trans ht1.symm))
  exact ⟨G1, G2, hG1run, hG2run, hG2t.trans hG1t⟩

theorem recordRangeVisit_treeState (st : RState) (fs : List (String × Val))
    (ds ss : List Val) (key : String) :
    (recordRangeVisit st fs ds ss key).treeState = st.treeState := by
  unfold recordRangeVisit
  split
  · cases metaIdKey fs <;> rfl
  · rfl

theorem mem_of_getElem? {α : Type} {xs : List α} {i : Nat} {v : α}
    (h : xs[i]? = some v) : v ∈ xs := by
  induction xs generalizing i with
  | nil => cases h
  | cons x r ih =>
      cases i with
      | zero =>
          simp only [List.getElem?_cons_zero, Option.some.injEq] at h
          subst h
          exact List.mem_cons_self x r
      | succ j =>
          simp only [List.getElem?_cons_succ] at h
          exact List.mem_cons_of_mem x (ih h)

theorem propGet_opsFree {item : Val} {key : String} {v : Val}
    (hof : opsFree item = true)
    (h : propGet item key = .ok (some v)) : opsFree v = true := by
  cases item with
  | vobj fs =>
      simp only [propGet, Except.ok.injEq] at h
      exact allOpsFreeF_getA hof h
  | varr xs =>
      simp only [propGet] at h
      cases hc : canonIndex key with
      | some i =>
          simp only [hc, Except.ok.injEq] at h
          have hmem := mem_of_getElem? h
          rw [show opsFree (varr xs) =
            (!isDiffOps (varr xs) && opsFree.allOpsFree xs) from rfl,
            Bool.and_eq_true] at hof
          exact allOpsFree_mem hof.2 v hmem
      | none =>
          simp only [hc] at h
          exact absurd h (by simp)
  | vstr s =>
      simp only [propGet] at h
      cases hc : canonIndex key with
      | some i =>
          simp only [hc] at h
          split at h
          · next ch hg =>
              injection h with h2
              injection h2 with h3
              rw [← h3]
              rfl
          · cases h
      | none =>
          simp only [hc] at h
          exact absurd h (by simp)
  | vnull => cases h
  | vbool b => cases h
  | vnum n => cases h

theorem opsFree_arr_all {xs : List Val} (h : opsFree (varr xs) = true) :
    opsFree.allOpsFree xs = true := by
  rw [show opsFree (varr xs) =
    (!isDiffOps (varr xs) && opsFree.allOpsFree xs) from rfl,
    Bool.and_eq_true] at h
  exact h.2

theorem opsFree_getD {fs : List (String × Val)} {k : String}
    (h : opsFree.allOpsFreeF fs = true) :
    opsFree ((getA fs k).getD vnull) = true := by
  cases hga : getA fs k with
  | none => rfl
  | some v =>
      simp only [Option.getD]
      exact allOpsFreeF_getA h hga

/-- Render purity: a render request whose values are free of
differential-operations arrays never changes the tree state, and its html
output depends only on the tree state, not on the range bookkeeping. -/
theorem renderPure : ∀ (f : Nat) (req : RenderReq),
    reqOpsFree req = true → RP f req := by
  intro f
  induction f with
  | zero =>
      intro req _ st h st' hrun
      rw [show renderStep 0 req st = .error .fuelOut from rfl] at hrun
      exact absurd hrun (by simp)
  | succ f ihf =>
    have shapeA : ∀ (req : RenderReq) (H : String),
        (∀ S : RState, renderStep (f + 1) req S = .ok (H, S)) →
        RP (f + 1) req := by
      intro req H hall st h st' hrun
      rw [hall st] at hrun
      simp only [Except.ok.injEq, Prod.mk.injEq] at hrun
      obtain ⟨hH, hst⟩ := hrun
      subst hH; subst hst
      exact ⟨rfl, fun G _ => ⟨G, hall G, rfl⟩⟩
    have shapeB0 : ∀ (req sub : RenderReq), reqOpsFree sub = true →
        (∀ S, renderStep (f + 1) req S = renderStep f sub S) →
        RP (f + 1) req := by
      intro req sub hsub hred st h st' hrun
      rw [hred st] at hrun
      obtain ⟨ht, hg⟩ := ihf sub hsub st h st' hrun
      refine ⟨ht, fun G hG => ?_⟩
      obtain ⟨G2, hrG, hGt⟩ := hg G hG
      exact ⟨G2, (hred G).trans hrG, hGt⟩
    have shapeBpre : ∀ (req sub : RenderReq) (pref : RState → RState),
        reqOpsFree sub = true →
        (∀ S, (pref S).treeState = S.treeState) →
        (∀ S, renderStep (f + 1) req S = renderStep f sub (pref S)) →
        RP (f + 1) req := by
      intro req sub pref hsub hpt hred st h st' hrun
      rw [hred st] at hrun
      obtain ⟨ht, hg⟩ := ihf sub hsub (pref st) h st' hrun
      refine ⟨ht.trans (hpt st), fun G hG => ?_⟩
      obtain ⟨G2, hrG, hGt⟩ := hg (pref G) ((hpt G).trans (hG.trans (hpt st).symm))
      exact ⟨G2, (hred G).trans hrG, hGt.trans (hpt G)⟩
    have shapeBp : ∀ (req sub : RenderReq) (post : String → String),
        reqOpsFree sub = true →
        (∀ S, renderStep (f + 1) req S =
          (renderStep f sub S).map (fun r => (post r.1, r.2))) →
        RP (f + 1) req := by
      intro req sub post hsub hred st h st' hrun
      rw [hred st] at hrun
      cases hr : renderStep f sub st with
      | error e =>
          rw [hr] at hrun
          exact absurd hrun (by simp [Except.map])
      | ok r =>
          rw [hr] at hrun
          simp only [Except.map, Except.ok.injEq, Prod.mk.injEq] at hrun
          obtain ⟨hH, hst⟩ := hrun
          obtain ⟨ht, hg⟩ := ihf sub hsub st r.1 r.2 hr
          refine ⟨by rw [← hst]; exact ht, fun G hG => ?_⟩
          obtain ⟨G2, hrG, hGt⟩ := hg G hG
          refine ⟨G2, ?_, hGt⟩
          rw [hred G, hrG]
          simp only [Except.map]
          rw [hH]
    have shapeC : ∀ (req r1 r2 : RenderReq) (pre : String),
        reqOpsFree r1 = true → reqOpsFree r2 = true →
        (∀ S, renderStep (f + 1) req S =
          (renderStep f r1 S).bind (fun a =>
            (renderStep f r2 a.2).bind (fun b =>
              pure (pre ++ a.1 ++ b.1, b.2)))) →
        RP (f + 1) req := by
      intro req r1 r2 pre hr1o hr2o hred st h st' hrun
      rw [hred st] at hrun
      obtain ⟨a, hra, hrest⟩ := except_bind_ok hrun
      obtain ⟨b, hrb, hfin⟩ := except_bind_ok hrest
      simp only [pure, Except.pure, Except.ok.injEq, Prod.mk.injEq] at hfin
      obtain ⟨hH, hst⟩ := hfin
      obtain ⟨htc, hgc⟩ := rp_chain (ihf r1 hr1o) (ihf r2 hr2o) hra hrb
      refine ⟨by rw [← hst]; exact htc, fun G hG => ?_⟩
      obtain ⟨G1, G2, hG1, hG2, hGt⟩ := hgc G hG
      refine ⟨G2, ?_, hGt⟩
      rw [hred G, hG1]
      simp only [bind, Except.bind, hG2, pure, Except.pure]
      rw [hH]
    have shapeC0 : ∀ (req r1 r2 : RenderReq),
        reqOpsFree r1 = true → reqOpsFree r2 = true →
        (∀ S, renderStep (f + 1) req S =
          (renderStep f r1 S).bind (fun a =>
            (renderStep f r2 a.2).bind (fun b =>
              pure (a.1 ++ b.1, b.2)))) →
        RP (f + 1) req := by
      intro req r1 r2 hr1o hr2o hred st h st' hrun
      rw [hred st] at hrun
      obtain ⟨a, hra, hrest⟩ := except_bind_ok hrun
      obtain ⟨b, hrb, hfin⟩ := except_bind_ok hrest
      simp only [pure, Except.pure, Except.ok.injEq, Prod.mk.injEq] at hfin
      obtain ⟨hH, hst⟩ := hfin
      obtain ⟨htc, hgc⟩ := rp_chain (ihf r1 hr1o) (ihf r2 hr2o) hra hrb
      refine ⟨by rw [← hst]; exact htc, fun G hG => ?_⟩
      obtain ⟨G1, G2, hG1, hG2, hGt⟩ := hgc G hG
      refine ⟨G2, ?_, hGt⟩
      rw [hred G, hG1]
      simp only [bind, Except.bind, hG2, pure, Except.pure]
      rw [hH]
    intro req hofr
    cases req with
    | diffOps operations sp => exact absurd hofr (by simp [reqOpsFree])
    | value value fk sp =>
        cases value with
        | vnull => exact shapeA _ "" (fun S => rfl)
        | vbool b => exact shapeA _ (jsToString (vbool b)) (fun S => rfl)
        | vnum n => exact shapeA _ (jsToString (vnum n)) (fun S => rfl)
        | vstr s =>
            by_cases hplc : (strStartsWith s "\x7b\x7b" && strEndsWith s "\x7d\x7d") = true
            · exact shapeA _ "" (fun S => by
                simp only [renderStep, hplc, if_true])
            · have hplc2 : (strStartsWith s "\x7b\x7b" && strEndsWith s "\x7d\x7d") = false := by
                revert hplc
                cases strStartsWith s "\x7b\x7b" && strEndsWith s "\x7d\x7d" <;> simp
              exact shapeA _ s (fun S => by
                simp only [renderStep, hplc2, Bool.false_eq_true, if_false])
        | varr xs =>
            have hdo : isDiffOps (varr xs) = false := opsFree_not_diffOps hofr
            exact shapeB0 _ (.arrayItems xs 0 sp) (opsFree_arr_all hofr)
              (fun S => by simp only [renderStep, hdo, Bool.false_eq_true, if_false])
        | vobj fs =>
        cases hdv : getA fs "d" with
        | none =>
            cases hsv : getA fs "s" with
            | none =>
                by_cases hnk : (List.filter isNumericKeyStr (fs.map Prod.fst)) ≠ [] ∧
                    (List.filter isNumericKeyStr (fs.map Prod.fst)).length =
                      (fs.map Prod.fst).length
                · exact shapeB0 _ (.numericKeys
                      (sortNumericKeys (List.filter isNumericKeyStr (fs.map Prod.fst)))
                      fs sp) hofr
                    (fun S => by simp only [renderStep, hdv, hsv, if_pos hnk])
                · exact shapeA _ "" (fun S => by
                    simp only [renderStep, hdv, hsv, if_neg hnk])
            | some sv0 =>
                cases sv0 with
                | vnull =>
                    by_cases hnk : (List.filter isNumericKeyStr (fs.map Prod.fst)) ≠ [] ∧
                        (List.filter isNumericKeyStr (fs.map Prod.fst)).length =
                          (fs.map Prod.fst).length
                    · exact shapeB0 _ (.numericKeys
                          (sortNumericKeys (List.filter isNumericKeyStr (fs.map Prod.fst)))
                          fs sp) hofr
                        (fun S => by simp only [renderStep, hdv, hsv, if_pos hnk])
                    · exact shapeA _ "" (fun S => by
                        simp only [renderStep, hdv, hsv, if_neg hnk])
                | vbool b3 =>
                    by_cases hnk : (List.filter isNumericKeyStr (fs.map Prod.fst)) ≠ [] ∧
                        (List.filter isNumericKeyStr (fs.map Prod.fst)).length =
                          (fs.map Prod.fst).length
                    · exact shapeB0 _ (.numericKeys
                          (sortNumericKeys (List.filter isNumericKeyStr (fs.map Prod.fst)))
                          fs sp) hofr
                        (fun S => by simp only [renderStep, hdv, hsv, if_pos hnk])
                    · exact shapeA _ "" (fun S => by
                        simp only [renderStep, hdv, hsv, if_neg hnk])
                | vnum n3 =>
                    by_cases hnk : (List.filter isNumericKeyStr (fs.map Prod.fst)) ≠ [] ∧
                        (List.filter isNumericKeyStr (fs.map Prod.fst)).length =
                          (fs.map Prod.fst).length
                    · exact shapeB0 _ (.numericKeys
                          (sortNumericKeys (List.filter isNumericKeyStr (fs.map Prod.fst)))
                          fs sp) hofr
                        (fun S => by simp only [renderStep, hdv, hsv, if_pos hnk])
                    · exact shapeA _ "" (fun S => by
                        simp only [renderStep, hdv, hsv, if_neg hnk])
                | vstr s3 =>
                    by_cases hnk : (List.filter isNumericKeyStr (fs.map Prod.fst)) ≠ [] ∧
                        (List.filter isNumericKeyStr (fs.map Prod.fst)).length =
                          (fs.map Prod.fst).length
                    · exact shapeB0 _ (.numericKeys
                          (sortNumericKeys (List.filter isNumericKeyStr (fs.map Prod.fst)))
                          fs sp) hofr
                        (fun S => by simp only [renderStep, hdv, hsv, if_pos hnk])
                    · exact shapeA _ "" (fun S => by
                        simp only [renderStep, hdv, hsv, if_neg hnk])
                | vobj sfs =>
                    by_cases hnk : (List.filter isNumericKeyStr (fs.map Prod.fst)) ≠ [] ∧
                        (List.filter isNumericKeyStr (fs.map Prod.fst)).length =
                          (fs.map Prod.fst).length
                    · exact shapeB0 _ (.numericKeys
                          (sortNumericKeys (List.filter isNumericKeyStr (fs.map Prod.fst)))
                          fs sp) hofr
                        (fun S => by simp only [renderStep, hdv, hsv, if_pos hnk])
                    · exact shapeA _ "" (fun S => by
                        simp only [renderStep, hdv, hsv, if_neg hnk])
                | varr ss =>
                    exact shapeB0 _ (.fromTree (vobj fs) (sp.getD "")) hofr
                      (fun S => by simp only [renderStep, hdv, hsv])
        | some dv0 =>
            cases dv0 with
            | vnull =>
                cases hsv : getA fs "s" with
                | none =>
                    by_cases hnk : (List.filter isNumericKeyStr (fs.map Prod.fst)) ≠ [] ∧
                        (List.filter isNumericKeyStr (fs.map Prod.fst)).length =
                          (fs.map Prod.fst).length
                    · exact shapeB0 _ (.numericKeys
                          (sortNumericKeys (List.filter isNumericKeyStr (fs.map Prod.fst)))
                          fs sp) hofr
                        (fun S => by simp only [renderStep, hdv, hsv, if_pos hnk])
                    · exact shapeA _ "" (fun S => by
                        simp only [renderStep, hdv, hsv, if_neg hnk])
                | some sv0 =>
                    cases sv0 with
                    | vnull =>
                        by_cases hnk : (List.filter isNumericKeyStr (fs.map Prod.fst)) ≠ [] ∧
                            (List.filter isNumericKeyStr (fs.map Prod.fst)).length =
                              (fs.map Prod.fst).length
                        · exact shapeB0 _ (.numericKeys
                              (sortNumericKeys (List.filter isNumericKeyStr (fs.map Prod.fst)))
                              fs sp) hofr
                            (fun S => by simp only [renderStep, hdv, hsv, if_pos hnk])
                        · exact shapeA _ "" (fun S => by
                            simp only [renderStep, hdv, hsv, if_neg hnk])
                    | vbool b3 =>
                        by_cases hnk : (List.filter isNumericKeyStr (fs.map Prod.fst)) ≠ [] ∧
                            (List.filter isNumericKeyStr (fs.map Prod.fst)).length =
                              (fs.map Prod.fst).length
                        · exact shapeB0 _ (.numericKeys
                              (sortNumericKeys (List.filter isNumericKeyStr (fs.map Prod.fst)))
                              fs sp) hofr
                            (fun S => by simp only [renderStep, hdv, hsv, if_pos hnk])
                        · exact shapeA _ "" (fun S => by
                            simp only [renderStep, hdv, hsv, if_neg hnk])
                    | vnum n3 =>
                        by_cases hnk : (List.filter isNumericKeyStr (fs.map Prod.fst)) ≠ [] ∧
                            (List.filter isNumericKeyStr (fs.map Prod.fst)).length =
                              (fs.map Prod.fst).length
                        · exact shapeB0 _ (.numericKeys
                              (sortNumericKeys (List.filter isNumericKeyStr (fs.map Prod.fst)))
                              fs sp) hofr
                            (fun S => by simp only [renderStep, hdv, hsv, if_pos hnk])
                        · exact shapeA _ "" (fun S => by
                            simp only [renderStep, hdv, hsv, if_neg hnk])
                    | vstr s3 =>
                        by_cases hnk : (List.filter isNumericKeyStr (fs.map Prod.fst)) ≠ [] ∧
                            (List.filter isNumericKeyStr (fs.map Prod.fst)).length =
                              (fs.map Prod.fst).length
                        · exact shapeB0 _ (.numericKeys
                              (sortNumericKeys (List.filter isNumericKeyStr (fs.map Prod.fst)))
                              fs sp) hofr
                            (fun S => by simp only [renderStep, hdv, hsv, if_pos hnk])
                        · exact shapeA _ "" (fun S => by
                            simp only [renderStep, hdv, hsv, if_neg hnk])
                    | vobj sfs =>
                        by_cases hnk : (List.filter isNumericKeyStr (fs.map Prod.fst)) ≠ [] ∧
                            (List.filter isNumericKeyStr (fs.map Prod.fst)).length =
                              (fs.map Prod.fst).length
                        · exact shapeB0 _ (.numericKeys
                              (sortNumericKeys (List.filter isNumericKeyStr (fs.map Prod.fst)))
                              fs sp) hofr
                            (fun S => by simp only [renderStep, hdv, hsv, if_pos hnk])
                        · exact shapeA _ "" (fun S => by
                            simp only [renderStep, hdv, hsv, if_neg hnk])
                    | varr ss =>
                        exact shapeB0 _ (.fromTree (vobj fs) (sp.getD "")) hofr
                          (fun S => by simp only [renderStep, hdv, hsv])
            | vbool b2 =>
                cases hsv : getA fs "s" with
                | none =>
                    by_cases hnk : (List.filter isNumericKeyStr (fs.map Prod.fst)) ≠ [] ∧
                        (List.filter isNumericKeyStr (fs.map Prod.fst)).length =
                          (fs.map Prod.fst).length
                    · exact shapeB0 _ (.numericKeys
                          (sortNumericKeys (List.filter isNumericKeyStr (fs.map Prod.fst)))
                          fs sp) hofr
                        (fun S => by simp only [renderStep, hdv, hsv, if_pos hnk])
                    · exact shapeA _ "" (fun S => by
                        simp only [renderStep, hdv, hsv, if_neg hnk])
                | some sv0 =>
                    cases sv0 with
                    | vnull =>
                        by_cases hnk : (List.filter isNumericKeyStr (fs.map Prod.fst)) ≠ [] ∧
                            (List.filter isNumericKeyStr (fs.map Prod.fst)).length =
                              (fs.map Prod.fst).length
                        · exact shapeB0 _ (.numericKeys
                              (sortNumericKeys (List.filter isNumericKeyStr (fs.map Prod.fst)))
                              fs sp) hofr
                            (fun S => by simp only [renderStep, hdv, hsv, if_pos hnk])
                        · exact shapeA _ "" (fun S => by
                            simp only [renderStep, hdv, hsv, if_neg hnk])
                    | vbool b3 =>
                        by_cases hnk : (List.filter isNumericKeyStr (fs.map Prod.fst)) ≠ [] ∧
                            (List.filter isNumericKeyStr (fs.map Prod.fst)).length =
                              (fs.map Prod.fst).length
                        · exact shapeB0 _ (.numericKeys
                              (sortNumericKeys (List.filter isNumericKeyStr (fs.map Prod.fst)))
                              fs sp) hofr
                            (fun S => by simp only [renderStep, hdv, hsv, if_pos hnk])
                        · exact shapeA _ "" (fun S => by
                            simp only [renderStep, hdv, hsv, if_neg hnk])
                    | vnum n3 =>
                        by_cases hnk : (List.filter isNumericKeyStr (fs.map Prod.fst)) ≠ [] ∧
                            (List.filter isNumericKeyStr (fs.map Prod.fst)).length =
                              (fs.map Prod.fst).length
                        · exact shapeB0 _ (.numericKeys
                              (sortNumericKeys (List.filter isNumericKeyStr (fs.map Prod.fst)))
                              fs sp) hofr
                            (fun S => by simp only [renderStep, hdv, hsv, if_pos hnk])
                        · exact shapeA _ "" (fun S => by
                            simp only [renderStep, hdv, hsv, if_neg hnk])
                    | vstr s3 =>
                        by_cases hnk : (List.filter isNumericKeyStr (fs.map Prod.fst)) ≠ [] ∧
                            (List.filter isNumericKeyStr (fs.map Prod.fst)).length =
                              (fs.map Prod.fst).length
                        · exact shapeB0 _ (.numericKeys
                              (sortNumericKeys (List.filter isNumericKeyStr (fs.map Prod.fst)))
                              fs sp) hofr
                            (fun S => by simp only [renderStep, hdv, hsv, if_pos hnk])
                        · exact shapeA _ "" (fun S => by
                            simp only [renderStep, hdv, hsv, if_neg hnk])
                    | vobj sfs =>
                        by_cases hnk : (List.filter isNumericKeyStr (fs.map Prod.fst)) ≠ [] ∧
                            (List.filter isNumericKeyStr (fs.map Prod.fst)).length =
                              (fs.map Prod.fst).length
                        · exact shapeB0 _ (.numericKeys
                              (sortNumericKeys (List.filter isNumericKeyStr (fs.map Prod.fst)))
                              fs sp) hofr
                            (fun S => by simp only [renderStep, hdv, hsv, if_pos hnk])
                        · exact shapeA _ "" (fun S => by
                            simp only [renderStep, hdv, hsv, if_neg hnk])
                    | varr ss =>
                        exact shapeB0 _ (.fromTree (vobj fs) (sp.getD "")) hofr
                          (fun S => by simp only [renderStep, hdv, hsv])
            | vnum n2 =>
                cases hsv : getA fs "s" with
                | none =>
                    by_cases hnk : (List.filter isNumericKeyStr (fs.map Prod.fst)) ≠ [] ∧
                        (List.filter isNumericKeyStr (fs.map Prod.fst)).length =
                          (fs.map Prod.fst).length
                    · exact shapeB0 _ (.numericKeys
                          (sortNumericKeys (List.filter isNumericKeyStr (fs.map Prod.fst)))
                          fs sp) hofr
                        (fun S => by simp only [renderStep, hdv, hsv, if_pos hnk])
                    · exact shapeA _ "" (fun S => by
                        simp only [renderStep, hdv, hsv, if_neg hnk])
                | some sv0 =>
                    cases sv0 with
                    | vnull =>
                        by_cases hnk : (List.filter isNumericKeyStr (fs.map Prod.fst)) ≠ [] ∧
                            (List.filter isNumericKeyStr (fs.map Prod.fst)).length =
                              (fs.map Prod.fst).length
                        · exact shapeB0 _ (.numericKeys
                              (sortNumericKeys (List.filter isNumericKeyStr (fs.map Prod.fst)))
                              fs sp) hofr
                            (fun S => by simp only [renderStep, hdv, hsv, if_pos hnk])
                        · exact shapeA _ "" (fun S => by
                            simp only [renderStep, hdv, hsv, if_neg hnk])
                    | vbool b3 =>
                        by_cases hnk : (List.filter isNumericKeyStr (fs.map Prod.fst)) ≠ [] ∧
                            (List.filter isNumericKeyStr (fs.map Prod.fst)).length =
                              (fs.map Prod.fst).length
                        · exact shapeB0 _ (.numericKeys
                              (sortNumericKeys (List.filter isNumericKeyStr (fs.map Prod.fst)))
                              fs sp) hofr
                            (fun S => by simp only [renderStep, hdv, hsv, if_pos hnk])
                        · exact shapeA _ "" (fun S => by
                            simp only [renderStep, hdv, hsv, if_neg hnk])
                    | vnum n3 =>
                        by_cases hnk : (List.filter isNumericKeyStr (fs.map Prod.fst)) ≠ [] ∧
                            (List.filter isNumericKeyStr (fs.map Prod.fst)).length =
                              (fs.map Prod.fst).length
                        · exact shapeB0 _ (.numericKeys
                              (sortNumericKeys (List.filter isNumericKeyStr (fs.map Prod.fst)))
                              fs sp) hofr
                            (fun S => by simp only [renderStep, hdv, hsv, if_pos hnk])
                        · exact shapeA _ "" (fun S => by
                            simp only [renderStep, hdv, hsv, if_neg hnk])
                    | vstr s3 =>
                        by_cases hnk : (List.filter isNumericKeyStr (fs.map Prod.fst)) ≠ [] ∧
                            (List.filter isNumericKeyStr (fs.map Prod.fst)).length =
                              (fs.map Prod.fst).length
                        · exact shapeB0 _ (.numericKeys
                              (sortNumericKeys (List.filter isNumericKeyStr (fs.map Prod.fst)))
                              fs sp) hofr
                            (fun S => by simp only [renderStep, hdv, hsv, if_pos hnk])
                        · exact shapeA _ "" (fun S => by
                            simp only [renderStep, hdv, hsv, if_neg hnk])
                    | vobj sfs =>
                        by_cases hnk : (List.filter isNumericKeyStr (fs.map Prod.fst)) ≠ [] ∧
                            (List.filter isNumericKeyStr (fs.map Prod.fst)).length =
                              (fs.map Prod.fst).length
                        · exact shapeB0 _ (.numericKeys
                              (sortNumericKeys (List.filter isNumericKeyStr (fs.map Prod.fst)))
                              fs sp) hofr
                            (fun S => by simp only [renderStep, hdv, hsv, if_pos hnk])
                        · exact shapeA _ "" (fun S => by
                            simp only [renderStep, hdv, hsv, if_neg hnk])
                    | varr ss =>
                        exact shapeB0 _ (.fromTree (vobj fs) (sp.getD "")) hofr
                          (fun S => by simp only [renderStep, hdv, hsv])
            | vstr s2 =>
                cases hsv : getA fs "s" with
                | none =>
                    by_cases hnk : (List.filter isNumericKeyStr (fs.map Prod.fst)) ≠ [] ∧
                        (List.filter isNumericKeyStr (fs.map Prod.fst)).length =
                          (fs.map Prod.fst).length
                    · exact shapeB0 _ (.numericKeys
                          (sortNumericKeys (List.filter isNumericKeyStr (fs.map Prod.fst)))
                          fs sp) hofr
                        (fun S => by simp only [renderStep, hdv, hsv, if_pos hnk])
                    · exact shapeA _ "" (fun S => by
                        simp only [renderStep, hdv, hsv, if_neg hnk])
                | some sv0 =>
                    cases sv0 with
                    | vnull =>
                        by_cases hnk : (List.filter isNumericKeyStr (fs.map Prod.fst)) ≠ [] ∧
                            (List.filter isNumericKeyStr (fs.map Prod.fst)).length =
                              (fs.map Prod.fst).length
                        · exact shapeB0 _ (.numericKeys
                              (sortNumericKeys (List.filter isNumericKeyStr (fs.map Prod.fst)))
                              fs sp) hofr
                            (fun S => by simp only [renderStep, hdv, hsv, if_pos hnk])
                        · exact shapeA _ "" (fun S => by
                            simp only [renderStep, hdv, hsv, if_neg hnk])
                    | vbool b3 =>
                        by_cases hnk : (List.filter isNumericKeyStr (fs.map Prod.fst)) ≠ [] ∧
                            (List.filter isNumericKeyStr (fs.map Prod.fst)).length =
                              (fs.map Prod.fst).length
                        · exact shapeB0 _ (.numericKeys
                              (sortNumericKeys (List.filter isNumericKeyStr (fs.map Prod.fst)))
                              fs sp) hofr
                            (fun S => by simp only [renderStep, hdv, hsv, if_pos hnk])
                        · exact shapeA _ "" (fun S => by
                            simp only [renderStep, hdv, hsv, if_neg hnk])
                    | vnum n3 =>
                        by_cases hnk : (List.filter isNumericKeyStr (fs.map Prod.fst)) ≠ [] ∧
                            (List.filter isNumericKeyStr (fs.map Prod.fst)).length =
                              (fs.map Prod.fst).length
                        · exact shapeB0 _ (.numericKeys
                              (sortNumericKeys (List.filter isNumericKeyStr (fs.map Prod.fst)))
                              fs sp) hofr
                            (fun S => by simp only [renderStep, hdv, hsv, if_pos hnk])
                        · exact shapeA _ "" (fun S => by
                            simp only [renderStep, hdv, hsv, if_neg hnk])
                    | vstr s3 =>
                        by_cases hnk : (List.filter isNumericKeyStr (fs.map Prod.fst)) ≠ [] ∧
                            (List.filter isNumericKeyStr (fs.map Prod.fst)).length =
                              (fs.map Prod.fst).length
                        · exact shapeB0 _ (.numericKeys
                              (sortNumericKeys (List.filter isNumericKeyStr (fs.map Prod.fst)))
                              fs sp) hofr
                            (fun S => by simp only [renderStep, hdv, hsv, if_pos hnk])
                        · exact shapeA _ "" (fun S => by
                            simp only [renderStep, hdv, hsv, if_neg hnk])
                    | vobj sfs =>
                        by_cases hnk : (List.filter isNumericKeyStr (fs.map Prod.fst)) ≠ [] ∧
                            (List.filter isNumericKeyStr (fs.map Prod.fst)).length =
                              (fs.map Prod.fst).length
                        · exact shapeB0 _ (.numericKeys
                              (sortNumericKeys (List.filter isNumericKeyStr (fs.map Prod.fst)))
                              fs sp) hofr
                            (fun S => by simp only [renderStep, hdv, hsv, if_pos hnk])
                        · exact shapeA _ "" (fun S => by
                            simp only [renderStep, hdv, hsv, if_neg hnk])
                    | varr ss =>
                        exact shapeB0 _ (.fromTree (vobj fs) (sp.getD "")) hofr
                          (fun S => by simp only [renderStep, hdv, hsv])
            | vobj dfs =>
                cases hsv : getA fs "s" with
                | none =>
                    by_cases hnk : (List.filter isNumericKeyStr (fs.map Prod.fst)) ≠ [] ∧
                        (List.filter isNumericKeyStr (fs.map Prod.fst)).length =
                          (fs.map Prod.fst).length
                    · exact shapeB0 _ (.numericKeys
                          (sortNumericKeys (List.filter isNumericKeyStr (fs.map Prod.fst)))
                          fs sp) hofr
                        (fun S => by simp only [renderStep, hdv, hsv, if_pos hnk])
                    · exact shapeA _ "" (fun S => by
                        simp only [renderStep, hdv, hsv, if_neg hnk])
                | some sv0 =>
                    cases sv0 with
                    | vnull =>
                        by_cases hnk : (List.filter isNumericKeyStr (fs.map Prod.fst)) ≠ [] ∧
                            (List.filter isNumericKeyStr (fs.map Prod.fst)).length =
                              (fs.map Prod.fst).length
                        · exact shapeB0 _ (.numericKeys
                              (sortNumericKeys (List.filter isNumericKeyStr (fs.map Prod.fst)))
                              fs sp) hofr
                            (fun S => by simp only [renderStep, hdv, hsv, if_pos hnk])
                        · exact shapeA _ "" (fun S => by
                            simp only [renderStep, hdv, hsv, if_neg hnk])
                    | vbool b3 =>
                        by_cases hnk : (List.filter isNumericKeyStr (fs.map Prod.fst)) ≠ [] ∧
                            (List.filter isNumericKeyStr (fs.map Prod.fst)).length =
                              (fs.map Prod.fst).length
                        · exact shapeB0 _ (.numericKeys
                              (sortNumericKeys (List.filter isNumericKeyStr (fs.map Prod.fst)))
                              fs sp) hofr
                            (fun S => by simp only [renderStep, hdv, hsv, if_pos hnk])
                        · exact shapeA _ "" (fun S => by
                            simp only [renderStep, hdv, hsv, if_neg hnk])
                    | vnum n3 =>
                        by_cases hnk : (List.filter isNumericKeyStr (fs.map Prod.fst)) ≠ [] ∧
                            (List.filter isNumericKeyStr (fs.map Prod.fst)).length =
                              (fs.map Prod.fst).length
                        · exact shapeB0 _ (.numericKeys
                              (sortNumericKeys (List.filter isNumericKeyStr (fs.map Prod.fst)))
                              fs sp) hofr
                            (fun S => by simp only [renderStep, hdv, hsv, if_pos hnk])
                        · exact shapeA _ "" (fun S => by
                            simp only [renderStep, hdv, hsv, if_neg hnk])
                    | vstr s3 =>
                        by_cases hnk : (List.filter isNumericKeyStr (fs.map Prod.fst)) ≠ [] ∧
                            (List.filter isNumericKeyStr (fs.map Prod.fst)).length =
                              (fs.map Prod.fst).length
                        · exact shapeB0 _ (.numericKeys
                              (sortNumericKeys (List.filter isNumericKeyStr (fs.map Prod.fst)))
                              fs sp) hofr
                            (fun S => by simp only [renderStep, hdv, hsv, if_pos hnk])
                        · exact shapeA _ "" (fun S => by
                            simp only [renderStep, hdv, hsv, if_neg hnk])
                    | vobj sfs =>
                        by_cases hnk : (List.filter isNumericKeyStr (fs.map Prod.fst)) ≠ [] ∧
                            (List.filter isNumericKeyStr (fs.map Prod.fst)).length =
                              (fs.map Prod.fst).length
                        · exact shapeB0 _ (.numericKeys
                              (sortNumericKeys (List.filter isNumericKeyStr (fs.map Prod.fst)))
                              fs sp) hofr
                            (fun S => by simp only [renderStep, hdv, hsv, if_pos hnk])
                        · exact shapeA _ "" (fun S => by
                            simp only [renderStep, hdv, hsv, if_neg hnk])
                    | varr ss =>
                        exact shapeB0 _ (.fromTree (vobj fs) (sp.getD "")) hofr
                          (fun S => by simp only [renderStep, hdv, hsv])
            | varr ds =>
                cases hsv : getA fs "s" with
                | none =>
                    by_cases hnk : (List.filter isNumericKeyStr (fs.map Prod.fst)) ≠ [] ∧
                        (List.filter isNumericKeyStr (fs.map Prod.fst)).length =
                          (fs.map Prod.fst).length
                    · exact shapeB0 _ (.numericKeys
                          (sortNumericKeys (List.filter isNumericKeyStr (fs.map Prod.fst)))
                          fs sp) hofr
                        (fun S => by simp only [renderStep, hdv, hsv, if_pos hnk])
                    · exact shapeA _ "" (fun S => by
                        simp only [renderStep, hdv, hsv, if_neg hnk])
                | some sv0 =>
                    cases sv0 with
                    | vnull =>
                        by_cases hnk : (List.filter isNumericKeyStr (fs.map Prod.fst)) ≠ [] ∧
                            (List.filter isNumericKeyStr (fs.map Prod.fst)).length =
                              (fs.map Prod.fst).length
                        · exact shapeB0 _ (.numericKeys
                              (sortNumericKeys (List.filter isNumericKeyStr (fs.map Prod.fst)))
                              fs sp) hofr
                            (fun S => by simp only [renderStep, hdv, hsv, if_pos hnk])
                        · exact shapeA _ "" (fun S => by
                            simp only [renderStep, hdv, hsv, if_neg hnk])
                    | vbool b3 =>
                        by_cases hnk : (List.filter isNumericKeyStr (fs.map Prod.fst)) ≠ [] ∧
                            (List.filter isNumericKeyStr (fs.map Prod.fst)).length =
                              (fs.map Prod.fst).length
                        · exact shapeB0 _ (.numericKeys
                              (sortNumericKeys (List.filter isNumericKeyStr (fs.map Prod.fst)))
                              fs sp) hofr
                            (fun S => by simp only [renderStep, hdv, hsv, if_pos hnk])
                        · exact shapeA _ "" (fun S => by
                            simp only [renderStep, hdv, hsv, if_neg hnk])
                    | vnum n3 =>
                        by_cases hnk : (List.filter isNumericKeyStr (fs.map Prod.fst)) ≠ [] ∧
                            (List.filter isNumericKeyStr (fs.map Prod.fst)).length =
                              (fs.map Prod.fst).length
                        · exact shapeB0 _ (.numericKeys
                              (sortNumericKeys (List.filter isNumericKeyStr (fs.map Prod.fst)))
                              fs sp) hofr
                            (fun S => by simp only [renderStep, hdv, hsv, if_pos hnk])
                        · exact shapeA _ "" (fun S => by
                            simp only [renderStep, hdv, hsv, if_neg hnk])
                    | vstr s3 =>
                        by_cases hnk : (List.filter isNumericKeyStr (fs.map Prod.fst)) ≠ [] ∧
                            (List.filter isNumericKeyStr (fs.map Prod.fst)).length =
                              (fs.map Prod.fst).length
                        · exact shapeB0 _ (.numericKeys
                              (sortNumericKeys (List.filter isNumericKeyStr (fs.map Prod.fst)))
                              fs sp) hofr
                            (fun S => by simp only [renderStep, hdv, hsv, if_pos hnk])
                        · exact shapeA _ "" (fun S => by
                            simp only [renderStep, hdv, hsv, if_neg hnk])
                    | vobj sfs =>
                        by_cases hnk : (List.filter isNumericKeyStr (fs.map Prod.fst)) ≠ [] ∧
                            (List.filter isNumericKeyStr (fs.map Prod.fst)).length =
                              (fs.map Prod.fst).length
                        · exact shapeB0 _ (.numericKeys
                              (sortNumericKeys (List.filter isNumericKeyStr (fs.map Prod.fst)))
                              fs sp) hofr
                            (fun S => by simp only [renderStep, hdv, hsv, if_pos hnk])
                        · exact shapeA _ "" (fun S => by
                            simp only [renderStep, hdv, hsv, if_neg hnk])
                    | varr ss =>
                        exact shapeBpre _ (.rangeStructure (vobj fs) fk sp)
                          (fun S => recordRangeVisit S fs ds ss (stateKeyOf sp fk)) hofr
                          (fun S => recordRangeVisit_treeState S fs ds ss (stateKeyOf sp fk))
                          (fun S => by simp only [renderStep, hdv, hsv])
    | numericKeys ks fs sp =>
        cases ks with
        | nil => exact shapeA _ "" (fun S => rfl)
        | cons k rest =>
            exact shapeC0 _ (.value ((getA fs k).getD vnull) (some k)
                (some (extendPath sp k)))
              (.numericKeys rest fs sp)
              (opsFree_getD hofr) hofr
              (fun S => by
                simp only [renderStep, bind, Except.bind, pure, Except.pure]
                all_goals
                  cases renderStep f (.value ((getA fs k).getD vnull) (some k) (some (extendPath sp k))) S with
                  | error e => rfl
                  | ok a =>
                      cases renderStep f (.numericKeys rest fs sp) a.2 with
                      | error e => rfl
                      | ok b => rfl)
    | arrayItems xs idx sp =>
        cases xs with
        | nil => exact shapeA _ "" (fun S => rfl)
        | cons item rest =>
            have hofr2 : opsFree.allOpsFree (item :: rest) = true := hofr
            rw [allOpsFree_cons, Bool.and_eq_true] at hofr2
            obtain ⟨hitem, hrest⟩ := hofr2
            cases item with
            | vobj ifs =>
                cases hga : getA ifs "s" with
                | some sv =>
                    by_cases htr : truthy sv = true
                    · exact shapeC0 _ (.fromTree (vobj ifs)
                          (extendPath sp (toString idx)))
                        (.arrayItems rest (idx + 1) sp) hitem hrest
                        (fun S => by
                simp only [renderStep, hga, htr, if_true, bind, Except.bind, pure, Except.pure]
                all_goals
                  cases renderStep f (.fromTree (vobj ifs) (extendPath sp (toString idx))) S with
                  | error e => rfl
                  | ok a =>
                      cases renderStep f (.arrayItems rest (idx + 1) sp) a.2 with
                      | error e => rfl
                      | ok b => rfl)
                    · have htr2 : truthy sv = false := by
                        revert htr
                        cases truthy sv <;> simp
                      exact shapeC0 _ (.value (vobj ifs) (some (toString idx))
                          (some (extendPath sp (toString idx))))
                        (.arrayItems rest (idx + 1) sp) hitem hrest
                        (fun S => by
                simp only [renderStep, hga, htr2, Bool.false_eq_true, if_false, bind, Except.bind, pure, Except.pure]
                all_goals
                  cases renderStep f (.value (vobj ifs) (some (toString idx)) (some (extendPath sp (toString idx)))) S with
                  | error e => rfl
                  | ok a =>
                      cases renderStep f (.arrayItems rest (idx + 1) sp) a.2 with
                      | error e => rfl
                      | ok b => rfl)
                | none =>
                    exact shapeC0 _ (.value (vobj ifs) (some (toString idx))
                        (some (extendPath sp (toString idx))))
                      (.arrayItems rest (idx + 1) sp) hitem hrest
                      (fun S => by
                simp only [renderStep, hga, bind, Except.bind, pure, Except.pure]
                all_goals
                  cases renderStep f (.value (vobj ifs) (some (toString idx)) (some (extendPath sp (toString idx)))) S with
                  | error e => rfl
                  | ok a =>
                      cases renderStep f (.arrayItems rest (idx + 1) sp) a.2 with
                      | error e => rfl
                      | ok b => rfl)
            | vnull =>
                exact shapeC0 _ (.value vnull (some (toString idx))
                    (some (extendPath sp (toString idx))))
                  (.arrayItems rest (idx + 1) sp) hitem hrest
                  (fun S => by
                simp only [renderStep, bind, Except.bind, pure, Except.pure]
                all_goals
                  cases renderStep f (.value (vnull) (some (toString idx)) (some (extendPath sp (toString idx)))) S with
                  | error e => rfl
                  | ok a =>
                      cases renderStep f (.arrayItems rest (idx + 1) sp) a.2 with
                      | error e => rfl
                      | ok b => rfl)
            | vbool b =>
                exact shapeC0 _ (.value (vbool b) (some (toString idx))
                    (some (extendPath sp (toString idx))))
                  (.arrayItems rest (idx + 1) sp) hitem hrest
                  (fun S => by
                simp only [renderStep, bind, Except.bind, pure, Except.pure]
                all_goals
                  cases renderStep f (.value (vbool b) (some (toString idx)) (some (extendPath sp (toString idx)))) S with
                  | error e => rfl
                  | ok a =>
                      cases renderStep f (.arrayItems rest (idx + 1) sp) a.2 with
                      | error e => rfl
                      | ok b => rfl)
            | vnum n =>
                exact shapeC0 _ (.value (vnum n) (some (toString idx))
                    (some (extendPath sp (toString idx))))
                  (.arrayItems rest (idx + 1) sp) hitem hrest
                  (fun S => by
                simp only [renderStep, bind, Except.bind, pure, Except.pure]
                all_goals
                  cases renderStep f (.value (vnum n) (some (toString idx)) (some (extendPath sp (toString idx)))) S with
                  | error e => rfl
                  | ok a =>
                      cases renderStep f (.arrayItems rest (idx + 1) sp) a.2 with
                      | error e => rfl
                      | ok b => rfl)
            | vstr s =>
                exact shapeC0 _ (.value (vstr s) (some (toString idx))
                    (some (extendPath sp (toString idx))))
                  (.arrayItems rest (idx + 1) sp) hitem hrest
                  (fun S => by
                simp only [renderStep, bind, Except.bind, pure, Except.pure]
                all_goals
                  cases renderStep f (.value (vstr s) (some (toString idx)) (some (extendPath sp (toString idx)))) S with
                  | error e => rfl
                  | ok a =>
                      cases renderStep f (.arrayItems rest (idx + 1) sp) a.2 with
                      | error e => rfl
                      | ok b => rfl)
            | varr ys =>
                exact shapeC0 _ (.value (varr ys) (some (toString idx))
                    (some (extendPath sp (toString idx))))
                  (.arrayItems rest (idx + 1) sp) hitem hrest
                  (fun S => by
                simp only [renderStep, bind, Except.bind, pure, Except.pure]
                all_goals
                  cases renderStep f (.value (varr ys) (some (toString idx)) (some (extendPath sp (toString idx)))) S with
                  | error e => rfl
                  | ok a =>
                      cases renderStep f (.arrayItems rest (idx + 1) sp) a.2 with
                      | error e => rfl
                      | ok b => rfl)
    | fromTree node spath =>
        cases node with
        | vnull =>
            intro st h st' hrun
            rw [show renderStep (f + 1) (.fromTree vnull spath) st =
              .error .thrown from rfl] at hrun
            exact absurd hrun (by simp)
        | vobj fs =>
            cases hga : getA fs "s" with
            | some sv =>
                cases sv with
                | varr ss =>
                    exact shapeBp _ (.slots ss 0 fs spath) stripRootTags hofr
                      (fun S => by
                        simp only [renderStep, hga, bind, Except.bind,
                          pure, Except.pure, Except.map]
                        all_goals
                          cases renderStep f (.slots ss 0 fs spath) S with
                          | error e => rfl
                          | ok a => rfl)
                | vnull =>
                    exact shapeB0 _ (.value (vobj fs) (some "") (some spath)) hofr
                      (fun S => by simp only [renderStep, hga])
                | vbool b =>
                    exact shapeB0 _ (.value (vobj fs) (some "") (some spath)) hofr
                      (fun S => by simp only [renderStep, hga])
                | vnum n =>
                    exact shapeB0 _ (.value (vobj fs) (some "") (some spath)) hofr
                      (fun S => by simp only [renderStep, hga])
                | vstr s =>
                    exact shapeB0 _ (.value (vobj fs) (some "") (some spath)) hofr
                      (fun S => by simp only [renderStep, hga])
                | vobj sfs =>
                    exact shapeB0 _ (.value (vobj fs) (some "") (some spath)) hofr
                      (fun S => by simp only [renderStep, hga])
            | none =>
                exact shapeB0 _ (.value (vobj fs) (some "") (some spath)) hofr
                  (fun S => by simp only [renderStep, hga])
        | vbool b =>
            exact shapeB0 _ (.value (vbool b) (some "") (some spath)) hofr
              (fun S => by simp only [renderStep])
        | vnum n =>
            exact shapeB0 _ (.value (vnum n) (some "") (some spath)) hofr
              (fun S => by simp only [renderStep])
        | vstr s =>
            exact shapeB0 _ (.value (vstr s) (some "") (some spath)) hofr
              (fun S => by simp only [renderStep])
        | varr ys =>
            exact shapeB0 _ (.value (varr ys) (some "") (some spath)) hofr
              (fun S => by simp only [renderStep])
    | slots segs i fs spath =>
        cases segs with
        | nil => exact shapeA _ "" (fun S => rfl)
        | cons seg rest =>
            by_cases hre : rest.isEmpty = true
            · exact shapeA _ (jsToString seg) (fun S => by
                simp only [renderStep, hre, if_true])
            · have hre2 : rest.isEmpty = false := by
                revert hre
                cases rest.isEmpty <;> simp
              cases hga : getA fs (toString i) with
              | some v =>
                  exact shapeC _ (.value v (some (toString i))
                      (some (extendPathStr spath (toString i))))
                    (.slots rest (i + 1) fs spath) (jsToString seg)
                    (allOpsFreeF_getA hofr hga) hofr
                    (fun S => by
                simp only [renderStep, hre2, Bool.false_eq_true, if_false, hga, bind, Except.bind, pure, Except.pure]
                all_goals
                  cases renderStep f (.value v (some (toString i)) (some (extendPathStr spath (toString i)))) S with
                  | error e => rfl
                  | ok a =>
                      cases renderStep f (.slots rest (i + 1) fs spath) a.2 with
                      | error e => rfl
                      | ok b => rfl)
              | none =>
                  exact shapeBp _ (.slots rest (i + 1) fs spath)
                    (fun s2 => jsToString seg ++ s2) hofr
                    (fun S => by
                      simp only [renderStep, hre2, Bool.false_eq_true, if_false,
                        hga, bind, Except.bind, pure, Except.pure, Except.map]
                      all_goals
                        cases renderStep f (.slots rest (i + 1) fs spath) S with
                        | error e => rfl
                        | ok a => rfl)
    | rangeStructure rangeNode fk sp =>
        cases rangeNode with
        | vnull => exact shapeA _ "" (fun S => rfl)
        | vbool b => exact shapeA _ "" (fun S => rfl)
        | vnum n => exact shapeA _ "" (fun S => rfl)
        | vstr s => exact shapeA _ "" (fun S => rfl)
        | varr ys => exact shapeA _ "" (fun S => rfl)
        | vobj fs =>
            cases hd : getA fs "d" with
            | none => exact shapeA _ "" (fun S => by simp only [renderStep, hd])
            | some dv =>
                cases dv with
                | vnull => exact shapeA _ "" (fun S => by simp only [renderStep, hd])
                | vbool b => exact shapeA _ "" (fun S => by simp only [renderStep, hd])
                | vnum n => exact shapeA _ "" (fun S => by simp only [renderStep, hd])
                | vstr s => exact shapeA _ "" (fun S => by simp only [renderStep, hd])
                | vobj dfs => exact shapeA _ "" (fun S => by simp only [renderStep, hd])
                | varr ds =>
                    cases ds with
                    | nil =>
                        cases hge : getA fs "else" with
                        | some ev =>
                            by_cases htr : truthy ev = true
                            · exact shapeB0 _ (.value ev (some "else")
                                  (some (extendPath sp "else")))
                                (allOpsFreeF_getA hofr hge)
                                (fun S => by
                                  simp only [renderStep, hd, hge, htr, if_true])
                            · have htr2 : truthy ev = false := by
                                revert htr
                                cases truthy ev <;> simp
                              exact shapeA _ "" (fun S => by
                                simp only [renderStep, hd, hge, htr2,
                                  Bool.false_eq_true, if_false])
                        | none =>
                            exact shapeA _ "" (fun S => by
                              simp only [renderStep, hd, hge])
                    | cons d0 dr =>
                        have hds : opsFree.allOpsFree (d0 :: dr) = true :=
                          opsFree_arr_all (allOpsFreeF_getA hofr hd)
                        cases hgs : getA fs "s" with
                        | some sv =>
                            cases sv with
                            | varr ssv =>
                                refine shapeB0 _ _ ?_ (fun S => by
                                  simp only [renderStep, hd, hgs, truthy,
                                    Bool.and_true, if_true]
                                  rfl)
                                exact hds
                            | vnull =>
                                refine shapeB0 _ _ ?_ (fun S => by
                                  simp only [renderStep, hd, hgs, Bool.and_false,
                                    Bool.false_eq_true, if_false]
                                  rfl)
                                exact hds
                            | vbool b =>
                                refine shapeB0 _ _ ?_ (fun S => by
                                  simp only [renderStep, hd, hgs, Bool.and_false,
                                    Bool.false_eq_true, if_false]
                                  rfl)
                                exact hds
                            | vnum n =>
                                refine shapeB0 _ _ ?_ (fun S => by
                                  simp only [renderStep, hd, hgs, Bool.and_false,
                                    Bool.false_eq_true, if_false]
                                  rfl)
                                exact hds
                            | vstr s =>
                                refine shapeB0 _ _ ?_ (fun S => by
                                  simp only [renderStep, hd, hgs, Bool.and_false,
                                    Bool.false_eq_true, if_false]
                                  rfl)
                                exact hds
                            | vobj sfs =>
                                refine shapeB0 _ _ ?_ (fun S => by
                                  simp only [renderStep, hd, hgs, Bool.and_false,
                                    Bool.false_eq_true, if_false]
                                  rfl)
                                exact hds
                        | none =>
                            exact shapeB0 _ (.rangeFallback (d0 :: dr) 0 sp) hds
                              (fun S => by simp only [renderStep, hd, hgs])
    | rangeItems items idx shared smOpt sp =>
        cases items with
        | nil => exact shapeA _ "" (fun S => rfl)
        | cons item rest =>
            have hofr2 : opsFree.allOpsFree (item :: rest) = true := hofr
            rw [allOpsFree_cons, Bool.and_eq_true] at hofr2
            obtain ⟨hitem, hrest⟩ := hofr2
            cases smOpt with
            | none =>
                exact shapeC0 _ (.itemSlots (staticsAsList (shared)) 0 item idx sp)
                  (.rangeItems rest (idx + 1) shared none sp) hitem hrest
                  (fun S => by
                    simp only [renderStep, bind, Except.bind, pure, Except.pure]
                    all_goals
                      cases renderStep f (.itemSlots (staticsAsList (shared)) 0 item idx sp) S with
                      | error e => rfl
                      | ok a =>
                          cases renderStep f (.rangeItems rest (idx + 1) shared none sp) a.2 with
                          | error e => rfl
                          | ok b => rfl)
            | some sm =>
                cases hpg : propGet item "_sk" with
                | error e =>
                    intro st h st2 hrun
                    simp only [renderStep, hpg, bind, Except.bind] at hrun
                    exact absurd hrun (by simp)
                | ok sk =>
                    cases sk with
                    | none =>
                        exact shapeC0 _ (.itemSlots (staticsAsList (shared)) 0 item idx sp)
                          (.rangeItems rest (idx + 1) shared (some sm) sp) hitem hrest
                          (fun S => by
                            simp only [renderStep, hpg, bind, Except.bind, pure, Except.pure]
                            all_goals
                              cases renderStep f (.itemSlots (staticsAsList (shared)) 0 item idx sp) S with
                              | error e => rfl
                              | ok a =>
                                  cases renderStep f (.rangeItems rest (idx + 1) shared (some sm) sp) a.2 with
                                  | error e => rfl
                                  | ok b => rfl)
                    | some skv =>
                        by_cases htr : truthy skv = true
                        · cases hpe : propGet sm (valToPropKey skv) with
                          | error e =>
                            intro st h st2 hrun
                            simp only [renderStep, hpg, htr, if_true, hpe, bind, Except.bind] at hrun
                            exact absurd hrun (by simp)
                          | ok entry =>
                              cases entry with
                              | none =>
                                exact shapeC0 _ (.itemSlots (staticsAsList (shared)) 0 item idx sp)
                                  (.rangeItems rest (idx + 1) shared (some sm) sp) hitem hrest
                                  (fun S => by
                                    simp only [renderStep, hpg, htr, if_true, hpe, bind, Except.bind, pure, Except.pure]
                                    all_goals
                                      cases renderStep f (.itemSlots (staticsAsList (shared)) 0 item idx sp) S with
                                      | error e => rfl
                                      | ok a =>
                                          cases renderStep f (.rangeItems rest (idx + 1) shared (some sm) sp) a.2 with
                                          | error e => rfl
                                          | ok b => rfl)
                              | some ev =>
                                  by_cases htre : truthy ev = true
                                  · exact shapeC0 _ (.itemSlots (staticsAsList (ev)) 0 item idx sp)
                                      (.rangeItems rest (idx + 1) shared (some sm) sp) hitem hrest
                                      (fun S => by
                                        simp only [renderStep, hpg, htr, if_true, hpe, htre, bind, Except.bind, pure, Except.pure]
                                        all_goals
                                          cases renderStep f (.itemSlots (staticsAsList (ev)) 0 item idx sp) S with
                                          | error e => rfl
                                          | ok a =>
                                              cases renderStep f (.rangeItems rest (idx + 1) shared (some sm) sp) a.2 with
                                              | error e => rfl
                                              | ok b => rfl)
                                  · have htre2 : truthy ev = false := by
                                      revert htre
                                      cases truthy ev <;> simp
                                    exact shapeC0 _ (.itemSlots (staticsAsList (shared)) 0 item idx sp)
                                        (.rangeItems rest (idx + 1) shared (some sm) sp) hitem hrest
                                        (fun S => by
                                          simp only [renderStep, hpg, htr, if_true, hpe, htre2, Bool.false_eq_true, if_false, bind, Except.bind, pure, Except.pure]
                                          all_goals
                                            cases renderStep f (.itemSlots (staticsAsList (shared)) 0 item idx sp) S with
                                            | error e => rfl
                                            | ok a =>
                                                cases renderStep f (.rangeItems rest (idx + 1) shared (some sm) sp) a.2 with
                                                | error e => rfl
                                                | ok b => rfl)
                        · have htr2 : truthy skv = false := by
                            revert htr
                            cases truthy skv <;> simp
                          exact shapeC0 _ (.itemSlots (staticsAsList (shared)) 0 item idx sp)
                              (.rangeItems rest (idx + 1) shared (some sm) sp) hitem hrest
                              (fun S => by
                                simp only [renderStep, hpg, htr2, Bool.false_eq_true, if_false, bind, Except.bind, pure, Except.pure]
                                all_goals
                                  cases renderStep f (.itemSlots (staticsAsList (shared)) 0 item idx sp) S with
                                  | error e => rfl
                                  | ok a =>
                                      cases renderStep f (.rangeItems rest (idx + 1) shared (some sm) sp) a.2 with
                                      | error e => rfl
                                      | ok b => rfl)
    | itemSlots segs i item idx sp =>
        cases segs with
        | nil => exact shapeA _ "" (fun S => rfl)
        | cons seg rest =>
            by_cases hre : rest.isEmpty = true
            · exact shapeA _ (jsToString seg) (fun S => by
                simp only [renderStep, hre, if_true])
            · have hre2 : rest.isEmpty = false := by
                revert hre
                cases rest.isEmpty <;> simp
              cases hpg : propGet item (toString i) with
              | error e =>
                  intro st h st2 hrun
                  simp only [renderStep, hre2, Bool.false_eq_true, if_false,
                    hpg, bind, Except.bind] at hrun
                  exact absurd hrun (by simp)
              | ok slot =>
                  cases slot with
                  | some v =>
                      have hv : opsFree v = true := propGet_opsFree hofr hpg
                      exact shapeC _ (.value v (some (toString i))
                          (some (extendPath sp
                            (toString idx ++ "." ++ toString i))))
                        (.itemSlots rest (i + 1) item idx sp) (jsToString seg)
                        hv hofr
                        (fun S => by
                          simp only [renderStep, hre2, Bool.false_eq_true,
                            if_false, hpg, bind, Except.bind, pure, Except.pure]
                          all_goals
                            cases renderStep f (.value v (some (toString i))
                                (some (extendPath sp
                                  (toString idx ++ "." ++ toString i)))) S with
                            | error e => rfl
                            | ok a =>
                                cases renderStep f (.itemSlots rest (i + 1)
                                    item idx sp) a.2 with
                                | error e => rfl
                                | ok b => rfl)
                  | none =>
                      exact shapeBp _ (.itemSlots rest (i + 1) item idx sp)
                        (fun s2 => jsToString seg ++ s2) hofr
                        (fun S => by
                          simp only [renderStep, hre2, Bool.false_eq_true,
                            if_false, hpg, bind, Except.bind, pure, Except.pure,
                            Except.map]
                          all_goals
                            cases renderStep f (.itemSlots rest (i + 1)
                                item idx sp) S with
                            | error e => rfl
                            | ok a => rfl)
    | rangeFallback items idx sp =>
        cases items with
        | nil => exact shapeA _ "" (fun S => rfl)
        | cons item rest =>
            have hofr2 : opsFree.allOpsFree (item :: rest) = true := hofr
            rw [allOpsFree_cons, Bool.and_eq_true] at hofr2
            obtain ⟨hitem, hrest⟩ := hofr2
            exact shapeC0 _ (.value item (some (toString idx))
                (some (extendPath sp (toString idx))))
              (.rangeFallback rest (idx + 1) sp) hitem hrest
              (fun S => by
                simp only [renderStep, bind, Except.bind, pure, Except.pure]
                all_goals
                  cases renderStep f (.value item (some (toString idx)) (some (extendPath sp (toString idx)))) S with
                  | error e => rfl
                  | ok a =>
                      cases renderStep f (.rangeFallback rest (idx + 1) sp) a.2 with
                      | error e => rfl
                      | ok b => rfl)
    | itemsWithStatics items statics smOpt sp =>
        refine shapeB0 _ _ ?_ (fun S => by
          simp only [renderStep]
          rfl)
        exact hofr
    | plainItems items =>
        cases items with
        | nil => exact shapeA _ "" (fun S => rfl)
        | cons item rest =>
            have hofr2 : opsFree.allOpsFree (item :: rest) = true := hofr
            rw [allOpsFree_cons, Bool.and_eq_true] at hofr2
            obtain ⟨hitem, hrest⟩ := hofr2
            exact shapeC0 _ (.value item none none)
              (.plainItems rest) hitem hrest
              (fun S => by
                simp only [renderStep, bind, Except.bind, pure, Except.pure]
                all_goals
                  cases renderStep f (.value item none none) S with
                  | error e => rfl
                  | ok a =>
                      cases renderStep f (.plainItems rest) a.2 with
                      | error e => rfl
                      | ok b => rfl)

/-- The root slots walk (live tree reads) is pure in the same sense as
renderStep when the tree holds no differential-operations arrays. -/
theorem rootSlotsPure : ∀ (f : Nat) (segs : List Val) (i : Nat) (st : RState)
    (h : String) (st' : RState),
    opsFree.allOpsFreeF st.treeState = true →
    reconstructRootSlots f st segs i = .ok (h, st') →
    st'.treeState = st.treeState ∧
    ∀ G, G.treeState = st.treeState →
      ∃ G2, reconstructRootSlots f G segs i = .ok (h, G2) ∧
        G2.treeState = G.treeState := by
  intro f
  induction f with
  | zero =>
      intro segs i st h st' _ hrun
      rw [show reconstructRootSlots 0 st segs i = .error .fuelOut from rfl] at hrun
      exact absurd hrun (by simp)
  | succ f ihf =>
      intro segs i st h st' htree hrun
      cases segs with
      | nil =>
          rw [show reconstructRootSlots (f + 1) st [] i = .ok ("", st) from rfl] at hrun
          simp only [Except.ok.injEq, Prod.mk.injEq] at hrun
          obtain ⟨hH, hst⟩ := hrun
          subst hH; subst hst
          exact ⟨rfl, fun G _ => ⟨G, rfl, rfl⟩⟩
      | cons seg rest =>
          by_cases hre : rest.isEmpty = true
          · simp only [reconstructRootSlots, hre, if_true] at hrun
            simp only [Except.ok.injEq, Prod.mk.injEq] at hrun
            obtain ⟨hH, hst⟩ := hrun
            subst hH; subst hst
            refine ⟨rfl, fun G _ => ⟨G, ?_, rfl⟩⟩
            simp only [reconstructRootSlots, hre, if_true]
          · have hre2 : rest.isEmpty = false := by
              revert hre
              cases rest.isEmpty <;> simp
            simp only [reconstructRootSlots, hre2, Bool.false_eq_true, if_false,
              bind, Except.bind] at hrun
            cases hga : getA st.treeState (toString i) with
            | some v =>
                simp only [hga] at hrun
                have hv : opsFree v = true := allOpsFreeF_getA htree hga
                split at hrun
                · exact absurd hrun (by simp)
                · next a heq1 =>
                    split at hrun
                    · exact absurd hrun (by simp)
                    · next b heq2 =>
                        simp only [pure, Except.pure, Except.ok.injEq,
                          Prod.mk.injEq] at hrun
                        obtain ⟨hH, hstf⟩ := hrun
                        obtain ⟨ht1, hg1⟩ := renderPure f
                          (.value v (some (toString i)) (some (toString i))) hv
                          st a.1 a.2 heq1
                        have htree1 : opsFree.allOpsFreeF a.2.treeState = true := by
                          rw [ht1]
                          exact htree
                        obtain ⟨ht2, hg2⟩ := ihf rest (i + 1) a.2 b.1 b.2 htree1 heq2
                        refine ⟨by rw [← hstf]; exact ht2.trans ht1, fun G hG => ?_⟩
                        obtain ⟨G1, hG1run, hG1t⟩ := hg1 G hG
                        obtain ⟨G2, hG2run, hG2t⟩ :=
                          hg2 G1 (hG1t.trans (hG.trans ht1.symm))
                        refine ⟨G2, ?_, hG2t.trans hG1t⟩
                        have hgaG : getA G.treeState (toString i) = some v := by
                          rw [hG]
                          exact hga
                        simp only [reconstructRootSlots, renderValue, hre2,
                          Bool.false_eq_true, if_false, hgaG, bind, Except.bind,
                          hG1run, hG2run, pure, Except.pure]
                        rw [hH]
            | none =>
                simp only [hga] at hrun
                split at hrun
                · exact absurd hrun (by simp)
                · next a heq1 =>
                    simp only [pure, Except.pure, Except.ok.injEq,
                      Prod.mk.injEq] at hrun
                    obtain ⟨hH, hstf⟩ := hrun
                    obtain ⟨ht2, hg2⟩ := ihf rest (i + 1) st a.1 a.2 htree heq1
                    refine ⟨by rw [← hstf]; exact ht2, fun G hG => ?_⟩
                    obtain ⟨G2, hG2run, hG2t⟩ := hg2 G hG
                    refine ⟨G2, ?_, hG2t⟩
                    have hgaG : getA G.treeState (toString i) = none := by
                      rw [hG]
                      exact hga
                    simp only [reconstructRootSlots, renderValue, hre2,
                      Bool.false_eq_true, if_false, hgaG, bind, Except.bind,
                      hG2run, pure, Except.pure]
                    rw [hH]

/-- The numeric-key root walk is pure in the same sense. -/
theorem rootNumericPure : ∀ (f : Nat) (ks : List String) (st : RState)
    (h : String) (st' : RState),
    opsFree.allOpsFreeF st.treeState = true →
    renderRootNumericKeys f st ks = .ok (h, st') →
    st'.treeState = st.treeState ∧
    ∀ G, G.treeState = st.treeState →
      ∃ G2, renderRootNumericKeys f G ks = .ok (h, G2) ∧
        G2.treeState = G.treeState := by
  intro f
  induction f with
  | zero =>
      intro ks st h st' _ hrun
      rw [show renderRootNumericKeys 0 st ks = .error .fuelOut from rfl] at hrun
      exact absurd hrun (by simp)
  | succ f ihf =>
      intro ks st h st' htree hrun
      cases ks with
      | nil =>
          rw [show renderRootNumericKeys (f + 1) st [] = .ok ("", st) from rfl] at hrun
          simp only [Except.ok.injEq, Prod.mk.injEq] at hrun
          obtain ⟨hH, hst⟩ := hrun
          subst hH; subst hst
          exact ⟨rfl, fun G _ => ⟨G, rfl, rfl⟩⟩
      | cons k rest =>
          simp only [renderRootNumericKeys, bind, Except.bind] at hrun
          split at hrun
          · exact absurd hrun (by simp)
          · next a heq1 =>
              split at hrun
              · exact absurd hrun (by simp)
              · next b heq2 =>
                  simp only [pure, Except.pure, Except.ok.injEq,
                    Prod.mk.injEq] at hrun
                  obtain ⟨hH, hstf⟩ := hrun
                  have hv : opsFree ((getA st.treeState k).getD vnull) = true :=
                    opsFree_getD htree
                  obtain ⟨ht1, hg1⟩ := renderPure f
                    (.value ((getA st.treeState k).getD vnull) (some k) (some k))
                    hv st a.1 a.2 heq1
                  have htree1 : opsFree.allOpsFreeF a.2.treeState = true := by
                    rw [ht1]
                    exact htree
                  obtain ⟨ht2, hg2⟩ := ihf rest a.2 b.1 b.2 htree1 heq2
                  refine ⟨by rw [← hstf]; exact ht2.trans ht1, fun G hG => ?_⟩
                  obtain ⟨G1, hG1run, hG1t⟩ := hg1 G hG
                  obtain ⟨G2, hG2run, hG2t⟩ :=
                    hg2 G1 (hG1t.trans (hG.trans ht1.symm))
                  refine ⟨G2, ?_, hG2t.trans hG1t⟩
                  have hGv : getA G.treeState k = getA st.treeState k := by
                    rw [hG]
                  simp only [renderRootNumericKeys, renderValue, bind,
                    Except.bind, hGv, hG1run, hG2run, pure, Except.pure]
                  rw [hH]

/-- The whole root render is pure: it keeps the tree unchanged and its
html depends only on the tree. -/
theorem rootPure {f : Nat} {st : RState} {h : String} {st2 : RState}
    (htree : opsFree.allOpsFreeF st.treeState = true)
    (hrun : reconstructRoot f st = .ok (h, st2)) :
    st2.treeState = st.treeState ∧
    ∀ G, G.treeState = st.treeState →
      ∃ G2, reconstructRoot f G = .ok (h, G2) ∧ G2.treeState = G.treeState := by
  cases f with
  | zero =>
      rw [show reconstructRoot 0 st = .error .fuelOut from rfl] at hrun
      exact absurd hrun (by simp)
  | succ f =>
      simp only [reconstructRoot] at hrun
      cases hgs : getA st.treeState "s" with
      | some sv =>
          cases sv with
          | varr ss =>
              simp only [hgs, bind, Except.bind] at hrun
              split at hrun
              · exact absurd hrun (by simp)
              · next a heq1 =>
                  simp only [pure, Except.pure, Except.ok.injEq,
                    Prod.mk.injEq] at hrun
                  obtain ⟨hH, hstf⟩ := hrun
                  obtain ⟨ht1, hg1⟩ := rootSlotsPure f ss 0 st a.1 a.2 htree heq1
                  refine ⟨by rw [← hstf]; exact ht1, fun G hG => ?_⟩
                  obtain ⟨G1, hG1run, hG1t⟩ := hg1 G hG
                  refine ⟨G1, ?_, hG1t⟩
                  have hgsG : getA G.treeState "s" = some (varr ss) := by
                    rw [hG]
                    exact hgs
                  simp only [reconstructRoot, hgsG, bind, Except.bind, hG1run,
                    pure, Except.pure]
                  rw [hH]
          | vnull =>
              simp only [hgs] at hrun
              by_cases hnk : ((st.treeState.map Prod.fst).filter isNumericKeyStr ≠ [] ∧
                  ((st.treeState.map Prod.fst).filter isNumericKeyStr).length =
                    (st.treeState.map Prod.fst).length)
              · rw [if_pos hnk] at hrun
                obtain ⟨ht1, hg1⟩ := rootNumericPure f _ st h st2 htree hrun
                refine ⟨ht1, fun G hG => ?_⟩
                obtain ⟨G2, hGrun, hGt⟩ := hg1 G hG
                refine ⟨G2, ?_, hGt⟩
                have hgsG : getA G.treeState "s" = some vnull := by
                  rw [hG]
                  exact hgs
                simp only [reconstructRoot, hgsG]
                rw [hG, if_pos hnk]
                exact hGrun
              · rw [if_neg hnk] at hrun
                simp only [Except.ok.injEq, Prod.mk.injEq] at hrun
                obtain ⟨hH, hst⟩ := hrun
                subst hH; subst hst
                refine ⟨rfl, fun G hG => ⟨G, ?_, rfl⟩⟩
                have hgsG : getA G.treeState "s" = some vnull := by
                  rw [hG]
                  exact hgs
                simp only [reconstructRoot, hgsG]
                rw [hG, if_neg hnk]
          | vbool b =>
              simp only [hgs] at hrun
              by_cases hnk : ((st.treeState.map Prod.fst).filter isNumericKeyStr ≠ [] ∧
                  ((st.treeState.map Prod.fst).filter isNumericKeyStr).length =
                    (st.treeState.map Prod.fst).length)
              · rw [if_pos hnk] at hrun
                obtain ⟨ht1, hg1⟩ := rootNumericPure f _ st h st2 htree hrun
                refine ⟨ht1, fun G hG => ?_⟩
                obtain ⟨G2, hGrun, hGt⟩ := hg1 G hG
                refine ⟨G2, ?_, hGt⟩
                have hgsG : getA G.treeState "s" = some (vbool b) := by
                  rw [hG]
                  exact hgs
                simp only [reconstructRoot, hgsG]
                rw [hG, if_pos hnk]
                exact hGrun
              · rw [if_neg hnk] at hrun
                simp only [Except.ok.injEq, Prod.mk.injEq] at hrun
                obtain ⟨hH, hst⟩ := hrun
                subst hH; subst hst
                refine ⟨rfl, fun G hG => ⟨G, ?_, rfl⟩⟩
                have hgsG : getA G.treeState "s" = some (vbool b) := by
                  rw [hG]
                  exact hgs
                simp only [reconstructRoot, hgsG]
                rw [hG, if_neg hnk]
          | vnum n =>
              simp only [hgs] at hrun
              by_cases hnk : ((st.treeState.map Prod.fst).filter isNumericKeyStr ≠ [] ∧
                  ((st.treeState.map Prod.fst).filter isNumericKeyStr).length =
                    (st.treeState.map Prod.fst).length)
              · rw [if_pos hnk] at hrun
                obtain ⟨ht1, hg1⟩ := rootNumericPure f _ st h st2 htree hrun
                refine ⟨ht1, fun G hG => ?_⟩
                obtain ⟨G2, hGrun, hGt⟩ := hg1 G hG
                refine ⟨G2, ?_, hGt⟩
                have hgsG : getA G.treeState "s" = some (vnum n) := by
                  rw [hG]
                  exact hgs
                simp only [reconstructRoot, hgsG]
                rw [hG, if_pos hnk]
                exact hGrun
              · rw [if_neg hnk] at hrun
                simp only [Except.ok.injEq, Prod.mk.injEq] at hrun
                obtain ⟨hH, hst⟩ := hrun
                subst hH; subst hst
                refine ⟨rfl, fun G hG => ⟨G, ?_, rfl⟩⟩
                have hgsG : getA G.treeState "s" = some (vnum n) := by
                  rw [hG]
                  exact hgs
                simp only [reconstructRoot, hgsG]
                rw [hG, if_neg hnk]
          | vstr s3 =>
              simp only [hgs] at hrun
              by_cases hnk : ((st.treeState.map Prod.fst).filter isNumericKeyStr ≠ [] ∧
                  ((st.treeState.map Prod.fst).filter isNumericKeyStr).length =
                    (st.treeState.map Prod.fst).length)
              · rw [if_pos hnk] at hrun
                obtain ⟨ht1, hg1⟩ := rootNumericPure f _ st h st2 htree hrun
                refine ⟨ht1, fun G hG => ?_⟩
                obtain ⟨G2, hGrun, hGt⟩ := hg1 G hG
                refine ⟨G2, ?_, hGt⟩
                have hgsG : getA G.treeState "s" = some (vstr s3) := by
                  rw [hG]
                  exact hgs
                simp only [reconstructRoot, hgsG]
                rw [hG, if_pos hnk]
                exact hGrun
              · rw [if_neg hnk] at hrun
                simp only [Except.ok.injEq, Prod.mk.injEq] at hrun
                obtain ⟨hH, hst⟩ := hrun
                subst hH; subst hst
                refine ⟨rfl, fun G hG => ⟨G, ?_, rfl⟩⟩
                have hgsG : getA G.treeState "s" = some (vstr s3) := by
                  rw [hG]
                  exact hgs
                simp only [reconstructRoot, hgsG]
                rw [hG, if_neg hnk]
          | vobj sfs =>
              simp only [hgs] at hrun
              by_cases hnk : ((st.treeState.map Prod.fst).filter isNumericKeyStr ≠ [] ∧
                  ((st.treeState.map Prod.fst).filter isNumericKeyStr).length =
                    (st.treeState.map Prod.fst).length)
              · rw [if_pos hnk] at hrun
                obtain ⟨ht1, hg1⟩ := rootNumericPure f _ st h st2 htree hrun
                refine ⟨ht1, fun G hG => ?_⟩
                obtain ⟨G2, hGrun, hGt⟩ := hg1 G hG
                refine ⟨G2, ?_, hGt⟩
                have hgsG : getA G.treeState "s" = some (vobj sfs) := by
                  rw [hG]
                  exact hgs
                simp only [reconstructRoot, hgsG]
                rw [hG, if_pos hnk]
                exact hGrun
              · rw [if_neg hnk] at hrun
                simp only [Except.ok.injEq, Prod.mk.injEq] at hrun
                obtain ⟨hH, hst⟩ := hrun
                subst hH; subst hst
                refine ⟨rfl, fun G hG => ⟨G, ?_, rfl⟩⟩
                have hgsG : getA G.treeState "s" = some (vobj sfs) := by
                  rw [hG]
                  exact hgs
                simp only [reconstructRoot, hgsG]
                rw [hG, if_neg hnk]
      | none =>
          simp only [hgs] at hrun
          by_cases hnk : ((st.treeState.map Prod.fst).filter isNumericKeyStr ≠ [] ∧
              ((st.treeState.map Prod.fst).filter isNumericKeyStr).length =
                (st.treeState.map Prod.fst).length)
          · rw [if_pos hnk] at hrun
            obtain ⟨ht1, hg1⟩ := rootNumericPure f _ st h st2 htree hrun
            refine ⟨ht1, fun G hG => ?_⟩
            obtain ⟨G2, hGrun, hGt⟩ := hg1 G hG
            refine ⟨G2, ?_, hGt⟩
            have hgsG : getA G.treeState "s" = (none : Option Val) := by
              rw [hG]
              exact hgs
            simp only [reconstructRoot, hgsG]
            rw [hG, if_pos hnk]
            exact hGrun
          · rw [if_neg hnk] at hrun
            simp only [Except.ok.injEq, Prod.mk.injEq] at hrun
            obtain ⟨hH, hst⟩ := hrun
            subst hH; subst hst
            refine ⟨rfl, fun G hG => ⟨G, ?_, rfl⟩⟩
            have hgsG : getA G.treeState "s" = (none : Option Val) := by
              rw [hG]
              exact hgs
            simp only [reconstructRoot, hgsG]
            rw [hG, if_neg hnk]

/-- C3 (amended): applying the same update twice is idempotent PROVIDED
the update's top-level entries carry no differential-operations arrays
(opsFree: those entries unconditionally report changed, refuted by
C3_counterexample), have unique keys at every object level (noDupKeys,
automatic for JSON), are range-neutral (they never turn a stored non-Range
object into a Range node, which would be replaced wholesale on the second
pass), and the merged tree is itself free of stored operations arrays.
Under these hypotheses the second applyUpdate with the same update returns
the SAME html string, changed = false, and leaves the tree state
untouched. -/
theorem C3_second_update_noop
    (f : Nat) (st : RState) (u : Val) (entries : List (String × Val))
    (c1 : Bool) (st1 : RState) (html : String) (flag1 : Bool) (st2 : RState)
    (hfacts : ∀ kv ∈ entries, opsFree kv.2 = true ∧ noDupKeys kv.2 = true ∧
      rangeNeutral kv.2 = true)
    (hku : noDupKeys.keysUnique (entries.map Prod.fst) = true)
    (hent : entriesOf u = .ok entries)
    (hmerge : applyUpdateEntries st false entries = .ok (c1, st1))
    (hTree : opsFree.allOpsFreeF st1.treeState = true)
    (h1 : applyUpdate f st u = .ok ((html, flag1), st2)) :
    ∃ st3, applyUpdate f st2 u = .ok ((html, false), st3) ∧
      st3.treeState = st2.treeState := by
  unfold applyUpdate at h1
  simp only [hent, hmerge, bind, Except.bind] at h1
  cases hrr : reconstructRoot f st1 with
  | error e =>
      simp only [hrr] at h1
      exact absurd h1 (by simp)
  | ok r =>
      simp only [hrr, pure, Except.pure, Except.ok.injEq, Prod.mk.injEq] at h1
      obtain ⟨⟨hhtml, hflag⟩, hst2⟩ := h1
      obtain ⟨hrsM, hrikM, hneM, hselfM⟩ :=
        entries_main entries st false c1 st1 hfacts hku hmerge
      obtain ⟨htrR, hgR⟩ := rootPure hTree hrr
      have hst2t : st2.treeState = st1.treeState := by
        rw [← hst2]
        exact htrR
      have hm2 : applyUpdateEntries st2 false entries = .ok (false, st2) :=
        hselfM st2 false (fun kv _ => by rw [hst2t])
      obtain ⟨G2, hr2, hG2t⟩ := hgR st2 hst2t
      refine ⟨G2, ?_, hG2t⟩
      unfold applyUpdate
      simp only [hent, hm2, bind, Except.bind, hr2, pure, Except.pure]
      rw [hhtml]

/-- Witness for C3: a two-slot fragment update applied twice; the second
call reports no change and reproduces the html. -/
theorem C3_witness :
    ∃ st3, applyUpdate 50 c3wSt1 c3wUp = .ok (("<p>hi</p>", false), st3) ∧
      st3.treeState = c3wSt1.treeState :=
  C3_second_update_noop 50 initState c3wUp
    [("0", vstr "hi"), ("s", varr [vstr "<p>", vstr "</p>"])]
    true c3wSt1 "<p>hi</p>" true c3wSt1
    (by decide) rfl rfl rfl rfl rfl

end LT

